import Mathlib

/-! Capability discovery and transport of the vocab-flashcards client.

Shallow embedding of `src/api/client.js`, `src/api/base.js`, `src/api/openapi.js`
and `src/utils/fuzzy.js`.

Modelling conventions.
* A JavaScript value is a `JVal`.  Numbers are integers.  The pair list of an
  object is the enumeration order of its own keys (keys are taken distinct, a
  lookup returns the first pair with the key).  Objects are finite maps: a
  read finds own keys only, the members inherited from `Object.prototype` are
  not modelled.
* Built-ins whose result is not determined by the code are parameters: the URL
  parser, `localeCompare`, `JSON.parse`, `JSON.stringify`, the environment
  variable.  `encodeURIComponent`, `String.prototype.replace` and `trim` are
  modelled.
* A JavaScript string is a Lean `String`; `toLowerCase` / `toUpperCase` act on
  the ASCII letters and leave every other character unchanged.
* `null` results of functions returning a record are `Option.none`.
* A recursion of the source that need not end (`resolveSchema`) carries a bound
  on the depth of nested calls and returns `none` when the bound is reached: the
  call returns exactly when some bound is enough.
* The key-value store behind the cache of the description document is not
  modelled: its reads are inputs, its writes are reported.
-/

set_option autoImplicit false

namespace VocabClient

/-! ## JavaScript values -/

/-- JSON-like JavaScript value. -/
inductive JVal where
  | undefined
  | null
  | bool (b : Bool)
  | num (n : Int)
  | str (s : String)
  | arr (xs : List JVal)
  | obj (kvs : List (String × JVal))

namespace JVal

instance : Inhabited JVal := ⟨JVal.undefined⟩

/-- JavaScript truthiness (`!!v`). -/
def truthy : JVal → Bool
  | undefined => false
  | null => false
  | bool b => b
  | num n => n != 0
  | str s => s != ""
  | arr _ => true
  | obj _ => true

/-- First value stored under a key in a pair list, `undefined` when there is none. -/
def lookup (k : String) : List (String × JVal) → JVal
  | [] => undefined
  | (k', v) :: rest => if k' == k then v else lookup k rest

/-- Property read `v[k]` (also `v?.[k]`) for a key that is not a built-in member:
only an object can hold it. -/
def get (v : JVal) (k : String) : JVal :=
  match v with
  | obj kvs => lookup k kvs
  | _ => undefined

/-- The test `Array.isArray(v)`. -/
def isArray : JVal → Bool
  | arr _ => true
  | _ => false

/-- The test `typeof v === "string"`. -/
def isString : JVal → Bool
  | str _ => true
  | _ => false

/-- The elements of an array value (empty for anything else). -/
def elems : JVal → List JVal
  | arr xs => xs
  | _ => []

/-- The expression `a || b`. -/
def orElse (a b : JVal) : JVal := if a.truthy then a else b

mutual
/-- The conversion `String(v)` (also what a template literal applies). -/
def toStr : JVal → String
  | undefined => "undefined"
  | null => "null"
  | bool b => if b then "true" else "false"
  | num n => toString n
  | str s => s
  | arr xs => joinFrom "," true xs
  | obj _ => "[object Object]"
termination_by structural v => v
/-- Worker of `Array.prototype.join`: `first` tells whether the separator is
still to be withheld; `undefined` and `null` elements contribute nothing. -/
def joinFrom (sep : String) (first : Bool) : List JVal → String
  | [] => ""
  | x :: rest =>
    (if first then "" else sep) ++
    (match x with
      | undefined => ""
      | null => ""
      | y => toStr y) ++ joinFrom sep false rest
termination_by structural xs => xs
end

/-- The call `xs.join(sep)`. -/
def join (sep : String) (xs : List JVal) : String := joinFrom sep true xs

/-- Worker of `entries` for an array: index keys from `i` on. -/
def indexed (i : Nat) : List JVal → List (String × JVal)
  | [] => []
  | x :: rest => (toString i, x) :: indexed (i + 1) rest

/-- The call `Object.entries(v)`: the pairs of an object, index/element pairs of
an array, index/character pairs of a string, nothing for the other values the
callers can pass. -/
def entries : JVal → List (String × JVal)
  | obj kvs => kvs
  | arr xs => indexed 0 xs
  | str s => indexed 0 (s.data.map (fun c => str (String.singleton c)))
  | _ => []

end JVal

/-! ## Strings -/

/-- The method `s.toLowerCase()`. -/
def toLowerCase (s : String) : String := ⟨s.data.map Char.toLower⟩

/-- The method `s.toUpperCase()`. -/
def toUpperCase (s : String) : String := ⟨s.data.map Char.toUpper⟩

/-- The method `t.includes(k)`: `k` occurs as a contiguous part of `t`. -/
def includes (t k : String) : Bool := t.data.tails.any (fun s => k.data.isPrefixOf s)

/-- The method `t.startsWith(k)`. -/
def startsWith (t k : String) : Bool := k.data.isPrefixOf t.data

/-- The method `t.endsWith(k)`. -/
def endsWith (t k : String) : Bool := k.data.isSuffixOf t.data

/-! ## client.js -/

/-- The constant `HTTP_METHODS`. -/
def HTTP_METHODS : List String := ["get", "post", "put", "patch", "delete", "options", "head"]

/-- The function `toLower(value)`: `String(value || "").toLowerCase()`. -/
def toLower (value : JVal) : String := toLowerCase (value.orElse (.str "")).toStr

/-- The function `includesAny(text, keywords)`. -/
def includesAny (text : JVal) (keywords : List String) : Bool :=
  keywords.any (fun k => includes (toLower text) (toLower (.str k)))

/-- Operation record pushed by `flattenOperations`. -/
structure Operation where
  id : JVal
  operationId : JVal
  summary : JVal
  description : JVal
  tags : List JVal
  method : String
  methodLower : String
  path : String
  raw : JVal

/-- The function `opText(op)`. -/
def opText (op : Operation) : String :=
  toLowerCase (op.operationId.toStr ++ " " ++ op.summary.toStr ++ " " ++ op.description.toStr
    ++ " " ++ op.path ++ " " ++ JVal.join " " op.tags)

/-- The record built for one truthy `raw` found under `path` and `method`. -/
def mkOperation (path method : String) (raw : JVal) : Operation where
  id := (raw.get "operationId").orElse (.str (method ++ "_" ++ path))
  operationId := (raw.get "operationId").orElse (.str (method ++ "_" ++ path))
  summary := (raw.get "summary").orElse (.str "")
  description := (raw.get "description").orElse (.str "")
  tags :=
    if (raw.get "tags").isArray && (raw.get "tags").elems.length != 0
    then (raw.get "tags").elems else [.str "default"]
  method := toUpperCase method
  methodLower := method
  path := path
  raw := raw

/-- The function `flattenOperations(schema)`. -/
def flattenOperations (schema : JVal) : List Operation :=
  if !schema.truthy || !(schema.get "paths").truthy then []
  else
    (schema.get "paths").entries.flatMap (fun pm =>
      HTTP_METHODS.filterMap (fun method =>
        let raw := pm.2.get method
        if !raw.truthy then none else some (mkOperation pm.1 method raw)))

/-- A scoring rule; an absent field is `none`. -/
structure Rule where
  method : Option String := none
  pathIncludes : Option (List String) := none
  pathExcludes : Option (List String) := none
  tagIncludes : Option (List String) := none
  textIncludes : Option (List String) := none
  preferPathExact : Option String := none
  preferOperationId : Option String := none

/-- Truthiness of an optional string field: present and not the empty string. -/
def strSet : Option String → Bool
  | some s => s != ""
  | none => false

/-- The JavaScript value of an optional string field. -/
def optVal : Option String → JVal
  | some s => .str s
  | none => .undefined

/-- The function `scoreOperation(op, rule)`. -/
def scoreOperation (op : Operation) (rule : Rule) : Int :=
  if strSet rule.method && toLower (.str op.method) != toLower (optVal rule.method) then -1
  else if rule.pathIncludes.isSome && !includesAny (.str op.path) (rule.pathIncludes.getD []) then -1
  else if rule.pathExcludes.isSome && includesAny (.str op.path) (rule.pathExcludes.getD []) then -1
  else if rule.tagIncludes.isSome &&
      !includesAny (.str (JVal.join " " op.tags)) (rule.tagIncludes.getD []) then -1
  else if rule.textIncludes.isSome &&
      !includesAny (.str (opText op)) (rule.textIncludes.getD []) then -1
  else
    (if strSet rule.method then 3 else 0)
    + (if rule.pathIncludes.isSome then 5 else 0)
    + (if rule.tagIncludes.isSome then 3 else 0)
    + (if rule.textIncludes.isSome then 2 else 0)
    + (if strSet rule.preferPathExact &&
          toLower (.str op.path) == toLower (optVal rule.preferPathExact) then 8 else 0)
    + (if strSet rule.preferOperationId &&
          includesAny op.operationId [rule.preferOperationId.getD ""] then 3 else 0)

/-- The loop state of `findBest`: `best` and `bestScore`. -/
abbrev BestState := Option Operation × Int

/-- The body of the inner loop of `findBest`. -/
def bestStep (op : Operation) (st : BestState) (rule : Rule) : BestState :=
  if scoreOperation op rule > st.2 then (some op, scoreOperation op rule) else st

/-- The two nested loops of `findBest`, from the initial state `(null, -1)`. -/
def findBestLoop (operations : List Operation) (rules : List Rule) : BestState :=
  operations.foldl (fun st op => rules.foldl (bestStep op) st) (none, -1)

/-- The function `findBest(operations, rules)`. -/
def findBest (operations : List Operation) (rules : List Rule) : Option Operation :=
  (findBestLoop operations rules).1

/-- The rule lists of `discoverCoreOperations`, in the order of the keys of `core`. -/
def coreRules : List (String × List Rule) :=
  [ ("health",
      [ { method := some "GET", preferPathExact := some "/health", pathIncludes := some ["health"] } ]),
    ("addVocab",
      [ { method := some "POST", tagIncludes := some ["vocab"], pathIncludes := some ["/vocab"],
          pathExcludes := some ["upsert"] },
        { method := some "POST", pathIncludes := some ["/vocab"], pathExcludes := some ["upsert"] } ]),
    ("upsertVocab",
      [ { method := some "POST", tagIncludes := some ["vocab"], pathIncludes := some ["upsert"] },
        { method := some "POST", textIncludes := some ["upsert", "ai"],
          pathIncludes := some ["vocab"] } ]),
    ("listVocab",
      [ { method := some "GET", tagIncludes := some ["vocab"], pathIncludes := some ["/vocab"],
          pathExcludes := some ["\x7b"], preferPathExact := some "/vocab" },
        { method := some "GET", pathIncludes := some ["/vocab"], pathExcludes := some ["\x7b"] } ]),
    ("getVocab",
      [ { method := some "GET", tagIncludes := some ["vocab"], pathIncludes := some ["/vocab", "\x7b"] } ]),
    ("updateVocab",
      [ { method := some "PUT", tagIncludes := some ["vocab"], pathIncludes := some ["/vocab", "\x7b"] },
        { method := some "PATCH", tagIncludes := some ["vocab"],
          pathIncludes := some ["/vocab", "\x7b"] } ]),
    ("deleteVocab",
      [ { method := some "DELETE", tagIncludes := some ["vocab"],
          pathIncludes := some ["/vocab", "\x7b"] } ]),
    ("sessionToday",
      [ { method := some "GET", pathIncludes := some ["session", "today"] },
        { method := some "GET", tagIncludes := some ["session"], textIncludes := some ["today"] } ]),
    ("submitReview",
      [ { method := some "POST", pathIncludes := some ["review"], pathExcludes := some ["logs"] } ]),
    ("aiEnrich",
      [ { method := some "POST", pathIncludes := some ["ai", "enrich"] },
        { method := some "POST", tagIncludes := some ["ai"], textIncludes := some ["enrich"] } ]),
    ("aiJudge",
      [ { method := some "POST", pathIncludes := some ["judge"] },
        { method := some "POST", tagIncludes := some ["ai"],
          textIncludes := some ["equivalence", "judge"] } ]),
    ("syncExport",
      [ { method := some "GET", pathIncludes := some ["sync", "export"] } ]),
    ("syncImport",
      [ { method := some "POST", pathIncludes := some ["sync", "import"] } ]) ]

/-- The rule list registered for a capability name (empty for an unknown name). -/
def rulesOf (name : String) : List Rule :=
  match coreRules.find? (fun e => e.1 == name) with
  | some e => e.2
  | none => []

/-- Result of `discoverCoreOperations`: the catalog and the object `core`, whose
pairs are in key order and whose `null` values are `none`. -/
structure Discovery where
  operations : List Operation
  core : List (String × Option Operation)

/-- The function `discoverCoreOperations(schema)`. -/
def discoverCoreOperations (schema : JVal) : Discovery :=
  let operations := flattenOperations schema
  { operations := operations
    core := coreRules.map (fun e => (e.1, findBest operations e.2)) }

/-- The read `core[name]` of a discovery result (`none` for `null` and for a missing key). -/
def Discovery.coreGet (d : Discovery) (name : String) : Option Operation :=
  match d.core.find? (fun e => e.1 == name) with
  | some e => e.2
  | none => none

/-! ## base.js -/

/-- The function `extractErrorMessage(data, fallback)`; `stringify` is the
built-in `JSON.stringify`. -/
def extractErrorMessage (stringify : JVal → String) (data : JVal) (fallback : String) : String :=
  if !data.truthy then fallback
  else if data.isString then data.toStr
  else if (data.get "detail").isString then (data.get "detail").toStr
  else if (data.get "detail").isArray then stringify (data.get "detail")
  else if (data.get "message").isString then (data.get "message").toStr
  else fallback

/-- What `fetch` resolves to, as far as `requestJson` reads it. -/
structure Response where
  status : Nat
  text : String
  headers : List (String × String)

/-- The property `response.ok`: the status is in the range 200-299. -/
def Response.ok (r : Response) : Bool := decide (200 ≤ r.status) && decide (r.status ≤ 299)

/-- A value thrown by an attempt: an `ApiError`, or any other exception (a
failure of `fetch` itself: network unreachable, aborted). -/
inductive Failure where
  | apiError (message : String) (status : Nat) (data : JVal) (url method : String)
  | other (reason : String)

/-- The value returned by a successful attempt. -/
structure Success where
  status : Nat
  data : JVal
  headers : List (String × String)
  url : String

/-- Lines 78-86 of `requestJson`: the parsed body of a response text;
`jsonParse` is the built-in `JSON.parse`, `none` when it throws. -/
def parseBody (jsonParse : String → Option JVal) (text : String) : JVal :=
  if text != "" then
    match jsonParse text with
    | some v => v
    | none => .str text
  else .null

/-- The closure `attempt` of `requestJson`, given what its call of `fetch` did:
threw (`Except.error`) or resolved to a response. -/
def attempt (jsonParse : String → Option JVal) (stringify : JVal → String) (url method : String)
    (fetched : Except String Response) : Except Failure Success :=
  match fetched with
  | .error reason => .error (.other reason)
  | .ok response =>
    let data := parseBody jsonParse response.text
    if !response.ok then
      .error (.apiError (extractErrorMessage stringify data ("HTTP " ++ toString response.status))
        response.status data url method)
    else .ok { status := response.status, data := data, headers := response.headers, url := url }

/-- The constant `maxAttempts` of `requestJson`, `Math.max(1, Number(retries) + 1)`,
for a `retries` that is an integer: a fraction or a value that `Number` turns
into `NaN` is not a number of this embedding. -/
def maxAttempts (retries : Int) : Int := max 1 (retries + 1)

/-- The flag `canRetry` computed in the `catch` block of attempt `i` (0-indexed). -/
def canRetry (i : Nat) (maxAttempts : Int) (error : Failure) : Bool :=
  decide ((i : Int) < maxAttempts - 1) &&
    (match error with
      | .apiError _ status _ _ _ => decide (status ≥ 500)
      | .other _ => true)

/-- An execution of `requestJson`: the value returned (`Except.ok`) or the value
of `lastError` thrown (`none` for `null`), the number of calls of `attempt`, and
the arguments of the calls of `sleep` in order. -/
structure Run where
  result : Except (Option Failure) Success
  attempts : Nat
  sleeps : List Int

/-- The loop `for (let i = 0; i < maxAttempts; i += 1)` of `requestJson` followed
by `throw lastError`, entered at index `i` with `left` iterations to go
(`left = maxAttempts - i`); `attemptAt i` is the outcome of the call of `attempt`
made in iteration `i`. -/
def retryLoop (attemptAt : Nat → Except Failure Success) (maxAttempts retryDelayMs : Int) :
    Nat → Nat → Option Failure → Run
  | 0, _, lastError => { result := .error lastError, attempts := 0, sleeps := [] }
  | left + 1, i, _ =>
    match attemptAt i with
    | .ok r => { result := .ok r, attempts := 1, sleeps := [] }
    | .error e =>
      if canRetry i maxAttempts e then
        let rest := retryLoop attemptAt maxAttempts retryDelayMs left (i + 1) (some e)
        { result := rest.result, attempts := rest.attempts + 1,
          sleeps := retryDelayMs * ((i : Int) + 1) :: rest.sleeps }
      else { result := .error (some e), attempts := 1, sleeps := [] }

/-- Lines 105-119 of `requestJson`: the retry loop over given attempt outcomes. -/
def requestJsonWith (attemptAt : Nat → Except Failure Success) (retries retryDelayMs : Int) : Run :=
  retryLoop attemptAt (maxAttempts retries) retryDelayMs (maxAttempts retries).toNat 0 none

/-- The function `requestJson` from line 65 on, where `url` is the value of
`buildUrl(baseUrl, path, query)` and `fetches i` is what the call of `fetch` of
iteration `i` does. -/
def requestJson (jsonParse : String → Option JVal) (stringify : JVal → String)
    (url method : String) (retries retryDelayMs : Int) (fetches : Nat → Except String Response) :
    Run :=
  requestJsonWith (fun i => attempt jsonParse stringify url method (fetches i)) retries retryDelayMs

/-- Invariant of the outer loop of `findBest` after the operations `ops`. -/
structure BestInv (rules : List Rule) (ops : List Operation) (st : BestState) : Prop where
  lower : -1 ≤ st.2
  upper : ∀ o ∈ ops, ∀ r ∈ rules, scoreOperation o r ≤ st.2
  none_score : st.1 = none → st.2 = -1
  some_first : ∀ op, st.1 = some op → ∃ pre post, ops = pre ++ op :: post ∧
    (∃ r ∈ rules, scoreOperation op r = st.2) ∧ 0 ≤ st.2 ∧
    ∀ o ∈ pre, ∀ r ∈ rules, scoreOperation o r < st.2

/-! ## Statements compared with `scoreOperation` -/

/-- Indicator of a test: 1 when it holds, 0 otherwise. -/
def ind (b : Bool) : Int := if b then 1 else 0

/-- Some keyword occurs in the text, compared as written (case-sensitively). -/
def occursExact (text : String) (keywords : List String) : Bool :=
  keywords.any (fun k => includes text k)

/-- Some lower-cased keyword occurs in the lower-cased text. -/
def occursLower (text : String) (keywords : List String) : Bool :=
  keywords.any (fun k => includes (toLowerCase text) (toLowerCase k))

/-- The score of claim C2 read as written: a field is set when it is present,
keywords occur in the path, the joined tags and the operation text as written,
the path equals `preferPathExact`, the operation id contains `preferOperationId`;
only the method is compared case-insensitively. -/
def scoreAsStated (op : Operation) (rule : Rule) : Int :=
  if (rule.method.isSome && toLowerCase op.method != toLowerCase (rule.method.getD ""))
      || (rule.pathIncludes.isSome && !occursExact op.path (rule.pathIncludes.getD []))
      || (rule.pathExcludes.isSome && occursExact op.path (rule.pathExcludes.getD []))
      || (rule.tagIncludes.isSome && !occursExact (JVal.join " " op.tags) (rule.tagIncludes.getD []))
      || (rule.textIncludes.isSome && !occursExact (opText op) (rule.textIncludes.getD []))
  then -1
  else
    3 * ind rule.method.isSome + 5 * ind rule.pathIncludes.isSome
      + 3 * ind rule.tagIncludes.isSome + 2 * ind rule.textIncludes.isSome
      + 8 * ind (rule.preferPathExact.isSome && op.path == rule.preferPathExact.getD "")
      + 3 * ind (rule.preferOperationId.isSome &&
          includes op.operationId.toStr (rule.preferOperationId.getD ""))

/-- Some constraint of the rule is violated by the operation, every text
comparison being made on lower-cased text; the method constraint counts only
when the method is a non-empty string. -/
def ruleViolated (op : Operation) (rule : Rule) : Bool :=
  (strSet rule.method && toLowerCase op.method != toLowerCase (rule.method.getD ""))
    || (rule.pathIncludes.isSome && !occursLower op.path (rule.pathIncludes.getD []))
    || (rule.pathExcludes.isSome && occursLower op.path (rule.pathExcludes.getD []))
    || (rule.tagIncludes.isSome && !occursLower (JVal.join " " op.tags) (rule.tagIncludes.getD []))
    || (rule.textIncludes.isSome && !occursLower (opText op) (rule.textIncludes.getD []))

/-- The weighted sum of claim C2 with every text comparison made on lower-cased
text and the string fields counting only when non-empty. -/
def ruleWeight (op : Operation) (rule : Rule) : Int :=
  3 * ind (strSet rule.method) + 5 * ind rule.pathIncludes.isSome
    + 3 * ind rule.tagIncludes.isSome + 2 * ind rule.textIncludes.isSome
    + 8 * ind (strSet rule.preferPathExact &&
        toLowerCase op.path == toLowerCase (rule.preferPathExact.getD ""))
    + 3 * ind (strSet rule.preferOperationId &&
        includes (toLowerCase (op.operationId.orElse (.str "")).toStr)
          (toLowerCase (rule.preferOperationId.getD "")))

/-- The operation `GET /Health` as `flattenOperations` records it. -/
def healthUpperOp : Operation := mkOperation "/Health" "get" (.obj [])

/-- The rule registered for the capability `health`. -/
def healthRule : Rule :=
  { method := some "GET", preferPathExact := some "/health", pathIncludes := some ["health"] }

/-- A description document declaring `GET /Health` and an untagged `POST /api/v1/vocab`. -/
def sampleDoc : JVal :=
  .obj [("paths", .obj
    [ ("/Health", .obj [("get", .obj [("operationId", .str "h")])]),
      ("/api/v1/vocab", .obj [("post", .obj [("summary", .str "add")])]) ])]

/-- First rule of `upsertVocab`. -/
def upsertTagRule : Rule :=
  { method := some "POST", tagIncludes := some ["vocab"], pathIncludes := some ["upsert"] }

/-- Second rule of `upsertVocab`. -/
def upsertTextRule : Rule :=
  { method := some "POST", textIncludes := some ["upsert", "ai"], pathIncludes := some ["vocab"] }

/-- First rule of `addVocab`. -/
def addTagRule : Rule :=
  { method := some "POST", tagIncludes := some ["vocab"], pathIncludes := some ["/vocab"],
    pathExcludes := some ["upsert"] }

/-- Second rule of `addVocab`. -/
def addPlainRule : Rule :=
  { method := some "POST", pathIncludes := some ["/vocab"], pathExcludes := some ["upsert"] }

/-- A document declaring `POST /api/v1/vocab/upsert` and then `POST /api/v1/vocab`,
both tagged `vocab`. -/
def vocabDoc : JVal :=
  .obj [("paths", .obj
    [ ("/api/v1/vocab/upsert", .obj [("post", .obj [("tags", .arr [.str "vocab"])])]),
      ("/api/v1/vocab", .obj [("post", .obj [("tags", .arr [.str "vocab"])])]) ])]

/-- The thirteen capability names, in the key order of `core`. -/
def capabilityNames : List String :=
  ["health", "addVocab", "upsertVocab", "listVocab", "getVocab", "updateVocab", "deleteVocab",
    "sessionToday", "submitReview", "aiEnrich", "aiJudge", "syncExport", "syncImport"]

/-! ## Statements compared with the retry loop -/

/-- An attempt outcome that ends the loop whatever the attempt's index: a
returned value, or an `ApiError` whose status is below 500. -/
def stops : Except Failure Success → Bool
  | .ok _ => true
  | .error (.apiError _ status _ _ _) => decide (status < 500)
  | .error (.other _) => false

/-- What `requestJson` does with the outcome of its final attempt: returns the
value, or throws the error. -/
def outcomeResult : Except Failure Success → Except (Option Failure) Success
  | .ok r => .ok r
  | .error e => .error (some e)

/-- Attempt outcomes that all fail at the network level. -/
def alwaysDown : Nat → Except Failure Success := fun _ => .error (.other "network down")

/-- Attempt outcomes failing with status 503 twice, then with status 404. -/
def twiceBusyThenMissing : Nat → Except Failure Success := fun i =>
  if i < 2 then .error (.apiError "HTTP 503" 503 .null "http://h/x" "GET")
  else .error (.apiError "not found" 404 (.obj [("detail", .str "not found")]) "http://h/x" "GET")

/-! ## Statements compared with `extractErrorMessage` -/

/-- The message of claim C10 read as written: the body itself if it is a string;
else its `detail` if that is a string; else the JSON text of `detail` if that is
a list; else its `message` if that is a string; else the fallback. -/
def messageAsStated (stringify : JVal → String) (data : JVal) (fallback : String) : String :=
  match data with
  | .str s => s
  | _ =>
    match data.get "detail" with
    | .str s => s
    | .arr xs => stringify (.arr xs)
    | _ =>
      match data.get "message" with
      | .str m => m
      | _ => fallback

/-- The same priority order, except that an empty string body yields the fallback. -/
def messageAmended (stringify : JVal → String) (data : JVal) (fallback : String) : String :=
  match data with
  | .str s => if s = "" then fallback else s
  | _ =>
    match data.get "detail" with
    | .str s => s
    | .arr xs => stringify (.arr xs)
    | _ =>
      match data.get "message" with
      | .str m => m
      | _ => fallback

/-! ## client.js: path parameters -/

/-- Worker of `getPathParams`: the matches of `/\{([^}]+)\}/g`, each with its
braces removed.  `open` is `none` outside a candidate match and `some a` after
an opening brace followed by the characters `a`, none of them a closing brace.
A closing brace ends the candidate: a match when `a` is not empty, otherwise no
match starts at that opening brace; when the text ends inside a candidate, no
closing brace follows and nothing matches any more. -/
def scanParams : Option (List Char) → List Char → List String
  | _, [] => []
  | none, c :: cs => if c = Char.ofNat 123 then scanParams (some []) cs else scanParams none cs
  | some a, c :: cs =>
    if c = Char.ofNat 125 then
      (if a = [] then scanParams none cs
        else ⟨a.filter (fun x => x != Char.ofNat 123 && x != Char.ofNat 125)⟩ :: scanParams none cs)
    else scanParams (some (a ++ [c])) cs

/-- The function `getPathParams(path)`. -/
def getPathParams (path : String) : List String := scanParams none path.data

/-- Upper-case hexadecimal digit of a number below 16. -/
def hexDigit (n : Nat) : Char := if n < 10 then Char.ofNat (48 + n) else Char.ofNat (55 + n)

/-- Percent-encoding of one byte. -/
def percentByte (b : UInt8) : List Char := ['%', hexDigit (b.toNat / 16), hexDigit (b.toNat % 16)]

/-- The marks `- _ . ! ~ * ' ( )` that `encodeURIComponent` leaves unescaped. -/
def uriUnreservedMarks : List Char := [45, 95, 46, 33, 126, 42, 39, 40, 41].map Char.ofNat

/-- Characters that `encodeURIComponent` leaves unescaped. -/
def isUriUnreserved (c : Char) : Bool := c.isAlphanum || uriUnreservedMarks.contains c

/-- The built-in `encodeURIComponent`: every other character is replaced by the
percent-encoding of its UTF-8 bytes. -/
def encodeURIComponent (s : String) : String :=
  ⟨s.data.flatMap (fun c =>
    if isUriUnreserved c then [c] else (String.utf8EncodeChar c).flatMap percentByte)⟩

/-- The replacement text of `String.prototype.replace` for a string pattern:
`$$` stands for a dollar sign, `$&` for the matched text, a dollar sign followed
by a grave accent for the text before the match and by an apostrophe for the
text after it. -/
def expandReplacement (matched before after : List Char) : List Char → List Char
  | [] => []
  | [c] => [c]
  | c :: d :: rest =>
    if c = '$' then
      if d = '$' then '$' :: expandReplacement matched before after rest
      else if d = '&' then matched ++ expandReplacement matched before after rest
      else if d = Char.ofNat 96 then before ++ expandReplacement matched before after rest
      else if d = Char.ofNat 39 then after ++ expandReplacement matched before after rest
      else c :: expandReplacement matched before after (d :: rest)
    else c :: expandReplacement matched before after (d :: rest)

/-- Worker of `replaceFirst`: `before` holds, reversed, the text already passed. -/
def replaceFirstFrom (pattern replacement : List Char) : List Char → List Char → List Char
  | before, [] =>
    if pattern = [] then expandReplacement [] before.reverse [] replacement else []
  | before, c :: cs =>
    if pattern.isPrefixOf (c :: cs) then
      expandReplacement pattern before.reverse ((c :: cs).drop pattern.length) replacement
        ++ (c :: cs).drop pattern.length
    else c :: replaceFirstFrom pattern replacement (c :: before) cs

/-- The method `s.replace(pattern, replacement)` for a string pattern: the first
occurrence of the pattern is replaced. -/
def replaceFirst (s pattern replacement : String) : String :=
  ⟨replaceFirstFrom pattern.data replacement.data [] s.data⟩

/-- The expression `String(raw ?? "")`. -/
def paramText (raw : JVal) : String :=
  match raw with
  | .undefined => ""
  | .null => ""
  | v => v.toStr

/-- The function `buildPath(pathTemplate, pathParams = {})`. -/
def buildPath (pathTemplate : String) (pathParams : JVal) : String :=
  (getPathParams pathTemplate).foldl
    (fun result param =>
      replaceFirst result ("\x7b" ++ param ++ "\x7d")
        (encodeURIComponent (paramText (pathParams.get param))))
    pathTemplate

/-! ## client.js: the facade -/

/-- The arguments of the call of `requestJson` made by `callOperation`. -/
structure TransportCall where
  baseUrl : String
  path : String
  method : String
  query : JVal
  body : JVal

/-- The function `callOperation` up to its call of `requestJson`: the error
thrown when `op` is missing, or the arguments of that call. -/
def callOperation (baseUrl : String) (op : Option Operation) (pathParams query body : JVal) :
    Except String TransportCall :=
  match op with
  | none => .error "Operation kh么ng t峄搉 t岷 trong OpenAPI."
  | some o =>
    .ok { baseUrl := baseUrl, path := buildPath o.path pathParams, method := o.method,
          query := query, body := body }

/-- The object returned by `createApiClient`, without its methods. -/
structure ApiClient where
  schema : JVal
  baseUrl : String
  operations : List Operation
  core : List (String × Option Operation)

/-- The function `createApiClient({ schema, baseUrl })`. -/
def createApiClient (schema : JVal) (baseUrl : String) : ApiClient :=
  { schema := schema, baseUrl := baseUrl
    operations := (discoverCoreOperations schema).operations
    core := (discoverCoreOperations schema).core }

/-- The read `core[name]` of a client. -/
def ApiClient.coreGet (c : ApiClient) (name : String) : Option Operation :=
  match c.core.find? (fun e => e.1 == name) with
  | some e => e.2
  | none => none

/-- The method `has(name)`: `Boolean(core[name])`. -/
def ApiClient.has (c : ApiClient) (name : String) : Bool := (c.coreGet name).isSome

/-- The closure `requireOp(name)`. -/
def ApiClient.requireOp (c : ApiClient) (name : String) : Except String Operation :=
  match c.coreGet name with
  | some op => .ok op
  | none => .error ("Backend ch瓢a expose operation \x27" ++ name ++ "\x27.")

/-- A call of one of the thirteen capability methods, with its arguments
(`undefined` for an argument left out). -/
inductive FacadeCall where
  | health
  | addVocab (payload : JVal)
  | upsertVocab (payload : JVal)
  | listVocab (query : JVal)
  | getVocab (vocabId : JVal)
  | updateVocab (vocabId payload : JVal)
  | deleteVocab (vocabId : JVal)
  | sessionToday (limit : JVal)
  | submitReview (payload : JVal)
  | aiEnrich (payload : JVal)
  | aiJudge (payload : JVal)
  | syncExport
  | syncImport (payload : JVal)

/-- The name of the method called. -/
def FacadeCall.name : FacadeCall → String
  | .health => "health"
  | .addVocab _ => "addVocab"
  | .upsertVocab _ => "upsertVocab"
  | .listVocab _ => "listVocab"
  | .getVocab _ => "getVocab"
  | .updateVocab _ _ => "updateVocab"
  | .deleteVocab _ => "deleteVocab"
  | .sessionToday _ => "sessionToday"
  | .submitReview _ => "submitReview"
  | .aiEnrich _ => "aiEnrich"
  | .aiJudge _ => "aiJudge"
  | .syncExport => "syncExport"
  | .syncImport _ => "syncImport"

/-- A parameter with a default value: the default replaces `undefined`. -/
def withDefault (v d : JVal) : JVal :=
  match v with
  | .undefined => d
  | _ => v

/-- The computed key `[key]` of the path parameters built by `getVocab`,
`updateVocab` and `deleteVocab`, where `key` is `getPathParams(op.path)[0]`: the
text `undefined` when the path has no placeholder. -/
def firstParamKey (path : String) : String :=
  match getPathParams path with
  | k :: _ => k
  | [] => "undefined"

/-- The capability methods of the client up to the call of `requestJson`: the
error thrown before it, or the arguments of that call. -/
def ApiClient.invoke (c : ApiClient) : FacadeCall → Except String TransportCall
  | .health => do
    let op ← c.requireOp "health"
    callOperation c.baseUrl (some op) .undefined .undefined .undefined
  | .addVocab payload => do
    let op ← c.requireOp "addVocab"
    callOperation c.baseUrl (some op) .undefined .undefined payload
  | .upsertVocab payload => do
    let op ← c.requireOp "upsertVocab"
    callOperation c.baseUrl (some op) .undefined .undefined payload
  | .listVocab query => do
    let op ← c.requireOp "listVocab"
    callOperation c.baseUrl (some op) .undefined (withDefault query (.obj [])) .undefined
  | .getVocab vocabId => do
    let op ← c.requireOp "getVocab"
    callOperation c.baseUrl (some op) (.obj [(firstParamKey op.path, vocabId)]) .undefined .undefined
  | .updateVocab vocabId payload => do
    let op ← c.requireOp "updateVocab"
    callOperation c.baseUrl (some op) (.obj [(firstParamKey op.path, vocabId)]) .undefined payload
  | .deleteVocab vocabId => do
    let op ← c.requireOp "deleteVocab"
    callOperation c.baseUrl (some op) (.obj [(firstParamKey op.path, vocabId)]) .undefined .undefined
  | .sessionToday limit => do
    let op ← c.requireOp "sessionToday"
    callOperation c.baseUrl (some op) .undefined (.obj [("limit", withDefault limit (.num 30))])
      .undefined
  | .submitReview payload => do
    let op ← c.requireOp "submitReview"
    callOperation c.baseUrl (some op) .undefined .undefined payload
  | .aiEnrich payload => do
    let op ← c.requireOp "aiEnrich"
    callOperation c.baseUrl (some op) .undefined .undefined payload
  | .aiJudge payload => do
    let op ← c.requireOp "aiJudge"
    callOperation c.baseUrl (some op) .undefined .undefined payload
  | .syncExport => do
    let op ← c.requireOp "syncExport"
    callOperation c.baseUrl (some op) .undefined .undefined .undefined
  | .syncImport payload => do
    let op ← c.requireOp "syncImport"
    callOperation c.baseUrl (some op) .undefined .undefined payload

/-! ## client.js: `flattenOperations` with throwing reads -/

/-- Property read `v.k` as an expression that can throw: reading a property of
`undefined` or `null` raises a `TypeError`. -/
def getE (v : JVal) (k : String) : Except String JVal :=
  match v with
  | .undefined => .error "TypeError"
  | .null => .error "TypeError"
  | _ => .ok (v.get k)

/-- The call `Object.entries(v)` as an expression that can throw: it raises a
`TypeError` on `undefined` and `null`. -/
def entriesE (v : JVal) : Except String (List (String × JVal)) :=
  match v with
  | .undefined => .error "TypeError"
  | .null => .error "TypeError"
  | _ => .ok v.entries

/-- The record literal of `flattenOperations`, its reads of `raw` able to throw. -/
def mkOperationE (path method : String) (raw : JVal) : Except String Operation := do
  let operationId ← getE raw "operationId"
  let summary ← getE raw "summary"
  let description ← getE raw "description"
  let tags ← getE raw "tags"
  pure
    { id := operationId.orElse (.str (method ++ "_" ++ path))
      operationId := operationId.orElse (.str (method ++ "_" ++ path))
      summary := summary.orElse (.str "")
      description := description.orElse (.str "")
      tags := if tags.isArray && tags.elems.length != 0 then tags.elems else [.str "default"]
      method := toUpperCase method
      methodLower := method
      path := path
      raw := raw }

/-- The inner loop of `flattenOperations` over the methods, for one path entry;
the read `methods?.[method]` never throws. -/
def methodsE (path : String) (methods : JVal) : List String → Except String (List Operation)
  | [] => .ok []
  | method :: rest =>
    if !(methods.get method).truthy then methodsE path methods rest
    else do
      let op ← mkOperationE path method (methods.get method)
      let ops ← methodsE path methods rest
      pure (op :: ops)

/-- The outer loop of `flattenOperations` over the path entries. -/
def pathsE : List (String × JVal) → Except String (List Operation)
  | [] => .ok []
  | pm :: rest => do
    let here ← methodsE pm.1 pm.2 HTTP_METHODS
    let ops ← pathsE rest
    pure (here ++ ops)

/-- The function `flattenOperations(schema)` with every property read able to
throw: `Except.error` when an exception escapes, `Except.ok` with the returned
catalog otherwise. -/
def flattenOperationsE (schema : JVal) : Except String (List Operation) :=
  if !schema.truthy then .ok []
  else do
    let paths ← getE schema "paths"
    if !paths.truthy then .ok []
    else do
      let es ← entriesE paths
      pathsE es

/-! ## Statements compared with `flattenOperations` -/

/-- The operations a document declares: for each path entry in the document's
order and each of the seven methods in their fixed order, the path, the method
and the value found under the method, when that value is truthy. -/
def declaredOperations (doc : JVal) : List (String × String × JVal) :=
  (doc.get "paths").entries.flatMap (fun pm =>
    (HTTP_METHODS.filter (fun m => (pm.2.get m).truthy)).map (fun m => (pm.1, m, pm.2.get m)))

/-- The operation declares an operation id (a truthy `operationId`). -/
def declaresId (op : Operation) : Bool := (op.raw.get "operationId").truthy

/-- A document with two operations declaring the same operation id. -/
def sameIdDoc : JVal :=
  .obj [("paths", .obj
    [ ("/a", .obj [("get", .obj [("operationId", .str "list")])]),
      ("/b", .obj [("get", .obj [("operationId", .str "list")])]) ])]

/-- A document whose paths section has zero entries. -/
def emptyPathsDoc : JVal := .obj [("paths", .obj [])]

/-! ## base.js: URLs and requests -/

/-- White space and line terminators, the characters `String.prototype.trim` removes. -/
def isJsWhiteSpace (c : Char) : Bool :=
  [9, 10, 11, 12, 13, 32, 160, 5760, 8192, 8193, 8194, 8195, 8196, 8197, 8198, 8199, 8200,
    8201, 8202, 8232, 8233, 8239, 8287, 12288, 65279].contains c.toNat

/-- The method `s.trim()`. -/
def trim (s : String) : String :=
  ⟨((s.data.dropWhile isJsWhiteSpace).reverse.dropWhile isJsWhiteSpace).reverse⟩

/-- The constant `DEFAULT_BASE_URL`; `env` is the value of
`process.env.REACT_APP_API_BASE_URL`. -/
def DEFAULT_BASE_URL (env : JVal) : String :=
  trim (env.orElse (.str "http://localhost:8000")).toStr

/-- The function `normalizeBaseUrl(baseUrl)`. -/
def normalizeBaseUrl (env baseUrl : JVal) : String :=
  let url := trim
    (baseUrl.orElse ((JVal.str (DEFAULT_BASE_URL env)).orElse (.str "http://localhost:8000"))).toStr
  if endsWith url "/" then ⟨url.data.dropLast⟩ else url

/-- The constant `cleanPath` of `buildUrl`. -/
def cleanPath (path : String) : String := if startsWith path "/" then path else "/" ++ path

/-- The text given to `new URL` by `buildUrl`. -/
def urlText (env baseUrl : JVal) (path : String) : String :=
  normalizeBaseUrl env baseUrl ++ cleanPath path

/-- A parsed URL: the serialisation of its scheme, host and path, the entries of
its `searchParams` in order, and its fragment. -/
structure Url where
  location : String
  searchParams : List (String × String)
  hash : String

/-- The method `searchParams.append(key, value)`. -/
def appendParam (ps : List (String × String)) (key value : String) : List (String × String) :=
  ps ++ [(key, value)]

/-- The method `searchParams.set(key, value)`: the first entry of that key takes
the value and the other entries of the key are removed; without such an entry
the pair is appended. -/
def setParam : List (String × String) → String → String → List (String × String)
  | [], key, value => [(key, value)]
  | (k, v) :: rest, key, value =>
    if k = key then (key, value) :: rest.filter (fun e => e.1 != key)
    else (k, v) :: setParam rest key value

/-- The body of the loop of `buildUrl` over the entries of `query`. -/
def addQueryEntry (ps : List (String × String)) (kv : String × JVal) : List (String × String) :=
  match kv.2 with
  | .undefined => ps
  | .null => ps
  | .arr items => items.foldl (fun acc item => appendParam acc kv.1 item.toStr) ps
  | .str s => if s = "" then ps else setParam ps kv.1 s
  | v => setParam ps kv.1 v.toStr

/-- The test `typeof v === "object"`. -/
def isObjectType : JVal → Bool
  | .null => true
  | .arr _ => true
  | .obj _ => true
  | _ => false

/-- The function `buildUrl` before its final `url.toString()`: the URL object,
or `none` when `new URL` throws.  `newUrl` is the built-in URL parser. -/
def buildUrlObject (newUrl : String → Option Url) (env baseUrl : JVal) (path : String)
    (query : JVal) : Option Url :=
  match newUrl (urlText env baseUrl path) with
  | none => none
  | some url =>
    if query.truthy && isObjectType query then
      some { url with searchParams := query.entries.foldl addQueryEntry url.searchParams }
    else some url

/-- Characters the `application/x-www-form-urlencoded` serialiser leaves as they are. -/
def isFormSafe (c : Char) : Bool :=
  c.isAlphanum || [42, 45, 46, 95].contains c.toNat

/-- The `application/x-www-form-urlencoded` serialisation of a name or value. -/
def formEncode (s : String) : String :=
  ⟨s.data.flatMap (fun c =>
    if isFormSafe c then [c]
    else if c = ' ' then ['+']
    else (String.utf8EncodeChar c).flatMap percentByte)⟩

/-- The serialisation of `searchParams`. -/
def serializeParams (ps : List (String × String)) : String :=
  "&".intercalate (ps.map (fun e => formEncode e.1 ++ "=" ++ formEncode e.2))

/-- The method `url.toString()`. -/
def Url.toString (u : Url) : String :=
  u.location ++ (if u.searchParams.isEmpty then "" else "?" ++ serializeParams u.searchParams)
    ++ u.hash

/-- The function `buildUrl(baseUrl, path, query)`; `none` when `new URL` throws. -/
def buildUrl (newUrl : String → Option Url) (env baseUrl : JVal) (path : String)
    (query : JVal) : Option String :=
  (buildUrlObject newUrl env baseUrl path query).map Url.toString

/-- A stand-in for the URL parser on texts without query string and fragment: the
text is taken as the location. -/
def plainUrl (text : String) : Option Url :=
  some { location := text, searchParams := [], hash := "" }

/-- Definition of a key in an object under construction: a key already there
keeps its position and takes the new value, a new key is added last. -/
def setKey : List (String × JVal) → String → JVal → List (String × JVal)
  | [], key, value => [(key, value)]
  | (k, v) :: rest, key, value =>
    if k = key then (k, value) :: rest else (k, v) :: setKey rest key value

/-- The spread `...source` inside an object literal holding `target` so far. -/
def objectSpread (target : List (String × JVal)) (source : JVal) : List (String × JVal) :=
  source.entries.foldl (fun acc kv => setKey acc kv.1 kv.2) target

/-- The options given to `fetch` by `attempt`, without the signal; `body` is
`none` for `undefined`. -/
structure FetchInit where
  method : String
  headers : List (String × JVal)
  body : Option String

/-- The constant `hasBody` of `requestJson`: `body !== undefined`. -/
def hasBody : JVal → Bool
  | .undefined => false
  | _ => true

/-- The second argument of `fetch` in `attempt`; `stringify` is `JSON.stringify`. -/
def fetchInit (stringify : JVal → String) (method : String) (headers body : JVal) : FetchInit :=
  { method := method
    headers :=
      objectSpread
        (objectSpread []
          (if hasBody body then .obj [("Content-Type", .str "application/json")] else .obj []))
        (headers.orElse (.obj []))
    body := if hasBody body then some (stringify body) else none }

/-! ## Statements compared with `buildUrl` -/

/-- The query parameters claim C11 states for the entries of a query object. -/
def expectedParams (kvs : List (String × JVal)) : List (String × String) :=
  kvs.flatMap (fun kv =>
    match kv.2 with
    | .undefined => []
    | .null => []
    | .arr items => items.map (fun item => (kv.1, item.toStr))
    | .str s => if s = "" then [] else [(kv.1, s)]
    | v => [(kv.1, v.toStr)])

/-- The query of the scenario of claim C11. -/
def scenarioQuery : List (String × JVal) :=
  [("tag", .undefined), ("page", .num 1), ("ids", .arr [.str "a", .str "b"])]

/-! ## client.js: grouping by tag -/

/-- The statements `if (!map[tag]) map[tag] = []; map[tag].push(op);` on the
object `map`, whose pairs are in key order. -/
def groupPush : List (String × List Operation) → String → Operation →
    List (String × List Operation)
  | [], tag, op => [(tag, [op])]
  | (k, g) :: rest, tag, op =>
    if k = tag then (k, g ++ [op]) :: rest else (k, g) :: groupPush rest tag op

/-- The string `<METHOD> <path>` compared by the sort of `groupOperationsByTag`. -/
def sortKey (op : Operation) : String := op.method ++ " " ++ op.path

/-- Insertion of an operation before the first operation of a sorted list that
does not precede it. -/
def insertSorted (localeCompare : String → String → Int) (x : Operation) :
    List Operation → List Operation
  | [] => [x]
  | y :: ys =>
    if localeCompare (sortKey x) (sortKey y) ≤ 0 then x :: y :: ys
    else y :: insertSorted localeCompare x ys

/-- The method `group.sort((a, b) => keyOf(a).localeCompare(keyOf(b)))`: a stable
sort, here the insertion sort, which gives the same list whenever `localeCompare`
is a consistent comparison. -/
def sortGroup (localeCompare : String → String → Int) (g : List Operation) : List Operation :=
  g.foldr (insertSorted localeCompare) []

/-- The function `groupOperationsByTag(operations)`: the object `map`, its pairs
in key order; `localeCompare` is the built-in string comparison.  The key of a
tag is its string form.  The tags of a record are a list, so the fallback
`["default"]` of `op.tags || ["default"]` is never taken. -/
def groupOperationsByTag (localeCompare : String → String → Int) (operations : List Operation) :
    List (String × List Operation) :=
  (operations.foldl
    (fun map op => op.tags.foldl (fun map tag => groupPush map tag.toStr op) map) []).map
    (fun e => (e.1, sortGroup localeCompare e.2))

/-! ## Statements compared with `groupOperationsByTag` -/

/-- The operation carries the tag of key `t`. -/
def carries (t : String) (op : Operation) : Bool := (op.tags.map JVal.toStr).contains t

/-- The operations listed for the tag of key `t`: each operation once for each
occurrence of the tag among its tags. -/
def occurrencesOf (t : String) (operations : List Operation) : List Operation :=
  operations.flatMap (fun op => (op.tags.filter (fun tag => tag.toStr == t)).map (fun _ => op))

/-- Comparison of two texts character by character, by code point: a stand-in
for `localeCompare`. -/
def compareChars : List Char → List Char → Int
  | [], [] => 0
  | [], _ :: _ => -1
  | _ :: _, [] => 1
  | a :: as, b :: bs =>
    if a.toNat < b.toNat then -1 else if b.toNat < a.toNat then 1 else compareChars as bs

/-- The stand-in comparison on strings. -/
def compareText (a b : String) : Int := compareChars a.data b.data

/-- An operation whose tag list repeats the tag `a`. -/
def twiceTaggedOp : Operation :=
  mkOperation "/x" "get" (.obj [("tags", .arr [.str "a", .str "a"])])

/-- The catalog of a document with `POST /b` and `GET /b`, both tagged `t`, and
`GET /a` tagged `t` and `u`. -/
def taggedOps : List Operation :=
  [ mkOperation "/b" "post" (.obj [("tags", .arr [.str "t"])]),
    mkOperation "/b" "get" (.obj [("tags", .arr [.str "t"])]),
    mkOperation "/a" "get" (.obj [("tags", .arr [.str "t", .str "u"])]) ]

/-- The read `map[t]` of the object under construction (`[]` when absent). -/
def groupOf : List (String × List Operation) → String → List Operation
  | [], _ => []
  | (k, g) :: rest, t => if k = t then g else groupOf rest t

/-- The pushes made by the loops of `groupOperationsByTag`, in order: the key of
the tag and the operation pushed. -/
def tagEvents (operations : List Operation) : List (String × Operation) :=
  operations.flatMap (fun op => op.tags.map (fun tag => (tag.toStr, op)))

/-! ## Statements compared with `buildPath` -/

/-- The texts between the braces of the placeholders of a template, as found by
the scan of `getPathParams`, before any brace is removed from them. -/
def scanRaw : Option (List Char) → List Char → List (List Char)
  | _, [] => []
  | none, c :: cs => if c = Char.ofNat 123 then scanRaw (some []) cs else scanRaw none cs
  | some a, c :: cs =>
    if c = Char.ofNat 125 then
      (if a = [] then scanRaw none cs else a :: scanRaw none cs)
    else scanRaw (some (a ++ [c])) cs

/-- The names of the placeholders of a template, braces included if any. -/
def rawPlaceholders (template : String) : List (List Char) := scanRaw none template.data

/-- The text substituted for a placeholder name: the URL-encoded string of the
name's value, empty when the value is missing or `null`. -/
def substitutedValue (pathParams : JVal) (name : List Char) : List Char :=
  (encodeURIComponent (paramText (pathParams.get ⟨name⟩))).data

/-- The template with every placeholder replaced by its substituted value, in one
pass; the text of an opening brace that starts no placeholder is kept. -/
def substituteFrom (pathParams : JVal) : Option (List Char) → List Char → List Char
  | none, [] => []
  | some a, [] => Char.ofNat 123 :: a
  | none, c :: cs =>
    if c = Char.ofNat 123 then substituteFrom pathParams (some []) cs
    else c :: substituteFrom pathParams none cs
  | some a, c :: cs =>
    if c = Char.ofNat 125 then
      (if a = [] then Char.ofNat 123 :: Char.ofNat 125 :: substituteFrom pathParams none cs
        else substitutedValue pathParams a ++ substituteFrom pathParams none cs)
    else substituteFrom pathParams (some (a ++ [c])) cs

/-- The template with each placeholder occurrence replaced (claim C20). -/
def substitutePlaceholders (template : String) (pathParams : JVal) : String :=
  ⟨substituteFrom pathParams none template.data⟩

/-- A text in which every opening brace is immediately followed by a closing
brace: no placeholder pattern occurs in it. -/
inductive BraceSafe : List Char → Prop where
  | nil : BraceSafe []
  | other (c : Char) (cs : List Char) : c ≠ Char.ofNat 123 → BraceSafe cs → BraceSafe (c :: cs)
  | pair (cs : List Char) : BraceSafe cs → BraceSafe (Char.ofNat 123 :: Char.ofNat 125 :: cs)

/-- The text read since the opening brace of a candidate placeholder, brace included. -/
def openText : Option (List Char) → List Char
  | none => []
  | some a => Char.ofNat 123 :: a

/-- A template with the placeholder `id` twice. -/
def vocabTemplate : String := "/vocab/\x7bid\x7d/history/\x7bid\x7d"

/-! ## Schema resolution (`client.js`, lines 162-194) -/

namespace JVal

/-- Property read `v?.[k]` for a key taken from data: besides the own keys of an
object it finds the elements of an array and the characters of a string under
their index, and the `length` of both. -/
def member (v : JVal) (k : String) : JVal :=
  match v with
  | obj kvs => lookup k kvs
  | arr xs => if k == "length" then num xs.length else lookup k (indexed 0 xs)
  | str s =>
    if k == "length" then num s.length
    else lookup k (indexed 0 (s.data.map (fun c => str (String.singleton c))))
  | _ => undefined

mutual
/-- The equality of the elements of a `Set` (SameValueZero) on values compared by
content: this is the built-in comparison for strings, numbers, booleans, `null`
and `undefined`. -/
def sameValueZero : JVal → JVal → Bool
  | undefined, undefined => true
  | null, null => true
  | bool a, bool b => a == b
  | num a, num b => a == b
  | str a, str b => a == b
  | arr xs, arr ys => sameElems xs ys
  | obj kvs, obj kws => samePairs kvs kws
  | _, _ => false
termination_by structural v => v
/-- Worker of `sameValueZero` on arrays. -/
def sameElems : List JVal → List JVal → Bool
  | [], [] => true
  | x :: xs, y :: ys => sameValueZero x y && sameElems xs ys
  | _, _ => false
termination_by structural xs => xs
/-- Worker of `sameValueZero` on objects. -/
def samePairs : List (String × JVal) → List (String × JVal) → Bool
  | [], [] => true
  | p :: r, q :: s => samePair p q && samePairs r s
  | _, _ => false
termination_by structural xs => xs
/-- Worker of `sameValueZero` on one key/value pair. -/
def samePair : String × JVal → String × JVal → Bool
  | (k, v), (l, w) => k == l && sameValueZero v w
termination_by structural p => p
end

end JVal

/-- The text left by `.replace(/^#\//, "")`: a leading `#/` is dropped. -/
def stripPointerStart : List Char → List Char
  | '#' :: '/' :: rest => rest
  | cs => cs

/-- The call `.split("/")`, with `cur` the segment read so far. -/
def splitSlash (cur : List Char) : List Char → List String
  | [] => [⟨cur⟩]
  | c :: cs => if c = '/' then ⟨cur⟩ :: splitSlash [] cs else splitSlash (cur ++ [c]) cs

/-- The segments `String(ref).replace(/^#\//, "").split("/")` of a pointer. -/
def pointerParts (ref : JVal) : List String := splitSlash [] (stripPointerStart ref.toStr.data)

/-- The loop of `dereference` from `current` over the segments that remain. -/
def followParts : JVal → List String → JVal
  | current, [] => current
  | current, part :: rest =>
    if !(current.member part).truthy then .null else followParts (current.member part) rest

/-- The function `dereference`. -/
def dereference (schema ref : JVal) : JVal :=
  if !schema.truthy || !ref.truthy then .null else followParts schema (pointerParts ref)

/-- The fields `properties` and `required` of the object `out` built for an
`allOf` node (its `type` stays `"object"`). -/
structure Composed where
  properties : List (String × JVal)
  required : List JVal

/-- The elements of `new Set(xs)` in insertion order, with `seen` the elements
inserted so far. -/
def setValues (seen : List JVal) : List JVal → List JVal
  | [] => seen
  | x :: xs =>
    if seen.any (fun y => y.sameValueZero x) then setValues seen xs else setValues (seen ++ [x]) xs

/-- The body of the `forEach` callback of `resolveSchema` for a part whose
resolution returned `rs`. -/
def composeStep (out : Composed) (rs : JVal) : Composed :=
  if !rs.truthy then out
  else
    let merged : Composed :=
      if (rs.get "properties").truthy then
        { out with
          properties := objectSpread (objectSpread [] (.obj out.properties)) (rs.get "properties") }
      else out
    if (rs.get "required").isArray then
      { merged with required := setValues [] (merged.required ++ (rs.get "required").elems) }
    else merged

/-- The loop `node.allOf.forEach` where `resolve` is the recursive call; the loop
returns only when every call has returned. -/
def composeParts (resolve : JVal → Option JVal) : Composed → List JVal → Option Composed
  | out, [] => some out
  | out, part :: rest =>
    match resolve part with
    | none => none
    | some rs => composeParts resolve (composeStep out rs) rest

/-- The object `out` returned for an `allOf` node. -/
def Composed.toJVal (out : Composed) : JVal :=
  .obj [("type", .str "object"), ("properties", .obj out.properties),
    ("required", .arr out.required)]

/-- The function `resolveSchema` run with a bound on the depth of nested calls:
`none` when the bound is reached before the call returns, `some r` when the call
returns `r` (`JVal.null` for `null`).  The source has no such bound: a call
returns exactly when some bound is enough. -/
def resolveSchema : Nat → JVal → JVal → Option JVal
  | 0, _, _ => none
  | fuel + 1, schema, node =>
    if !node.truthy then some .null
    else if (node.get "$ref").truthy then
      if (dereference schema (node.get "$ref")).truthy then
        resolveSchema fuel schema (dereference schema (node.get "$ref"))
      else some .null
    else if (node.get "allOf").isArray then
      (composeParts (resolveSchema fuel schema) { properties := [], required := [] }
        (node.get "allOf").elems).map Composed.toJVal
    else some node

/-- A pointer path can be followed from `current`: every segment in turn leads to
a truthy value. -/
def canFollow : JVal → List String → Bool
  | _, [] => true
  | current, part :: rest =>
    (current.member part).truthy && canFollow (current.member part) rest

/-- A document in which the pointer `#/a` leads back to itself. -/
def loopDoc : JVal := .obj [("a", .obj [("$ref", .str "#/a")])]

/-- A document with a chain of two pointers ending in a plain schema. -/
def chainDoc : JVal :=
  .obj [("components", .obj [("schemas", .obj [
    ("Alias", .obj [("$ref", .str "#/components/schemas/Word")]),
    ("Word", .obj [("type", .str "object"),
      ("properties", .obj [("term", .obj [("type", .str "string")])]),
      ("required", .arr [.str "term"])])])])]

/-- The elements of a list in the order of their first occurrence, each once. -/
def firstOccurrences : List JVal → List JVal
  | [] => []
  | x :: xs => x :: (firstOccurrences xs).filter (fun y => !(y.sameValueZero x))

/-- The sub-schemas of an `allOf` list that resolve, as resolved, in order. -/
def resolvedParts (resolve : JVal → Option JVal) (parts : List JVal) : List JVal :=
  (parts.filterMap resolve).filter JVal.truthy

/-- The property declarations of a list of resolved schemas, in order. -/
def declaredProperties (resolved : List JVal) : List (String × JVal) :=
  resolved.flatMap (fun rs => (rs.get "properties").entries)

/-- The required names of a list of resolved schemas, in order. -/
def declaredRequired (resolved : List JVal) : List JVal :=
  resolved.flatMap (fun rs => (rs.get "required").elems)

/-- A composition whose only part is the pointer of `loopDoc`. -/
def loopComposition : JVal := .obj [("allOf", .arr [.obj [("$ref", .str "#/a")]])]

/-- A node holding both a pointer that leads nowhere and an `allOf` list. -/
def pointerWithParts : JVal :=
  .obj [("$ref", .str "#/components/schemas/Gone"),
    ("allOf", .arr [.obj [("properties", .obj [("term", .obj [("type", .str "string")])])]])]

/-- A composition of the alias of `Word`, a part that does not resolve, and a part
that redeclares `term` and requires `term` and `note`. -/
def wordComposition : JVal :=
  .obj [("allOf", .arr [
    .obj [("$ref", .str "#/components/schemas/Alias")],
    .obj [("$ref", .str "#/components/schemas/Gone")],
    .obj [("properties", .obj [("note", .obj [("type", .str "string")]),
        ("term", .obj [("type", .str "integer")])]),
      ("required", .arr [.str "term", .str "note", .str "term"])]])]

/-! ## Example synthesis (`client.js`, lines 208-229) -/

namespace JVal

/-- The test `v === undefined`. -/
def isUndefined : JVal → Bool
  | undefined => true
  | _ => false

/-- The test `v === s` for a string literal `s`. -/
def isText (v : JVal) (s : String) : Bool :=
  match v with
  | str t => t == s
  | _ => false

end JVal

/-- What `buildExampleFromSchema` reads of a schema held as a value of type `ν`.
Nothing is assumed of `ν`: in a graph of objects the schema of a property may
be the schema that declares it. -/
structure SchemaReader (ν : Type) where
  /-- The truthiness of `schema`. -/
  truthy : ν → Bool
  /-- The value of `schema.example`. -/
  exampleOf : ν → JVal
  /-- The value of `schema.enum`. -/
  enumOf : ν → JVal
  /-- The value of `schema.type`. -/
  typeOf : ν → JVal
  /-- The truthiness of `schema.properties`. -/
  hasProperties : ν → Bool
  /-- The pairs `Object.entries(schema.properties || {})`. -/
  propertyEntries : ν → List (String × ν)
  /-- The value of `schema.items || {}`. -/
  items : ν → ν

/-- The function `buildExampleFromSchema` called at `depth` with `left` levels to
go before the guard `depth > 6` fires (`left = 7 - depth`).  Next to the value
returned it lists the depths of the calls that go past the guard of the first
line, the call itself first. -/
def buildExampleCalls {ν : Type} (R : SchemaReader ν) : Nat → Nat → ν → JVal × List Nat
  | 0, _, _ => (.null, [])
  | left + 1, depth, schema =>
    if !R.truthy schema then (.null, [])
    else if !(R.exampleOf schema).isUndefined then (R.exampleOf schema, [depth])
    else
      match R.enumOf schema with
      | .arr (first :: _) => (first, [depth])
      | _ =>
        if (R.typeOf schema).isText "object" || R.hasProperties schema then
          let out := (R.propertyEntries schema).foldl
            (fun acc kv =>
              (setKey acc.1 kv.1 (buildExampleCalls R left (depth + 1) kv.2).1,
                acc.2 ++ (buildExampleCalls R left (depth + 1) kv.2).2))
            (([] : List (String × JVal)), [depth])
          (.obj out.1, out.2)
        else if (R.typeOf schema).isText "array" then
          (.arr [(buildExampleCalls R left (depth + 1) (R.items schema)).1],
            depth :: (buildExampleCalls R left (depth + 1) (R.items schema)).2)
        else if (R.typeOf schema).isText "integer" || (R.typeOf schema).isText "number" then
          (.num 0, [depth])
        else if (R.typeOf schema).isText "boolean" then (.bool false, [depth])
        else (.str "", [depth])

/-- The value of `buildExampleFromSchema(schema, depth)` for a schema read
through `R`. -/
def buildExampleOver {ν : Type} (R : SchemaReader ν) (schema : ν) (depth : Nat) : JVal :=
  (buildExampleCalls R (7 - depth) depth schema).1

/-- How a schema that is a JSON value is read. -/
def jsonReader : SchemaReader JVal where
  truthy := JVal.truthy
  exampleOf := fun schema => schema.get "example"
  enumOf := fun schema => schema.get "enum"
  typeOf := fun schema => schema.get "type"
  hasProperties := fun schema => (schema.get "properties").truthy
  propertyEntries := fun schema => ((schema.get "properties").orElse (.obj [])).entries
  items := fun schema => (schema.get "items").orElse (.obj [])

/-- The function `buildExampleFromSchema` on a schema of a parsed document. -/
def buildExampleFromSchema (schema : JVal) (depth : Nat) : JVal :=
  buildExampleOver jsonReader schema depth

/-- Claim C25 read as written: the value of `buildExampleFromSchema(s, d)` for a
schema `s` and a depth `d` of at most 6, where the synthesis one level down is
the function itself. -/
def exampleAsStated (s : JVal) (d : Nat) : JVal :=
  if !(s.get "example").isUndefined then s.get "example"
  else
    match (s.get "enum").elems with
    | first :: _ => first
    | [] =>
      if (s.get "type").isText "object" || (s.get "properties").truthy then
        .obj ((s.get "properties").entries.map
          (fun kv => (kv.1, buildExampleFromSchema kv.2 (d + 1))))
      else if (s.get "type").isText "array" then
        .arr [buildExampleFromSchema ((s.get "items").orElse (.obj [])) (d + 1)]
      else if (s.get "type").isText "integer" || (s.get "type").isText "number" then .num 0
      else if (s.get "type").isText "boolean" then .bool false
      else .str ""

/-- A schema that is its own property: an object `s` with `s.type = "object"` and
`s.properties = { self: s }`, held as the only value of `Unit`. -/
def selfReader : SchemaReader Unit where
  truthy := fun _ => true
  exampleOf := fun _ => .undefined
  enumOf := fun _ => .undefined
  typeOf := fun _ => .str "object"
  hasProperties := fun _ => true
  propertyEntries := fun _ => [("self", ())]
  items := fun _ => ()

/-- The document schema of a word with a list of tags. -/
def wordSchema : JVal :=
  .obj [("type", .str "object"),
    ("properties", .obj [
      ("term", .obj [("type", .str "string"), ("example", .str "xin")]),
      ("level", .obj [("type", .str "integer")]),
      ("kind", .obj [("enum", .arr [.str "noun", .str "verb"])]),
      ("tags", .obj [("type", .str "array"), ("items", .obj [("type", .str "string")])]),
      ("known", .obj [("type", .str "boolean")])])]

/-! ## Statements compared with the rules of the vocabulary capabilities -/

/-- First rule of `listVocab`. -/
def listTagRule : Rule :=
  { method := some "GET", tagIncludes := some ["vocab"], pathIncludes := some ["/vocab"],
    pathExcludes := some ["\x7b"], preferPathExact := some "/vocab" }

/-- Second rule of `listVocab`. -/
def listPlainRule : Rule :=
  { method := some "GET", pathIncludes := some ["/vocab"], pathExcludes := some ["\x7b"] }

/-- A document declaring an untagged `GET /vocab` and then `GET /vocab/recent`
tagged `vocab`. -/
def untaggedListDoc : JVal :=
  .obj [("paths", .obj
    [ ("/vocab", .obj [("get", .obj [("summary", .str "list")])]),
      ("/vocab/recent", .obj [("get", .obj [("tags", .arr [.str "vocab"])])]) ])]

/-- A document declaring `GET /Vocab` and then `GET /vocab`, both tagged `vocab`. -/
def upperListDoc : JVal :=
  .obj [("paths", .obj
    [ ("/Vocab", .obj [("get", .obj [("tags", .arr [.str "vocab"])])]),
      ("/vocab", .obj [("get", .obj [("tags", .arr [.str "vocab"])])]) ])]

/-- A document declaring the collection `/vocab` (`GET`, `POST`) and then the
item `/vocab/{id}` (`GET`, `PUT`, `DELETE`), every operation tagged `vocab`. -/
def restDoc : JVal :=
  .obj [("paths", .obj
    [ ("/vocab", .obj
        [ ("get", .obj [("tags", .arr [.str "vocab"])]),
          ("post", .obj [("tags", .arr [.str "vocab"])]) ]),
      ("/vocab/\x7bid\x7d", .obj
        [ ("get", .obj [("tags", .arr [.str "vocab"])]),
          ("put", .obj [("tags", .arr [.str "vocab"])]),
          ("delete", .obj [("tags", .arr [.str "vocab"])]) ]) ])]

/-! ## openapi.js

The key-value store behind `getJson` / `setJson` is not part of the embedding:
`fetchOpenApi` is given the value `getJson(key, null)` returns and reports the
call of `setJson` it makes. -/

/-- The constant `CACHE_TTL_MS`. -/
def CACHE_TTL_MS : Int := 5 * 60 * 1000

/-- The function `cacheKey(baseUrl)`. -/
def cacheKey (baseUrl : String) : String := "openapi:" ++ baseUrl

/-- The numeric conversion applied by `-`, `none` for `NaN`; `parseNumber` is the
conversion of a string. -/
def toNumber (parseNumber : String → Option Int) : JVal → Option Int
  | .undefined => none
  | .null => some 0
  | .bool b => some (if b then 1 else 0)
  | .num n => some n
  | .str s => parseNumber s
  | v => parseNumber v.toStr

/-- What `fetchOpenApi` throws: the value thrown by `requestJson`, or the error
for a fetched body without the expected shape. -/
inductive OpenApiFailure where
  | transport (error : Option Failure)
  | shape (message : String)

/-- An execution of `fetchOpenApi`: the document returned or the value thrown, the
number of network attempts, and the arguments of the call of `setJson`, if one
was made. -/
structure OpenApiRun where
  result : Except OpenApiFailure JVal
  attempts : Nat
  stored : Option (String × JVal)

/-- The test `!force && cached && cached.schema && now - cached.savedAt < CACHE_TTL_MS`
of `fetchOpenApi`; a comparison with `NaN` is false. -/
def cacheHit (parseNumber : String → Option Int) (cached : JVal) (now : Int) (force : Bool) :
    Bool :=
  !force && cached.truthy && (cached.get "schema").truthy &&
    (match toNumber parseNumber (cached.get "savedAt") with
      | some savedAt => decide (now - savedAt < CACHE_TTL_MS)
      | none => false)

/-- Lines 19-35 of `fetchOpenApi`, after the request for `/openapi.json` ran as
`run`: the check of the fetched body, the call of `setJson` and the return. -/
def storeFetched (run : Run) (now : Int) (baseUrl : String) : OpenApiRun :=
  match run.result with
  | .error e => { result := .error (.transport e), attempts := run.attempts, stored := none }
  | .ok res =>
    if !res.data.truthy || !isObjectType res.data || !(res.data.get "paths").truthy then
      { result := .error (.shape "OpenAPI t峄?backend kh么ng h峄 l峄?"),
        attempts := run.attempts, stored := none }
    else
      { result := .ok res.data, attempts := run.attempts,
        stored := some (cacheKey baseUrl, .obj [("schema", res.data), ("savedAt", .num now)]) }

/-- The function `fetchOpenApi(baseUrl, { force })`: `cached` is the value of
`getJson(key, null)`, `now` the value of `Date.now()`, and `attemptAt i` the
outcome of attempt `i` of the request for `/openapi.json`, made with
`retries: 1` and the default delay. -/
def fetchOpenApi (parseNumber : String → Option Int) (attemptAt : Nat → Except Failure Success)
    (cached : JVal) (now : Int) (baseUrl : String) (force : Bool) : OpenApiRun :=
  if cacheHit parseNumber cached now force then
    { result := .ok (cached.get "schema"), attempts := 0, stored := none }
  else storeFetched (requestJsonWith attemptAt 1 300) now baseUrl

/-- Claim C27 read as written: force is off and the cache entry holds a document
whose age, `now` minus its save time, is below five minutes. -/
def cacheIsFresh (parseNumber : String → Option Int) (cached : JVal) (now : Int)
    (force : Bool) : Prop :=
  force = false ∧ (cached.get "schema").truthy = true ∧
    ∃ savedAt, toNumber parseNumber (cached.get "savedAt") = some savedAt ∧
      now - savedAt < 300000

/-- Claim C27 read as written: the body is an object with a paths section. -/
def hasPathsSection (data : JVal) : Bool :=
  isObjectType data && data.truthy && (data.get "paths").truthy

/-- A successful answer to the request for `/openapi.json` with the given body. -/
def answered (data : JVal) : Nat → Except Failure Success :=
  fun _ => .ok { status := 200, data := data, headers := [], url := "http://host/openapi.json" }

/-! ## utils/fuzzy.js

A string is the list of its characters; `left[i - 1] === right[j - 1]` compares
two of them. -/

/-- The call `.replace(/\s+/g, " ")`: every maximal run of white space becomes one
space; `inRun` tells whether the character before was white space. -/
def collapseWhiteSpace : Bool → List Char → List Char
  | _, [] => []
  | inRun, c :: cs =>
    if isJsWhiteSpace c then
      (if inRun then collapseWhiteSpace true cs else ' ' :: collapseWhiteSpace true cs)
    else c :: collapseWhiteSpace false cs

/-- The function `normalize(text)`. -/
def normalize (text : JVal) : String :=
  ⟨collapseWhiteSpace false (trim (toLower text)).data⟩

/-- The inner loop of `levenshtein` for one `i`, where `x` is `left[i - 1]`: the
cells `dp[i][j]` for the characters `right[j - 1]` still to come, given
`dp[i - 1][j - 1]` followed by `dp[i - 1][j]`, ... and `cur = dp[i][j - 1]`. -/
def fillRow (x : Char) : List Char → List Nat → Nat → List Nat
  | y :: ys, diag :: up :: above, cur =>
    min (min (up + 1) (cur + 1)) (diag + (if x = y then 0 else 1)) ::
      fillRow x ys (up :: above)
        (min (min (up + 1) (cur + 1)) (diag + (if x = y then 0 else 1)))
  | _, _, _ => []

/-- The rows of the table `dp` in turn: from the row `dp[0]`, whose cell `j` is
`j`, each character of `left` gives the next row, whose cell `0` is its index
`i`.  The state is the last row and its index. -/
def levenshteinRows (left right : List Char) : List Nat × Nat :=
  left.foldl (fun st x => ((st.2 + 1) :: fillRow x right st.1 (st.2 + 1), st.2 + 1))
    (List.range (right.length + 1), 0)

/-- The function `levenshtein(a, b)`. -/
def levenshtein (a b : JVal) : Nat :=
  if (normalize a).length = 0 then (normalize b).length
  else if (normalize b).length = 0 then (normalize a).length
  else (levenshteinRows (normalize a).data (normalize b).data).1.getD (normalize b).length 0

/-- Claim C30 read as written: `EditScript s t n` holds when `s` is turned into `t`
by going through it from left to right, keeping a character or making one of
`n` single-character edits: a substitution, a deletion or an insertion. -/
inductive EditScript : List Char → List Char → Nat → Prop where
  | done : EditScript [] [] 0
  | keep (c : Char) {s t : List Char} {n : Nat} :
    EditScript s t n → EditScript (c :: s) (c :: t) n
  | substitute (c d : Char) {s t : List Char} {n : Nat} :
    EditScript s t n → EditScript (c :: s) (d :: t) (n + 1)
  | delete (c : Char) {s t : List Char} {n : Nat} :
    EditScript s t n → EditScript (c :: s) t (n + 1)
  | insert (d : Char) {s t : List Char} {n : Nat} :
    EditScript s t n → EditScript s (d :: t) (n + 1)

/-- Claim C30 read as written: `d` is the edit distance of `s` and `t`, the minimum
number of edits of a script from `s` to `t`. -/
def IsEditDistance (s t : List Char) (d : Nat) : Prop :=
  EditScript s t d ∧ ∀ n, EditScript s t n → d ≤ n

/-- The prefixes of a text that extend the prefix held reversed in `p` by the
characters of `ys`, one more each time, reversed as well. -/
def laterPrefixes (p : List Char) : List Char → List (List Char)
  | [] => []
  | y :: ys => (y :: p) :: laterPrefixes (y :: p) ys

/-- The operations that earn every point of the first rule of `listVocab`: the
method is GET and the path is `/vocab`, both up to letter case, and the tags
joined by blanks contain `vocab` in any letter case. -/
def isTaggedVocabList (o : Operation) : Bool :=
  toLowerCase o.method == "get" && toLowerCase o.path == "/vocab" &&
    occursLower (JVal.join " " o.tags) ["vocab"]

/-- A document declaring `GET /Vocab` tagged `Vocabulary` and then `GET /vocab`
tagged `vocab`. -/
def mixedCaseListDoc : JVal :=
  .obj [("paths", .obj
    [ ("/Vocab", .obj [("get", .obj [("tags", .arr [.str "Vocabulary"])])]),
      ("/vocab", .obj [("get", .obj [("tags", .arr [.str "vocab"])])]) ])]

/-- The rule of `getVocab`. -/
def getVocabRule : Rule :=
  { method := some "GET", tagIncludes := some ["vocab"], pathIncludes := some ["/vocab", "\x7b"] }

/-- The rule of `deleteVocab`. -/
def deleteVocabRule : Rule :=
  { method := some "DELETE", tagIncludes := some ["vocab"],
    pathIncludes := some ["/vocab", "\x7b"] }

/-- A document declaring `DELETE /vocab` (clear the collection) and then
`DELETE /vocab/{id}`, both tagged `vocab`. -/
def clearFirstDoc : JVal :=
  .obj [("paths", .obj
    [ ("/vocab", .obj [("delete", .obj [("tags", .arr [.str "vocab"])])]),
      ("/vocab/\x7bid\x7d", .obj [("delete", .obj [("tags", .arr [.str "vocab"])])]) ])]

/-! # Theorems -/

/-! ## The selection loop -/

theorem bestStep_fold (op : Operation) (rules : List Rule) (st : BestState) :
    st.2 ≤ (rules.foldl (bestStep op) st).2 ∧
    (∀ r ∈ rules, scoreOperation op r ≤ (rules.foldl (bestStep op) st).2) ∧
    (rules.foldl (bestStep op) st = st ∨
      ((rules.foldl (bestStep op) st).1 = some op ∧ st.2 < (rules.foldl (bestStep op) st).2 ∧
        ∃ r ∈ rules, scoreOperation op r = (rules.foldl (bestStep op) st).2)) := by
  induction rules generalizing st with
  | nil => simp
  | cons r rs ih =>
    simp only [List.foldl_cons, List.mem_cons, forall_eq_or_imp, exists_eq_or_imp]
    obtain ⟨h1, h2, h3⟩ := ih (bestStep op st r)
    have hstep : st.2 ≤ (bestStep op st r).2 ∧ scoreOperation op r ≤ (bestStep op st r).2 := by
      unfold bestStep
      split <;> simp <;> omega
    refine ⟨by omega, ⟨by omega, h2⟩, ?_⟩
    rcases h3 with h3 | ⟨h3a, h3b, r', hr', h3c⟩
    · rw [h3]
      by_cases hgt : scoreOperation op r > st.2
      · right
        simp [bestStep, hgt]
      · left
        simp [bestStep, hgt]
    · right
      exact ⟨h3a, by omega, Or.inr ⟨r', hr', h3c⟩⟩


theorem findBestLoop_inv (rules : List Rule) (ops : List Operation) :
    BestInv rules ops (findBestLoop ops rules) := by
  unfold findBestLoop
  induction ops using List.reverseRecOn with
  | nil =>
    exact ⟨by simp, by simp, by simp, by simp⟩
  | append_singleton ops o ih =>
    rw [List.foldl_append]
    simp only [List.foldl_cons, List.foldl_nil]
    generalize ops.foldl (fun st op => rules.foldl (bestStep op) st) (none, -1) = st at ih ⊢
    obtain ⟨h1, h2, h3⟩ := bestStep_fold o rules st
    rcases h3 with h3 | ⟨h3a, h3b, r, hr, h3c⟩
    · rw [h3] at h2 ⊢
      refine ⟨ih.lower, ?_, ih.none_score, ?_⟩
      · intro o' ho' r' hr'
        rcases List.mem_append.1 ho' with h | h
        · exact ih.upper o' h r' hr'
        · rw [List.mem_singleton.1 h]
          exact h2 r' hr'
      · intro op hop
        obtain ⟨pre, post, e, hx, h0, hpre⟩ := ih.some_first op hop
        exact ⟨pre, post ++ [o], by simp [e], hx, h0, hpre⟩
    · refine ⟨by have := ih.lower; omega, ?_, ?_, ?_⟩
      · intro o' ho' r' hr'
        rcases List.mem_append.1 ho' with h | h
        · have := ih.upper o' h r' hr'
          omega
        · rw [List.mem_singleton.1 h]
          exact h2 r' hr'
      · intro hn
        rw [h3a] at hn
        cases hn
      · intro op hop
        rw [h3a] at hop
        cases hop
        refine ⟨ops, [], rfl, ⟨r, hr, h3c⟩, by have := ih.lower; omega, ?_⟩
        intro o' ho' r' hr'
        have := ih.upper o' ho' r' hr'
        omega

theorem findBest_none_iff (operations : List Operation) (rules : List Rule) :
    findBest operations rules = none ↔
      ∀ op ∈ operations, ∀ r ∈ rules, scoreOperation op r < 0 := by
  have inv := findBestLoop_inv rules operations
  unfold findBest
  constructor
  · intro hn o ho r hr
    have := inv.upper o ho r hr
    have := inv.none_score hn
    omega
  · intro hall
    cases hb : (findBestLoop operations rules).1 with
    | none => rfl
    | some op =>
      obtain ⟨pre, post, e, ⟨r, hr, hs⟩, h0, _⟩ := inv.some_first op hb
      have hmem : op ∈ operations := by rw [e]; simp
      have := hall op hmem r hr
      omega

theorem findBest_some_max (operations : List Operation) (rules : List Rule) (op : Operation)
    (h : findBest operations rules = some op) :
    op ∈ operations ∧ ∃ r ∈ rules, 0 ≤ scoreOperation op r ∧
      ∀ o ∈ operations, ∀ r' ∈ rules, scoreOperation o r' ≤ scoreOperation op r := by
  have inv := findBestLoop_inv rules operations
  obtain ⟨pre, post, e, ⟨r, hr, hs⟩, h0, _⟩ := inv.some_first op h
  refine ⟨by rw [e]; simp, r, hr, by omega, ?_⟩
  intro o ho r' hr'
  have := inv.upper o ho r' hr'
  omega

/-- C1. `findBest` returns `null` exactly when no (operation, rule) pair scores
at least 0; otherwise it returns the earliest operation of the list whose best
score over the rules is the maximum score `m` over all pairs: every pair scores
at most `m`, the returned operation reaches `m` with some rule, and no operation
before it in the list reaches `m`. -/
theorem findBest_spec (operations : List Operation) (rules : List Rule) :
    (findBest operations rules = none ↔
      ∀ op ∈ operations, ∀ r ∈ rules, scoreOperation op r < 0) ∧
    (∀ op, findBest operations rules = some op →
      ∃ pre post m, operations = pre ++ op :: post ∧
        (∀ o ∈ operations, ∀ r ∈ rules, scoreOperation o r ≤ m) ∧
        (∃ r ∈ rules, scoreOperation op r = m) ∧
        (∀ o ∈ pre, ∀ r ∈ rules, scoreOperation o r < m)) := by
  have inv := findBestLoop_inv rules operations
  unfold findBest
  refine ⟨⟨?_, ?_⟩, ?_⟩
  · intro hn o ho r hr
    have := inv.upper o ho r hr
    have := inv.none_score hn
    omega
  · intro hall
    cases hb : (findBestLoop operations rules).1 with
    | none => rfl
    | some op =>
      obtain ⟨pre, post, e, ⟨r, hr, hs⟩, h0, _⟩ := inv.some_first op hb
      have hmem : op ∈ operations := by rw [e]; simp
      have := hall op hmem r hr
      omega
  · intro op hop
    obtain ⟨pre, post, e, hx, _, hpre⟩ := inv.some_first op hop
    exact ⟨pre, post, (findBestLoop operations rules).2, e, inv.upper, hx, hpre⟩

/-! ## Scoring -/

theorem toLower_str (s : String) : toLower (.str s) = toLowerCase s := by
  unfold toLower JVal.orElse
  by_cases h : s = ""
  · subst h
    rfl
  · simp [JVal.truthy, JVal.toStr, h]

theorem toLower_optVal (o : Option String) (h : strSet o = true) :
    toLower (optVal o) = toLowerCase (o.getD "") := by
  cases o with
  | none => simp [strSet] at h
  | some s => simp [optVal, toLower_str]

theorem includesAny_str (text : String) (ks : List String) :
    includesAny (.str text) ks = occursLower text ks := by
  simp [includesAny, occursLower, toLower_str]

theorem ind_bounds (b : Bool) : 0 ≤ ind b ∧ ind b ≤ 1 := by
  cases b <;> simp [ind]

/-- C2 (as stated, refuted). On `GET /Health` the rule of `health` scores 16: the
lower-cased path contains the keyword and equals the lower-cased exact path,
while the path as written neither contains `health` nor equals `/health`, so
the score read as written is -1. -/
theorem scoreOperation_not_as_stated :
    scoreOperation healthUpperOp healthRule = 16 ∧
      scoreAsStated healthUpperOp healthRule = -1 ∧
      healthUpperOp.path ≠ "/health" ∧ includes healthUpperOp.path "health" = false := by
  decide

theorem scoreOperation_eq (op : Operation) (rule : Rule) :
    scoreOperation op rule = if ruleViolated op rule then -1 else ruleWeight op rule := by
  obtain ⟨m, pi, pe, ti, xi, ppe, poi⟩ := rule
  have hm : (strSet m && toLower (.str op.method) != toLower (optVal m))
      = (strSet m && toLowerCase op.method != toLowerCase (m.getD "")) := by
    cases m <;> simp [strSet, optVal, toLower_str]
  have hp : (strSet ppe && toLower (.str op.path) == toLower (optVal ppe))
      = (strSet ppe && toLowerCase op.path == toLowerCase (ppe.getD "")) := by
    cases ppe <;> simp [strSet, optVal, toLower_str]
  have ho : includesAny op.operationId [poi.getD ""]
      = includes (toLowerCase (op.operationId.orElse (.str "")).toStr)
          (toLowerCase (poi.getD "")) := by
    simp only [includesAny, toLower_str, List.any_cons, List.any_nil, Bool.or_false]
    rfl
  simp only [scoreOperation, ruleViolated, ruleWeight, includesAny_str, hm, hp, ho]
  cases h1 : (strSet m && toLowerCase op.method != toLowerCase (m.getD ""))
  <;> cases h2 : (pi.isSome && !occursLower op.path (pi.getD []))
  <;> cases h3 : (pe.isSome && occursLower op.path (pe.getD []))
  <;> cases h4 : (ti.isSome && !occursLower (JVal.join " " op.tags) (ti.getD []))
  <;> cases h5 : (xi.isSome && !occursLower (opText op) (xi.getD []))
  <;> simp [ind]

theorem score_of_violated (op : Operation) (rule : Rule) (h : ruleViolated op rule = true) :
    scoreOperation op rule = -1 := by
  rw [scoreOperation_eq, h]
  rfl

theorem ruleWeight_bounds (op : Operation) (rule : Rule) :
    0 ≤ ruleWeight op rule ∧ ruleWeight op rule ≤ 24 := by
  unfold ruleWeight
  have h1 := ind_bounds (strSet rule.method)
  have h2 := ind_bounds rule.pathIncludes.isSome
  have h3 := ind_bounds rule.tagIncludes.isSome
  have h4 := ind_bounds rule.textIncludes.isSome
  have h5 := ind_bounds (strSet rule.preferPathExact &&
        toLowerCase op.path == toLowerCase (rule.preferPathExact.getD ""))
  have h6 := ind_bounds (strSet rule.preferOperationId &&
        includes (toLowerCase (op.operationId.orElse (.str "")).toStr)
          (toLowerCase (rule.preferOperationId.getD "")))
  omega

/-- C2 (amended). With every text comparison made on lower-cased text and a
string field counting as set only when non-empty: `scoreOperation` returns -1
exactly when a constraint of the rule is violated, and otherwise the weighted
sum 3 (method) + 5 (pathIncludes) + 3 (tagIncludes) + 2 (textIncludes)
+ 8 (exact path) + 3 (operation id), which lies between 0 and 24. -/
theorem scoreOperation_spec (op : Operation) (rule : Rule) :
    (scoreOperation op rule = -1 ↔ ruleViolated op rule = true) ∧
    (ruleViolated op rule = false →
      scoreOperation op rule = ruleWeight op rule ∧
        0 ≤ scoreOperation op rule ∧ scoreOperation op rule ≤ 24) := by
  have he := scoreOperation_eq op rule
  have hb := ruleWeight_bounds op rule
  cases hv : ruleViolated op rule with
  | true =>
    rw [hv] at he
    simp [he]
  | false =>
    rw [hv] at he
    simp only [Bool.false_eq_true, if_false] at he
    rw [he]
    refine ⟨⟨fun h => ?_, fun h => by cases h⟩, fun _ => ⟨rfl, hb⟩⟩
    omega

/-! ## Discovery -/

theorem includes_iff_part (t k : String) : includes t k = true ↔ k.data <:+: t.data := by
  simp only [includes, List.any_eq_true, List.mem_tails, List.isPrefixOf_iff_prefix]
  rw [List.infix_iff_prefix_suffix]
  constructor
  · rintro ⟨s, hs, hk⟩
    exact ⟨s, hk, hs⟩
  · rintro ⟨s, hk, hs⟩
    exact ⟨s, hs, hk⟩

theorem includes_toLowerCase (t k : String) (h : includes t k = true) :
    includes (toLowerCase t) (toLowerCase k) = true := by
  rw [includes_iff_part] at h ⊢
  exact List.IsInfix.map Char.toLower h

theorem not_includes_of_lower (t k : String)
    (h : includes (toLowerCase t) (toLowerCase k) = false) : includes t k = false := by
  cases hi : includes t k with
  | false => rfl
  | true =>
    rw [includes_toLowerCase t k hi] at h
    cases h

theorem findBest_some (ops : List Operation) (rules : List Rule) (op : Operation)
    (h : findBest ops rules = some op) :
    op ∈ ops ∧ ∃ r ∈ rules, 0 ≤ scoreOperation op r := by
  obtain ⟨pre, post, e, ⟨r, hr, hs⟩, h0, _⟩ := (findBestLoop_inv rules ops).some_first op h
  refine ⟨by rw [e]; simp, r, hr, ?_⟩
  omega

theorem flattenOperations_method (schema : JVal) (op : Operation)
    (h : op ∈ flattenOperations schema) :
    op.method ∈ ["GET", "POST", "PUT", "PATCH", "DELETE", "OPTIONS", "HEAD"] := by
  unfold flattenOperations at h
  split at h
  · simp at h
  · simp only [List.mem_flatMap, List.mem_filterMap] at h
    obtain ⟨pm, _, method, hm, hop⟩ := h
    split at hop
    · cases hop
    · cases hop
      simp only [HTTP_METHODS, List.mem_cons, List.mem_singleton, List.not_mem_nil,
        or_false] at hm
      rcases hm with h | h | h | h | h | h | h <;> subst h <;>
        (simp only [mkOperation]; decide)

theorem core_mem (schema : JVal) (name : String) (op : Operation)
    (h : (name, some op) ∈ (discoverCoreOperations schema).core) :
    ∃ rules, (name, rules) ∈ coreRules ∧ findBest (flattenOperations schema) rules = some op := by
  simp only [discoverCoreOperations, List.mem_map] at h
  obtain ⟨⟨n, rules⟩, he, heq⟩ := h
  simp only [Prod.mk.injEq] at heq
  obtain ⟨hn, hb⟩ := heq
  subst hn
  exact ⟨rules, he, hb⟩

theorem coreRules_methods :
    ∀ e ∈ coreRules, ∀ r ∈ e.2, strSet r.method = true ∧
      ∀ m ∈ ["GET", "POST", "PUT", "PATCH", "DELETE", "OPTIONS", "HEAD"],
        toLowerCase m = toLowerCase (r.method.getD "") → r.method = some m := by
  decide

theorem coreRules_excludes :
    ∀ e ∈ coreRules, ∀ r ∈ e.2,
      (e.1 = "addVocab" → r.pathExcludes = some ["upsert"]) ∧
      (e.1 = "listVocab" → r.pathExcludes = some ["\x7b"]) ∧
      (e.1 = "submitReview" → r.pathExcludes = some ["logs"]) := by
  decide

theorem not_violated_of_score (op : Operation) (rule : Rule) (h : 0 ≤ scoreOperation op rule) :
    ruleViolated op rule = false := by
  cases hv : ruleViolated op rule with
  | false => rfl
  | true =>
    have := score_of_violated op rule hv
    omega

theorem excluded_of_not_violated (op : Operation) (rule : Rule) (k : String)
    (hk : toLowerCase k = k) (hr : rule.pathExcludes = some [k])
    (hv : ruleViolated op rule = false) :
    includes (toLowerCase op.path) k = false ∧ includes op.path k = false := by
  have h : includes (toLowerCase op.path) (toLowerCase k) = false := by
    simp only [ruleViolated, hr, Option.isSome_some, Option.getD_some, occursLower,
      List.any_cons, List.any_nil, Bool.or_false, Bool.true_and, Bool.or_eq_false_iff] at hv
    exact hv.1.1.2
  exact ⟨hk ▸ h, not_includes_of_lower _ _ h⟩

/-- C3. Whenever `discoverCoreOperations` maps a capability to an operation, the
operation violates no constraint of at least one rule of that capability (it
scores at least 0 on it); its method is that rule's method; and the path of the
winner of `addVocab` does not contain `upsert`, that of `listVocab` does not
contain `{`, that of `submitReview` does not contain `logs` (neither as written
nor after lower-casing). -/
theorem discover_selected_satisfies (schema : JVal) (name : String) (op : Operation)
    (h : (name, some op) ∈ (discoverCoreOperations schema).core) :
    ∃ rules, (name, rules) ∈ coreRules ∧ ∃ rule ∈ rules,
      ruleViolated op rule = false ∧ 0 ≤ scoreOperation op rule ∧
      rule.method = some op.method ∧
      (name = "addVocab" →
        includes (toLowerCase op.path) "upsert" = false ∧ includes op.path "upsert" = false) ∧
      (name = "listVocab" →
        includes (toLowerCase op.path) "\x7b" = false ∧ includes op.path "\x7b" = false) ∧
      (name = "submitReview" →
        includes (toLowerCase op.path) "logs" = false ∧ includes op.path "logs" = false) := by
  obtain ⟨rules, hmem, hbest⟩ := core_mem schema name op h
  obtain ⟨hop, rule, hrule, hscore⟩ := findBest_some _ _ _ hbest
  have hv := not_violated_of_score op rule hscore
  obtain ⟨hset, hmeth⟩ := coreRules_methods _ hmem rule hrule
  obtain ⟨hx1, hx2, hx3⟩ := coreRules_excludes _ hmem rule hrule
  refine ⟨rules, hmem, rule, hrule, hv, hscore, ?_, ?_, ?_, ?_⟩
  · apply hmeth op.method (flattenOperations_method schema op hop)
    have hv' := hv
    simp only [ruleViolated, hset, Bool.true_and, Bool.or_eq_false_iff] at hv'
    simpa using hv'.1.1.1.1
  · intro hn
    exact excluded_of_not_violated op rule "upsert" (by decide) (hx1 hn) hv
  · intro hn
    exact excluded_of_not_violated op rule "\x7b" (by decide) (hx2 hn) hv
  · intro hn
    exact excluded_of_not_violated op rule "logs" (by decide) (hx3 hn) hv

/-- Instance of C3 on `sampleDoc`, where `addVocab` is mapped to `POST /api/v1/vocab`. -/
theorem discover_selected_satisfies_witness :
    ("addVocab", some (mkOperation "/api/v1/vocab" "post" (.obj [("summary", .str "add")])))
        ∈ (discoverCoreOperations sampleDoc).core ∧
    ∃ rules, ("addVocab", rules) ∈ coreRules ∧ ∃ rule ∈ rules,
      ruleViolated (mkOperation "/api/v1/vocab" "post" (.obj [("summary", .str "add")])) rule
        = false ∧
      0 ≤ scoreOperation (mkOperation "/api/v1/vocab" "post" (.obj [("summary", .str "add")])) rule ∧
      rule.method = some (mkOperation "/api/v1/vocab" "post" (.obj [("summary", .str "add")])).method ∧
      ("addVocab" = "addVocab" →
        includes (toLowerCase (mkOperation "/api/v1/vocab" "post"
            (.obj [("summary", .str "add")])).path) "upsert" = false ∧
          includes (mkOperation "/api/v1/vocab" "post" (.obj [("summary", .str "add")])).path
            "upsert" = false) ∧
      ("addVocab" = "listVocab" →
        includes (toLowerCase (mkOperation "/api/v1/vocab" "post"
            (.obj [("summary", .str "add")])).path) "\x7b" = false ∧
          includes (mkOperation "/api/v1/vocab" "post" (.obj [("summary", .str "add")])).path
            "\x7b" = false) ∧
      ("addVocab" = "submitReview" →
        includes (toLowerCase (mkOperation "/api/v1/vocab" "post"
            (.obj [("summary", .str "add")])).path) "logs" = false ∧
          includes (mkOperation "/api/v1/vocab" "post" (.obj [("summary", .str "add")])).path
            "logs" = false) :=
  have hmem : ("addVocab", some (mkOperation "/api/v1/vocab" "post"
      (.obj [("summary", .str "add")]))) ∈ (discoverCoreOperations sampleDoc).core := by
    have e : (discoverCoreOperations sampleDoc).core.get? 1 = some ("addVocab",
        some (mkOperation "/api/v1/vocab" "post" (.obj [("summary", .str "add")]))) := by rfl
    exact List.get?_mem e
  ⟨hmem, discover_selected_satisfies sampleDoc "addVocab" _ hmem⟩

theorem findBest_unique_max (ops : List Operation) (rules : List Rule) (op : Operation)
    (r : Rule) (hop : op ∈ ops) (hr : r ∈ rules) (h0 : 0 ≤ scoreOperation op r)
    (hlt : ∀ o ∈ ops, o ≠ op → ∀ r' ∈ rules, scoreOperation o r' < scoreOperation op r) :
    findBest ops rules = some op := by
  cases hb : findBest ops rules with
  | none =>
    have := (findBest_none_iff ops rules).1 hb op hop r hr
    omega
  | some op' =>
    obtain ⟨hop', r', hr', _, hmax⟩ := findBest_some_max ops rules op' hb
    by_cases heq : op' = op
    · rw [heq]
    · have h1 := hlt op' hop' heq r' hr'
      have h2 := hmax op hop r hr
      omega

theorem joinFrom_cons (sep : String) (first : Bool) (x : JVal) (rest : List JVal) :
    ∃ e : String, JVal.joinFrom sep first (x :: rest)
        = (if first then "" else sep) ++ e ++ JVal.joinFrom sep false rest ∧
      ∀ s, x = JVal.str s → e = s := by
  cases x with
  | str t => exact ⟨t, rfl, fun s hs => by cases hs; rfl⟩
  | undefined => exact ⟨_, rfl, fun s hs => by cases hs⟩
  | null => exact ⟨_, rfl, fun s hs => by cases hs⟩
  | bool b => exact ⟨_, rfl, fun s hs => by cases hs⟩
  | num n => exact ⟨_, rfl, fun s hs => by cases hs⟩
  | arr ys => exact ⟨_, rfl, fun s hs => by cases hs⟩
  | obj kvs => exact ⟨_, rfl, fun s hs => by cases hs⟩

theorem joinFrom_part (sep s : String) (xs : List JVal) (first : Bool)
    (h : JVal.str s ∈ xs) : s.data <:+: (JVal.joinFrom sep first xs).data := by
  induction xs generalizing first with
  | nil => simp at h
  | cons x rest ih =>
    obtain ⟨e, he, hs⟩ := joinFrom_cons sep first x rest
    rw [he]
    simp only [String.data_append]
    rcases List.mem_cons.1 h with hx | hx
    · rw [hs s hx.symm]
      exact ⟨(if first = true then "" else sep).data, (JVal.joinFrom sep false rest).data, rfl⟩
    · obtain ⟨a, b, hab⟩ := ih false hx
      refine ⟨(if first = true then "" else sep).data ++ e.data ++ a, b, ?_⟩
      rw [← hab]
      simp [List.append_assoc]

theorem tagged_includesAny (tags : List JVal) (k : String) (h : JVal.str k ∈ tags) :
    includesAny (.str (JVal.join " " tags)) [k] = true := by
  simp only [includesAny, toLower_str, List.any_cons, List.any_nil, Bool.or_false]
  apply includes_toLowerCase
  rw [includes_iff_part]
  exact joinFrom_part " " k tags true h

theorem score_excluded (op : Operation) (rule : Rule) (ks : List String)
    (hr : rule.pathExcludes = some ks) (hx : occursLower op.path ks = true) :
    scoreOperation op rule = -1 := by
  apply score_of_violated
  simp [ruleViolated, hr, hx]

theorem score_not_included (op : Operation) (rule : Rule) (ks : List String)
    (hr : rule.pathIncludes = some ks) (hx : occursLower op.path ks = false) :
    scoreOperation op rule = -1 := by
  apply score_of_violated
  simp [ruleViolated, hr, hx]

theorem score_le_weight (op : Operation) (rule : Rule) :
    scoreOperation op rule ≤ ruleWeight op rule := by
  rw [scoreOperation_eq]
  have := ruleWeight_bounds op rule
  split <;> omega

/-- C4. When the catalog of a document consists of the two operations
`POST /api/v1/vocab/upsert` and `POST /api/v1/vocab`, both carrying the tag
`vocab`, in either order and whatever their other fields, discovery maps
`upsertVocab` to the operation on the upsert path and `addVocab` to the
operation on the plain path. -/
theorem discover_vocab_scenario (doc : JVal) (u p : Operation)
    (hum : u.method = "POST") (hup : u.path = "/api/v1/vocab/upsert")
    (hut : JVal.str "vocab" ∈ u.tags)
    (hpm : p.method = "POST") (hpp : p.path = "/api/v1/vocab")
    (hpt : JVal.str "vocab" ∈ p.tags)
    (hcat : flattenOperations doc = [u, p] ∨ flattenOperations doc = [p, u]) :
    (discoverCoreOperations doc).coreGet "upsertVocab" = some u ∧
      (discoverCoreOperations doc).coreGet "addVocab" = some p := by
  have hmem : u ∈ flattenOperations doc ∧ p ∈ flattenOperations doc ∧
      ∀ o ∈ flattenOperations doc, o = u ∨ o = p := by
    rcases hcat with h | h <;> rw [h] <;> simp [or_comm]
  obtain ⟨hu, hp, hall⟩ := hmem
  have hutag := tagged_includesAny u.tags "vocab" hut
  have hptag := tagged_includesAny p.tags "vocab" hpt
  rw [includesAny_str] at hutag hptag
  constructor
  · show findBest (flattenOperations doc) (rulesOf "upsertVocab") = some u
    have hrules : rulesOf "upsertVocab" = [upsertTagRule, upsertTextRule] := rfl
    rw [hrules]
    have hs : scoreOperation u upsertTagRule = 11 := by
      rw [scoreOperation_eq]
      simp +decide [ruleViolated, ruleWeight, ind, strSet, hum, hup, hutag, upsertTagRule]
    apply findBest_unique_max _ _ u _ hu (List.mem_cons_self _ _) (by rw [hs]; decide)
    intro o ho hou r hr
    rcases hall o ho with h | h
    · exact absurd h hou
    · subst h
      rw [hs]
      simp only [List.mem_cons, List.mem_singleton, List.not_mem_nil, or_false] at hr
      rcases hr with h | h <;> subst h
      · rw [score_not_included o upsertTagRule ["upsert"] rfl (by rw [hpp]; decide)]
        decide
      · have := score_le_weight o upsertTextRule
        have hw : ruleWeight o upsertTextRule = 10 := by
          simp +decide [ruleWeight, ind, strSet, upsertTextRule]
        omega
  · show findBest (flattenOperations doc) (rulesOf "addVocab") = some p
    have hrules : rulesOf "addVocab" = [addTagRule, addPlainRule] := rfl
    rw [hrules]
    have hs : scoreOperation p addTagRule = 11 := by
      rw [scoreOperation_eq]
      simp +decide [ruleViolated, ruleWeight, ind, strSet, hpm, hpp, hptag, addTagRule]
    apply findBest_unique_max _ _ p _ hp (List.mem_cons_self _ _) (by rw [hs]; decide)
    intro o ho hou r hr
    rcases hall o ho with h | h
    · subst h
      rw [hs]
      simp only [List.mem_cons, List.mem_singleton, List.not_mem_nil, or_false] at hr
      rcases hr with h | h <;> subst h
      · rw [score_excluded o addTagRule ["upsert"] rfl (by rw [hup]; decide)]
        decide
      · rw [score_excluded o addPlainRule ["upsert"] rfl (by rw [hup]; decide)]
        decide
    · exact absurd h hou

/-- Instance of C4 on `vocabDoc`, whose catalog lists the upsert path first. -/
theorem discover_vocab_scenario_witness :
    flattenOperations vocabDoc =
        [mkOperation "/api/v1/vocab/upsert" "post" (.obj [("tags", .arr [.str "vocab"])]),
          mkOperation "/api/v1/vocab" "post" (.obj [("tags", .arr [.str "vocab"])])] ∧
      (discoverCoreOperations vocabDoc).coreGet "upsertVocab" =
        some (mkOperation "/api/v1/vocab/upsert" "post" (.obj [("tags", .arr [.str "vocab"])])) ∧
      (discoverCoreOperations vocabDoc).coreGet "addVocab" =
        some (mkOperation "/api/v1/vocab" "post" (.obj [("tags", .arr [.str "vocab"])])) :=
  ⟨rfl, discover_vocab_scenario vocabDoc _ _ rfl rfl (List.Mem.head _) rfl rfl (List.Mem.head _)
    (Or.inl rfl)⟩

/-- C5 (as stated, refuted). For the document without any path, the object
`core` holds the key `health` (and `addVocab`) mapped to `null`, although no
operation scores at least 0. -/
theorem core_has_null_key :
    flattenOperations (JVal.obj []) = [] ∧
      ("health", (none : Option Operation)) ∈ (discoverCoreOperations (JVal.obj [])).core ∧
      ("addVocab", (none : Option Operation)) ∈ (discoverCoreOperations (JVal.obj [])).core := by
  refine ⟨rfl, ?_, ?_⟩
  · exact List.get?_mem (show (discoverCoreOperations (JVal.obj [])).core.get? 0 = _ from rfl)
  · exact List.get?_mem (show (discoverCoreOperations (JVal.obj [])).core.get? 1 = _ from rfl)

theorem coreRules_names : coreRules.map Prod.fst = capabilityNames := by
  rfl

theorem capabilityNames_nodup : capabilityNames.Nodup := by
  decide

/-- C5 (amended). For every description document the object `core` has exactly
the thirteen capability names as keys, in their fixed order; the key of a
capability is mapped to `null` exactly when no operation of the catalog scores
at least 0 on a rule of that capability, and is mapped to an operation
otherwise. -/
theorem core_keys_always_present (schema : JVal) :
    (discoverCoreOperations schema).core.map Prod.fst = capabilityNames ∧
    ∀ name rules, (name, rules) ∈ coreRules →
      (((name, none) ∈ (discoverCoreOperations schema).core ↔
          ∀ op ∈ flattenOperations schema, ∀ r ∈ rules, scoreOperation op r < 0) ∧
        ((∃ op ∈ flattenOperations schema, ∃ r ∈ rules, 0 ≤ scoreOperation op r) →
          ∃ op, (name, some op) ∈ (discoverCoreOperations schema).core)) := by
  have hcore : (discoverCoreOperations schema).core
      = coreRules.map (fun e => (e.1, findBest (flattenOperations schema) e.2)) := rfl
  refine ⟨?_, ?_⟩
  · rw [hcore, List.map_map]
    exact coreRules_names
  · intro name rules hmem
    have hin : (name, findBest (flattenOperations schema) rules)
        ∈ (discoverCoreOperations schema).core := by
      rw [hcore]
      exact List.mem_map.2 ⟨(name, rules), hmem, rfl⟩
    have hspec := findBest_none_iff (flattenOperations schema) rules
    constructor
    · constructor
      · intro hn
        rw [hcore] at hn
        obtain ⟨e, he, heq⟩ := List.mem_map.1 hn
        simp only [Prod.mk.injEq] at heq
        have hnd : (coreRules.map Prod.fst).Nodup := by
          rw [coreRules_names]
          exact capabilityNames_nodup
        have hee : e = (name, rules) :=
          List.inj_on_of_nodup_map hnd he hmem heq.1
        rw [hee] at heq
        exact hspec.1 heq.2
      · intro hall
        rw [hspec.2 hall] at hin
        exact hin
    · rintro ⟨op, hop, r, hr, h0⟩
      cases hb : findBest (flattenOperations schema) rules with
      | none =>
        have := hspec.1 hb op hop r hr
        omega
      | some op' =>
        rw [hb] at hin
        exact ⟨op', hin⟩

/-! ## The retry loop -/

theorem canRetry_eq (i : Nat) (m : Int) (e : Failure) :
    canRetry i m e = (decide ((i : Int) < m - 1) && !stops (.error e)) := by
  cases e with
  | apiError msg status data url method =>
    simp only [canRetry, stops]
    by_cases h : status < 500 <;> simp [h]
    omega
  | other reason => simp [canRetry, stops]

theorem retryLoop_ok (f : Nat → Except Failure Success) (m d : Int) (l i : Nat)
    (last : Option Failure) (r : Success) (hf : f i = .ok r) :
    retryLoop f m d (l + 1) i last = { result := .ok r, attempts := 1, sleeps := [] } := by
  rw [retryLoop, hf]

theorem retryLoop_stop (f : Nat → Except Failure Success) (m d : Int) (l i : Nat)
    (last : Option Failure) (e : Failure) (hf : f i = .error e) (hc : canRetry i m e = false) :
    retryLoop f m d (l + 1) i last
      = { result := .error (some e), attempts := 1, sleeps := [] } := by
  rw [retryLoop, hf]
  simp [hc]

theorem retryLoop_retry (f : Nat → Except Failure Success) (m d : Int) (l i : Nat)
    (last : Option Failure) (e : Failure) (hf : f i = .error e) (hc : canRetry i m e = true) :
    retryLoop f m d (l + 1) i last
      = { result := (retryLoop f m d l (i + 1) (some e)).result,
          attempts := (retryLoop f m d l (i + 1) (some e)).attempts + 1,
          sleeps := d * ((i : Int) + 1) :: (retryLoop f m d l (i + 1) (some e)).sleeps } := by
  rw [retryLoop, hf]
  simp [hc]

theorem retryLoop_spec (f : Nat → Except Failure Success) (m d : Int) :
    ∀ (l i : Nat) (last : Option Failure), m = (i : Int) + l + 1 →
      ∃ k, (retryLoop f m d (l + 1) i last).attempts = k + 1 ∧ k ≤ l ∧
        (∀ j, j < k → stops (f (i + j)) = false) ∧
        (k = l ∨ stops (f (i + k)) = true) ∧
        (retryLoop f m d (l + 1) i last).result = outcomeResult (f (i + k)) ∧
        (retryLoop f m d (l + 1) i last).sleeps
          = (List.range k).map (fun (j : Nat) => d * ((i : Int) + (j : Int) + 1)) := by
  intro l
  induction l with
  | zero =>
    intro i last hm
    cases hf : f i with
    | ok r =>
      rw [retryLoop_ok f m d 0 i last r hf]
      exact ⟨0, rfl, le_refl _, by simp, Or.inl rfl, by simp [hf, outcomeResult], by simp⟩
    | error e =>
      have hc : canRetry i m e = false := by
        rw [canRetry_eq]
        have : ¬ ((i : Int) < m - 1) := by omega
        simp [this]
      rw [retryLoop_stop f m d 0 i last e hf hc]
      exact ⟨0, rfl, le_refl _, by simp, Or.inl rfl, by simp [hf, outcomeResult], by simp⟩
  | succ l ih =>
    intro i last hm
    cases hf : f i with
    | ok r =>
      rw [retryLoop_ok f m d (l + 1) i last r hf]
      exact ⟨0, rfl, Nat.zero_le _, by simp, Or.inr (by simp [hf, stops]),
        by simp [hf, outcomeResult], by simp⟩
    | error e =>
      have hlt : (i : Int) < m - 1 := by omega
      cases hs : stops (.error e) with
      | true =>
        have hc : canRetry i m e = false := by
          rw [canRetry_eq, hs]
          simp
        rw [retryLoop_stop f m d (l + 1) i last e hf hc]
        exact ⟨0, rfl, Nat.zero_le _, by simp, Or.inr (by simp [hf, hs]),
          by simp [hf, outcomeResult], by simp⟩
      | false =>
        have hc : canRetry i m e = true := by
          rw [canRetry_eq, hs]
          simp [hlt]
        rw [retryLoop_retry f m d (l + 1) i last e hf hc]
        obtain ⟨k, hk1, hk2, hk3, hk4, hk5, hk6⟩ :=
          ih (i + 1) (some e) (by push_cast; omega)
        have hidx : ∀ j, i + 1 + j = i + (j + 1) := fun j => by omega
        refine ⟨k + 1, by simp [hk1], by omega, ?_, ?_, ?_, ?_⟩
        · intro j hj
          cases j with
          | zero => simpa [hf] using hs
          | succ j =>
            have := hk3 j (by omega)
            rwa [hidx] at this
        · rcases hk4 with h | h
          · left; omega
          · right
            rwa [hidx] at h
        · show (retryLoop f m d (l + 1) (i + 1) (some e)).result = _
          rw [hk5, hidx]
        · show d * ((i : Int) + 1) :: (retryLoop f m d (l + 1) (i + 1) (some e)).sleeps = _
          rw [hk6, List.range_succ_eq_map]
          simp only [List.map_cons, List.map_map, Nat.cast_zero, add_zero]
          congr 1
          apply List.map_congr_left
          intro j _
          simp only [Function.comp, Nat.cast_succ, Nat.cast_add, Nat.cast_one]
          ring

theorem maxAttempts_toNat (retries : Int) :
    ∃ l : Nat, (maxAttempts retries).toNat = l + 1 ∧
      maxAttempts retries = ((0 : Nat) : Int) + l + 1 ∧ ((l : Int) = max 0 retries) := by
  refine ⟨(max 0 retries).toNat, ?_, ?_, ?_⟩
  · unfold maxAttempts
    omega
  · unfold maxAttempts
    omega
  · omega

theorem requestJsonWith_spec (f : Nat → Except Failure Success) (retries d : Int) :
    ∃ k : Nat, (requestJsonWith f retries d).attempts = k + 1 ∧ (k : Int) ≤ max 0 retries ∧
      (∀ j, j < k → stops (f j) = false) ∧
      ((k : Int) = max 0 retries ∨ stops (f k) = true) ∧
      (requestJsonWith f retries d).result = outcomeResult (f k) ∧
      (requestJsonWith f retries d).sleeps
        = (List.range k).map (fun (j : Nat) => d * ((j : Int) + 1)) := by
  obtain ⟨l, hl1, hl2, hl3⟩ := maxAttempts_toNat retries
  obtain ⟨k, h1, h2, h3, h4, h5, h6⟩ := retryLoop_spec f (maxAttempts retries) d l 0 none hl2
  refine ⟨k, ?_, ?_, ?_, ?_, ?_, ?_⟩
  · simpa [requestJsonWith, hl1] using h1
  · omega
  · simpa using h3
  · rcases h4 with h | h
    · left; omega
    · right; simpa using h
  · simpa [requestJsonWith, hl1] using h5
  · simpa [requestJsonWith, hl1] using h6

/-- C6 (as stated, refuted). With `retries = -1` one attempt is made, which is
more than `retries + 1 = 0`. -/
theorem attempts_exceed_negative_retries :
    (requestJsonWith alwaysDown (-1) 300).attempts = 1 ∧
      ¬ (((requestJsonWith alwaysDown (-1) 300).attempts : Int) ≤ (-1) + 1) := by
  decide

/-- C6 (amended). For every integer value of `retries` and every sequence of
attempt outcomes, `requestJson` makes at least one attempt and at most
`max(1, retries + 1)` attempts; for an integer `retries ≥ 0` that is at most
`retries + 1`.  The same holds when the outcomes come from the calls of `fetch`. -/
theorem attempts_bounded (f : Nat → Except Failure Success) (retries d : Int) :
    1 ≤ (requestJsonWith f retries d).attempts ∧
      ((requestJsonWith f retries d).attempts : Int) ≤ max 1 (retries + 1) ∧
      (0 ≤ retries → ((requestJsonWith f retries d).attempts : Int) ≤ retries + 1) ∧
      ∀ (jsonParse : String → Option JVal) (stringify : JVal → String) (url method : String)
        (fetches : Nat → Except String Response),
        ((requestJson jsonParse stringify url method retries d fetches).attempts : Int)
          ≤ max 1 (retries + 1) := by
  have key : ∀ g : Nat → Except Failure Success,
      1 ≤ (requestJsonWith g retries d).attempts ∧
        ((requestJsonWith g retries d).attempts : Int) ≤ max 1 (retries + 1) := by
    intro g
    obtain ⟨k, h1, h2, _⟩ := requestJsonWith_spec g retries d
    rw [h1]
    constructor
    · omega
    · push_cast
      omega
  refine ⟨(key f).1, (key f).2, ?_, ?_⟩
  · intro h0
    have := (key f).2
    omega
  · intro jsonParse stringify url method fetches
    exact (key _).2

/-- C7. For every value of `retries`: if attempt number `k + 1` is made and fails
with an `ApiError` whose status is below 500, it is the last attempt and that
same error is thrown. -/
theorem client_error_not_retried (f : Nat → Except Failure Success) (retries d : Int) (k : Nat)
    (message : String) (status : Nat) (data : JVal) (url method : String)
    (hmade : k < (requestJsonWith f retries d).attempts)
    (hfail : f k = .error (.apiError message status data url method))
    (hstatus : status < 500) :
    (requestJsonWith f retries d).attempts = k + 1 ∧
      (requestJsonWith f retries d).result
        = .error (some (.apiError message status data url method)) := by
  obtain ⟨k', h1, _, h3, _, h5, _⟩ := requestJsonWith_spec f retries d
  have hstop : stops (f k) = true := by
    rw [hfail]
    simp [stops, hstatus]
  have hk : k = k' := by
    rcases Nat.lt_or_ge k k' with h | h
    · rw [h3 k h] at hstop
      cases hstop
    · omega
  subst hk
  refine ⟨h1, ?_⟩
  rw [h5, hfail]
  rfl

/-- Instance of C7: with `retries = 3`, the 404 of the third attempt ends the run. -/
theorem client_error_not_retried_witness :
    2 < (requestJsonWith twiceBusyThenMissing 3 300).attempts ∧
      (requestJsonWith twiceBusyThenMissing 3 300).attempts = 2 + 1 ∧
      (requestJsonWith twiceBusyThenMissing 3 300).result
        = .error (some (.apiError "not found" 404 (.obj [("detail", .str "not found")])
            "http://h/x" "GET")) :=
  ⟨by decide, client_error_not_retried twiceBusyThenMissing 3 300 2 "not found" 404
    (.obj [("detail", .str "not found")]) "http://h/x" "GET" (by decide) rfl (by decide)⟩

/-- C8. For every natural number `retries` and every sequence of attempt
outcomes, the number `a` of attempts satisfies `1 ≤ a ≤ retries + 1`, no attempt
before the `a`-th succeeds or fails with an `ApiError` of status below 500, and
`a = retries + 1` unless the `a`-th attempt does so: `a` is the smaller of
`retries + 1` and the index of the first such attempt.  The result is the
outcome of the `a`-th attempt (its value returned, or its error thrown).  When
every attempt fails at the network level or with a status of at least 500,
exactly `retries + 1` attempts are made. -/
theorem stops_at_first_final (f : Nat → Except Failure Success) (retries : Nat) (d : Int) :
    1 ≤ (requestJsonWith f retries d).attempts ∧
      (requestJsonWith f retries d).attempts ≤ retries + 1 ∧
      (∀ j, j + 1 < (requestJsonWith f retries d).attempts → stops (f j) = false) ∧
      ((requestJsonWith f retries d).attempts = retries + 1 ∨
        stops (f ((requestJsonWith f retries d).attempts - 1)) = true) ∧
      (requestJsonWith f retries d).result
        = outcomeResult (f ((requestJsonWith f retries d).attempts - 1)) ∧
      ((∀ j, stops (f j) = false) → (requestJsonWith f retries d).attempts = retries + 1) := by
  obtain ⟨k, h1, h2, h3, h4, h5, _⟩ := requestJsonWith_spec f retries d
  rw [h1]
  simp only [Nat.add_sub_cancel]
  refine ⟨by omega, by omega, fun j hj => h3 j (by omega), ?_, h5, ?_⟩
  · rcases h4 with h | h
    · left; omega
    · right; exact h
  · intro hall
    rcases h4 with h | h
    · omega
    · rw [hall k] at h
      cases h

/-- Instance of C8: with `retries = 3` and the network down, four attempts are made. -/
theorem stops_at_first_final_witness :
    (requestJsonWith alwaysDown (3 : Nat) 300).attempts = 3 + 1 :=
  (stops_at_first_final alwaysDown 3 300).2.2.2.2.2 (fun _ => rfl)

theorem linear_backoff_sum (d : Int) (k : Nat) :
    ((List.range k).map (fun (j : Nat) => d * ((j : Int) + 1))).sum * 2 = d * k * (k + 1) := by
  induction k with
  | zero => simp
  | succ k ih =>
    rw [List.range_succ, List.map_append, List.sum_append, add_mul, ih]
    simp only [List.map_cons, List.map_nil, List.sum_cons, List.sum_nil, add_zero]
    push_cast
    ring

/-- C9. The calls of `sleep` are exactly one after each attempt but the last,
the `i`-th of them (1-indexed) with the argument `retryDelayMs * i`; hence for
`retries ≥ 0`, when every attempt fails at the network level or with a status of
at least 500, the arguments add up to `retryDelayMs * retries * (retries + 1) / 2`. -/
theorem linear_backoff (f : Nat → Except Failure Success) (retries d : Int) :
    (requestJsonWith f retries d).sleeps
        = (List.range ((requestJsonWith f retries d).attempts - 1)).map
            (fun (j : Nat) => d * ((j : Int) + 1)) ∧
      (0 ≤ retries → (∀ j, stops (f j) = false) →
        (requestJsonWith f retries d).sleeps.sum = d * retries * (retries + 1) / 2) := by
  obtain ⟨k, h1, h2, _, h4, _, h6⟩ := requestJsonWith_spec f retries d
  rw [h1, h6]
  refine ⟨by simp, ?_⟩
  intro h0 hall
  have hk : (k : Int) = retries := by
    rcases h4 with h | h
    · omega
    · rw [hall k] at h
      cases h
  have hsum := linear_backoff_sum d k
  rw [hk] at hsum
  rw [← hsum]
  simp

/-- Instance of C9: with `retries = 3`, a delay of 300 and the network down, the sleeps are
300, 600 and 900, 1800 in total. -/
theorem linear_backoff_witness :
    (requestJsonWith alwaysDown 3 300).sleeps = [300, 600, 900] ∧
      (requestJsonWith alwaysDown 3 300).sleeps.sum = 300 * 3 * (3 + 1) / 2 :=
  ⟨by decide, (linear_backoff alwaysDown 3 300).2 (by decide) (fun _ => rfl)⟩

/-! ## Error messages -/

/-- C10 (as stated, refuted). For the body `""` (a JSON string that is empty) the
message is the fallback `HTTP 404`, not the body itself. -/
theorem empty_string_body_falls_back :
    extractErrorMessage (fun _ => "[]") (.str "") "HTTP 404" = "HTTP 404" ∧
      messageAsStated (fun _ => "[]") (.str "") "HTTP 404" = "" := by
  decide

/-- C10 (amended). For every non-success response the `ApiError` carries the
status and the parsed body, and its message is: the body itself if it is a
non-empty string; else its `detail` field if that is a string; else the JSON
text of `detail` if that is a list; else its `message` field if that is a
string; else `HTTP <status>` (so also for an empty-string body).  A body with a
string `detail` and a string `message` yields `detail`; an empty response text
yields `HTTP <status>`. -/
theorem error_message_priority (jsonParse : String → Option JVal) (stringify : JVal → String) :
    (∀ data fallback, extractErrorMessage stringify data fallback
        = messageAmended stringify data fallback) ∧
    (∀ (url method : String) (response : Response), response.ok = false →
      attempt jsonParse stringify url method (.ok response)
        = .error (.apiError
            (messageAmended stringify (parseBody jsonParse response.text)
              ("HTTP " ++ toString response.status))
            response.status (parseBody jsonParse response.text) url method)) ∧
    (∀ (kvs : List (String × JVal)) (s m fallback : String),
      JVal.lookup "detail" kvs = .str s → JVal.lookup "message" kvs = .str m →
        extractErrorMessage stringify (.obj kvs) fallback = s) ∧
    (∀ fallback, extractErrorMessage stringify (parseBody jsonParse "") fallback = fallback) := by
  have hpri : ∀ data fallback, extractErrorMessage stringify data fallback
      = messageAmended stringify data fallback := by
    intro data fallback
    cases data with
    | str s =>
      by_cases hs : s = "" <;>
        simp [extractErrorMessage, messageAmended, JVal.truthy, JVal.isString, JVal.toStr, hs]
    | obj kvs =>
      simp only [extractErrorMessage, messageAmended, JVal.truthy, JVal.isString, JVal.get]
      cases hd : JVal.lookup "detail" kvs <;> cases hm : JVal.lookup "message" kvs <;>
        simp [JVal.isString, JVal.isArray, JVal.toStr]
    | undefined => simp [extractErrorMessage, messageAmended, JVal.truthy, JVal.get]
    | null => simp [extractErrorMessage, messageAmended, JVal.truthy, JVal.get]
    | bool b =>
      cases b <;>
        simp [extractErrorMessage, messageAmended, JVal.truthy, JVal.isString, JVal.isArray,
          JVal.get]
    | num n =>
      by_cases hn : n = 0 <;>
        simp [extractErrorMessage, messageAmended, JVal.truthy, JVal.isString, JVal.isArray,
          JVal.get, hn]
    | arr xs =>
      simp [extractErrorMessage, messageAmended, JVal.truthy, JVal.isString, JVal.isArray,
        JVal.get]
  refine ⟨hpri, ?_, ?_, ?_⟩
  · intro url method response hok
    simp [attempt, hok, hpri]
  · intro kvs s m fallback hd hm
    rw [hpri]
    simp [messageAmended, JVal.get, hd]
  · intro fallback
    rw [hpri]
    rfl

/-! ## The catalog -/

theorem get_of_falsy (v : JVal) (k : String) (h : v.truthy = false) : v.get k = .undefined := by
  cases v <;> simp_all [JVal.truthy, JVal.get]

theorem entries_of_falsy (v : JVal) (h : v.truthy = false) : v.entries = [] := by
  cases v with
  | str s =>
    have hs : s = "" := by simpa [JVal.truthy] using h
    subst hs
    rfl
  | undefined => rfl
  | null => rfl
  | bool b => rfl
  | num n => rfl
  | arr xs => simp [JVal.truthy] at h
  | obj kvs => simp [JVal.truthy] at h

theorem flattenOperations_eq (doc : JVal) :
    flattenOperations doc = (doc.get "paths").entries.flatMap (fun pm =>
      (HTTP_METHODS.filter (fun m => (pm.2.get m).truthy)).map
        (fun m => mkOperation pm.1 m (pm.2.get m))) := by
  have hfm : ∀ (pm : String × JVal) (ms : List String),
      ms.filterMap (fun method =>
          if !(pm.2.get method).truthy then none
          else some (mkOperation pm.1 method (pm.2.get method)))
        = (ms.filter (fun m => (pm.2.get m).truthy)).map
            (fun m => mkOperation pm.1 m (pm.2.get m)) := by
    intro pm ms
    induction ms with
    | nil => rfl
    | cons m rest ih =>
      cases h : (pm.2.get m).truthy
      · simpa [List.filterMap_cons, List.filter_cons, h] using ih
      · simpa [List.filterMap_cons, List.filter_cons, h] using ih
  unfold flattenOperations
  split
  · rename_i h
    have hp : (doc.get "paths").truthy = false := by
      cases hd : doc.truthy
      · rw [get_of_falsy doc "paths" hd]
        rfl
      · simpa [hd] using h
    rw [entries_of_falsy _ hp]
    rfl
  · simp only [hfm]

/-- C14. The catalog lists exactly the operations the document declares: for
each path entry in the document's order and each of the seven methods in their
fixed order under which a (truthy) value is declared, one record with that path,
method and value.  Each record has the upper-cased method, an id equal to its
operation id, which is the declared one or else `<method>_<path>`, and the
declared tags when they form a non-empty list, else `["default"]`; its tags are
never empty. -/
theorem flattenOperations_records (doc : JVal) :
    (flattenOperations doc).map (fun op => (op.path, op.methodLower, op.raw))
        = declaredOperations doc ∧
      (flattenOperations doc).length = (declaredOperations doc).length ∧
      ∀ op ∈ flattenOperations doc,
        op.methodLower ∈ HTTP_METHODS ∧ op.method = toUpperCase op.methodLower ∧
        op.id = op.operationId ∧
        op.operationId =
          (if (op.raw.get "operationId").truthy then op.raw.get "operationId"
            else .str (op.methodLower ++ "_" ++ op.path)) ∧
        op.tags =
          (if (op.raw.get "tags").isArray && (op.raw.get "tags").elems.length != 0
            then (op.raw.get "tags").elems else [.str "default"]) ∧
        op.tags ≠ [] := by
  have hmap : (flattenOperations doc).map (fun op => (op.path, op.methodLower, op.raw))
      = declaredOperations doc := by
    rw [flattenOperations_eq, declaredOperations, List.map_flatMap]
    congr 1
    funext pm
    rw [List.map_map]
    rfl
  refine ⟨hmap, ?_, ?_⟩
  · rw [← hmap, List.length_map]
  · intro op hop
    rw [flattenOperations_eq] at hop
    simp only [List.mem_flatMap, List.mem_map, List.mem_filter] at hop
    obtain ⟨pm, _, m, ⟨hm, _⟩, rfl⟩ := hop
    refine ⟨hm, rfl, rfl, rfl, rfl, ?_⟩
    show (if ((pm.2.get m).get "tags").isArray && ((pm.2.get m).get "tags").elems.length != 0
      then ((pm.2.get m).get "tags").elems else [JVal.str "default"]) ≠ []
    split
    · rename_i h
      intro he
      simp [he] at h
    · simp

theorem getE_of_truthy (v : JVal) (k : String) (h : v.truthy = true) :
    getE v k = .ok (v.get k) := by
  cases v <;> simp_all [JVal.truthy, getE]

theorem entriesE_of_truthy (v : JVal) (h : v.truthy = true) : entriesE v = .ok v.entries := by
  cases v <;> simp_all [JVal.truthy, entriesE]

theorem mkOperationE_ok (path method : String) (raw : JVal) (h : raw.truthy = true) :
    mkOperationE path method raw = .ok (mkOperation path method raw) := by
  simp only [mkOperationE, getE_of_truthy raw _ h]
  rfl

theorem methodsE_ok (path : String) (methods : JVal) (ms : List String) :
    methodsE path methods ms = .ok (ms.filterMap (fun method =>
      if !(methods.get method).truthy then none
      else some (mkOperation path method (methods.get method)))) := by
  induction ms with
  | nil => rfl
  | cons m rest ih =>
    cases h : (methods.get m).truthy
    · simp [methodsE, h, ih]
    · simp only [methodsE, h, ih, mkOperationE_ok path m _ h]
      simp [List.filterMap_cons, h]
      rfl

theorem pathsE_ok (es : List (String × JVal)) :
    pathsE es = .ok (es.flatMap (fun pm =>
      HTTP_METHODS.filterMap (fun method =>
        if !(pm.2.get method).truthy then none
        else some (mkOperation pm.1 method (pm.2.get method))))) := by
  induction es with
  | nil => rfl
  | cons pm rest ih =>
    simp only [pathsE, methodsE_ok, ih, List.flatMap_cons]
    rfl

theorem flattenOperationsE_ok (schema : JVal) :
    flattenOperationsE schema = .ok (flattenOperations schema) := by
  unfold flattenOperationsE flattenOperations
  cases hs : schema.truthy
  · simp
  · simp only [Bool.not_true, Bool.false_eq_true, if_false, Bool.false_or,
      getE_of_truthy schema _ hs]
    cases hp : (schema.get "paths").truthy
    · simp [bind, Except.bind, hp]
    · simp only [Bool.not_true, Bool.false_eq_true, if_false]
      show (do
        let paths ← (Except.ok (schema.get "paths") : Except String JVal)
        if !paths.truthy then Except.ok []
        else do
          let es ← entriesE paths
          pathsE es) = _
      simp only [bind, Except.bind, hp, Bool.not_true, Bool.false_eq_true, if_false,
        entriesE_of_truthy _ hp, pathsE_ok]

/-- C15 (as stated, refuted). On the inputs `null`, the string `x` and the
number 5, none of them an object, `flattenOperations` throws nothing and returns
the empty catalog. -/
theorem flattenOperations_accepts_non_objects :
    flattenOperationsE .null = .ok [] ∧ flattenOperationsE (.str "x") = .ok [] ∧
      flattenOperationsE (.num 5) = .ok [] := by
  refine ⟨rfl, rfl, rfl⟩

/-- C15 (amended). `flattenOperations` never fails: on every input, object or
not, it returns a catalog; the catalog is empty for every falsy input (`null`,
`undefined`, the empty string, 0), for every input that is not a key-value
object, and for every object without a (truthy) paths section. -/
theorem flattenOperations_never_fails (schema : JVal) :
    flattenOperationsE schema = .ok (flattenOperations schema) ∧
      (schema.truthy = false → flattenOperations schema = []) ∧
      ((∀ kvs, schema ≠ .obj kvs) → flattenOperations schema = []) ∧
      ((schema.get "paths").truthy = false → flattenOperations schema = []) := by
  have hpaths : (schema.get "paths").truthy = false → flattenOperations schema = [] := by
    intro h
    unfold flattenOperations
    simp [h]
  refine ⟨flattenOperationsE_ok schema, ?_, ?_, hpaths⟩
  · intro h
    unfold flattenOperations
    simp [h]
  · intro h
    apply hpaths
    cases schema with
    | obj kvs => exact absurd rfl (h kvs)
    | undefined => rfl
    | null => rfl
    | bool b => rfl
    | num n => rfl
    | str s => rfl
    | arr xs => rfl

/-! ## The facade -/

theorem findBest_nil (rules : List Rule) : findBest [] rules = none :=
  (findBest_none_iff [] rules).2 (fun _ h => by cases h)

theorem coreGet_cons_eq (schema : JVal) (baseUrl : String) (ops : List Operation)
    (k : String) (v : Option Operation) (rest : List (String × Option Operation))
    (name : String) :
    ApiClient.coreGet ⟨schema, baseUrl, ops, (k, v) :: rest⟩ name
      = if k = name then v else ApiClient.coreGet ⟨schema, baseUrl, ops, rest⟩ name := by
  by_cases hk : k = name
  · simp [ApiClient.coreGet, List.find?_cons, hk]
  · have hbeq : (k == name) = false := by simpa using hk
    simp [ApiClient.coreGet, List.find?_cons, hbeq, hk]

theorem coreGet_some_iff (c : ApiClient) (name : String) (op : Operation)
    (hnd : (c.core.map Prod.fst).Nodup) :
    c.coreGet name = some op ↔ (name, some op) ∈ c.core := by
  obtain ⟨schema, baseUrl, ops, core⟩ := c
  simp only at hnd ⊢
  induction core with
  | nil => simp [ApiClient.coreGet]
  | cons e rest ih =>
    obtain ⟨k, v⟩ := e
    simp only [List.map_cons, List.nodup_cons] at hnd
    rw [coreGet_cons_eq]
    by_cases hk : k = name
    · subst hk
      simp only [if_true, List.mem_cons, Prod.mk.injEq, true_and]
      constructor
      · intro h
        exact Or.inl h.symm
      · rintro (h | h)
        · exact h.symm
        · exact absurd (List.mem_map.2 ⟨(k, some op), h, rfl⟩) hnd.1
    · simp only [hk, if_false, List.mem_cons, Prod.mk.injEq]
      rw [ih hnd.2]
      constructor
      · intro h
        exact Or.inr h
      · rintro (h | h)
        · exact absurd h.1.symm hk
        · exact h

theorem core_keys (schema : JVal) :
    (discoverCoreOperations schema).core.map Prod.fst = capabilityNames := by
  show (coreRules.map (fun e => (e.1, findBest (flattenOperations schema) e.2))).map Prod.fst = _
  rw [List.map_map]
  exact coreRules_names

theorem flattenOperations_empty (doc : JVal)
    (h : doc.get "paths" = .undefined ∨ (doc.get "paths").entries = []) :
    flattenOperations doc = [] := by
  rw [flattenOperations_eq]
  rcases h with h | h
  · rw [h]
    rfl
  · rw [h]
    rfl

/-- C16. For every document whose paths section is missing or has no entry, the
catalog is empty, and each of the thirteen capabilities is absent: its key in
`core` is mapped to `null`, no operation is mapped to it, and `has(name)` is
false. -/
theorem empty_paths_no_capability (doc : JVal) (baseUrl : String)
    (h : doc.get "paths" = .undefined ∨ (doc.get "paths").entries = []) :
    flattenOperations doc = [] ∧ (createApiClient doc baseUrl).operations = [] ∧
      ∀ name ∈ capabilityNames,
        (name, none) ∈ (createApiClient doc baseUrl).core ∧
        (∀ op, (name, some op) ∉ (createApiClient doc baseUrl).core) ∧
        (createApiClient doc baseUrl).has name = false := by
  have hflat := flattenOperations_empty doc h
  have hcore : (createApiClient doc baseUrl).core
      = coreRules.map (fun e => (e.1, (none : Option Operation))) := by
    show coreRules.map (fun e => (e.1, findBest (flattenOperations doc) e.2)) = _
    rw [hflat]
    simp only [findBest_nil]
  have hnd : ((createApiClient doc baseUrl).core.map Prod.fst).Nodup := by
    rw [show (createApiClient doc baseUrl).core = (discoverCoreOperations doc).core from rfl,
      core_keys]
    exact capabilityNames_nodup
  have hnone : ∀ name op, (name, some op) ∉ (createApiClient doc baseUrl).core := by
    intro name op hmem
    rw [hcore] at hmem
    obtain ⟨e, _, he⟩ := List.mem_map.1 hmem
    simp at he
  refine ⟨hflat, hflat, ?_⟩
  intro name hname
  refine ⟨?_, hnone name, ?_⟩
  · rw [hcore]
    rw [← coreRules_names] at hname
    obtain ⟨e, he, rfl⟩ := List.mem_map.1 hname
    exact List.mem_map.2 ⟨e, he, rfl⟩
  · cases hg : (createApiClient doc baseUrl).coreGet name with
    | none => simp [ApiClient.has, hg]
    | some op =>
      exact absurd ((coreGet_some_iff _ name op hnd).1 hg) (hnone name op)

/-- Instance of C16 on the document whose paths section is the empty object. -/
theorem empty_paths_no_capability_witness :
    (emptyPathsDoc.get "paths").entries = [] ∧
      (createApiClient emptyPathsDoc "http://localhost:8000").has "addVocab" = false :=
  ⟨rfl, ((empty_paths_no_capability emptyPathsDoc "http://localhost:8000" (Or.inr rfl)).2.2
    "addVocab" (by decide)).2.2⟩

theorem includes_middle (a s b : String) : includes (a ++ s ++ b) s = true := by
  rw [includes_iff_part]
  exact ⟨a.data, b.data, by simp [String.data_append]⟩

theorem invoke_missing (c : ApiClient) (call : FacadeCall) (h : c.coreGet call.name = none) :
    c.invoke call = .error ("Backend ch瓢a expose operation \x27" ++ call.name ++ "\x27.") := by
  cases call <;>
    simp only [FacadeCall.name] at h <;>
    simp [ApiClient.invoke, ApiClient.requireOp, h, bind, Except.bind, FacadeCall.name]

/-- C17. For every document and every capability name of the closed set,
`has(name)` is true exactly when `core` maps the name to an operation.  When
`has` is false for the name of a capability method, a call of that method throws
an error whose message contains the name, before `callOperation` is reached: no
call of `requestJson` is made. -/
theorem facade_guard (schema : JVal) (baseUrl : String) (call : FacadeCall) :
    (∀ name ∈ capabilityNames,
      ((createApiClient schema baseUrl).has name = true ↔
        ∃ op, (name, some op) ∈ (discoverCoreOperations schema).core)) ∧
    call.name ∈ capabilityNames ∧
    ((createApiClient schema baseUrl).has call.name = false →
      ∃ message, (createApiClient schema baseUrl).invoke call = .error message ∧
        includes message call.name = true) := by
  have hnd : ((createApiClient schema baseUrl).core.map Prod.fst).Nodup := by
    rw [show (createApiClient schema baseUrl).core = (discoverCoreOperations schema).core
      from rfl, core_keys]
    exact capabilityNames_nodup
  refine ⟨?_, ?_, ?_⟩
  · intro name _
    constructor
    · intro hh
      cases hg : (createApiClient schema baseUrl).coreGet name with
      | none => simp [ApiClient.has, hg] at hh
      | some op => exact ⟨op, (coreGet_some_iff _ name op hnd).1 hg⟩
    · rintro ⟨op, hop⟩
      have hg : (createApiClient schema baseUrl).coreGet name = some op :=
        (coreGet_some_iff _ name op hnd).2 hop
      simp [ApiClient.has, hg]
  · cases call <;> simp [FacadeCall.name, capabilityNames]
  · intro hh
    have hg : (createApiClient schema baseUrl).coreGet call.name = none := by
      cases hg : (createApiClient schema baseUrl).coreGet call.name with
      | none => rfl
      | some op => simp [ApiClient.has, hg] at hh
    exact ⟨_, invoke_missing _ call hg, includes_middle _ _ _⟩

/-! ## Operation ids -/

/-- C18 (as stated, refuted). Both records of a document whose two operations
declare the operation id `list` have the id `list`. -/
theorem ids_not_distinct :
    (flattenOperations sameIdDoc).map (fun op => op.id.toStr) = ["list", "list"] ∧
      ¬ ((flattenOperations sameIdDoc).map (fun op => op.id)).Nodup := by
  constructor
  · rfl
  · have h : (flattenOperations sameIdDoc).map (fun op => op.id)
        = [JVal.str "list", JVal.str "list"] := rfl
    rw [h]
    simp

theorem method_no_underscore : ∀ m ∈ HTTP_METHODS, Char.ofNat 95 ∉ m.data := by
  decide

theorem append_sep_inj {α : Type} (c : α) :
    ∀ (x₁ x₂ z₁ z₂ : List α), c ∉ x₁ → c ∉ x₂ → x₁ ++ c :: z₁ = x₂ ++ c :: z₂ →
      x₁ = x₂ ∧ z₁ = z₂
  | [], [], _, _, _, _, h => by
    simp only [List.nil_append, List.cons.injEq, true_and] at h
    exact ⟨rfl, h⟩
  | [], b :: x₂, _, _, _, h₂, h => by
    simp only [List.nil_append, List.cons_append, List.cons.injEq] at h
    exact absurd (h.1 ▸ List.mem_cons_self _ _) h₂
  | a :: x₁, [], _, _, h₁, _, h => by
    simp only [List.nil_append, List.cons_append, List.cons.injEq] at h
    exact absurd (h.1 ▸ List.mem_cons_self _ _) h₁
  | a :: x₁, b :: x₂, z₁, z₂, h₁, h₂, h => by
    simp only [List.cons_append, List.cons.injEq] at h
    obtain ⟨hx, hz⟩ := append_sep_inj c x₁ x₂ z₁ z₂
      (fun hm => h₁ (List.mem_cons_of_mem _ hm)) (fun hm => h₂ (List.mem_cons_of_mem _ hm)) h.2
    exact ⟨by rw [h.1, hx], hz⟩

theorem synthesized_injective (m₁ m₂ p₁ p₂ : String) (h₁ : m₁ ∈ HTTP_METHODS)
    (h₂ : m₂ ∈ HTTP_METHODS) (h : m₁ ++ "_" ++ p₁ = m₂ ++ "_" ++ p₂) : m₁ = m₂ ∧ p₁ = p₂ := by
  have hd : m₁.data ++ (Char.ofNat 95 :: p₁.data) = m₂.data ++ (Char.ofNat 95 :: p₂.data) := by
    have := congrArg String.data h
    simpa [String.data_append] using this
  have h1 := method_no_underscore m₁ h₁
  have h2 := method_no_underscore m₂ h₂
  obtain ⟨hm, hp⟩ := append_sep_inj _ _ _ _ _ h1 h2 hd
  exact ⟨String.ext hm, String.ext hp⟩

theorem mkOperation_id_of_undeclared (path method : String) (raw : JVal)
    (h : declaresId (mkOperation path method raw) = false) :
    (mkOperation path method raw).id = .str (method ++ "_" ++ path) := by
  have h' : (raw.get "operationId").truthy = false := h
  simp [mkOperation, JVal.orElse, h']

/-- C18 (amended). For every document whose path keys are distinct, two records
of the catalog have the same id only if at least one of them declares an
operation id: the synthesized ids `<method>_<path>` are pairwise distinct.  In
particular the ids are pairwise distinct when no operation declares an operation
id. -/
theorem synthesized_ids_distinct (doc : JVal)
    (hkeys : ((doc.get "paths").entries.map Prod.fst).Nodup) :
    (flattenOperations doc).Pairwise
        (fun a b => a.id = b.id → declaresId a = true ∨ declaresId b = true) ∧
      ((∀ op ∈ flattenOperations doc, declaresId op = false) →
        ((flattenOperations doc).map (fun op => op.id)).Nodup) := by
  have key : ∀ (p₁ p₂ m₁ m₂ : String) (r₁ r₂ : JVal), m₁ ∈ HTTP_METHODS → m₂ ∈ HTTP_METHODS →
      (mkOperation p₁ m₁ r₁).id = (mkOperation p₂ m₂ r₂).id →
      (p₁ = p₂ ∧ m₁ = m₂) ∨ declaresId (mkOperation p₁ m₁ r₁) = true ∨
        declaresId (mkOperation p₂ m₂ r₂) = true := by
    intro p₁ p₂ m₁ m₂ r₁ r₂ h₁ h₂ hid
    cases hd₁ : declaresId (mkOperation p₁ m₁ r₁) with
    | true => exact Or.inr (Or.inl rfl)
    | false =>
      cases hd₂ : declaresId (mkOperation p₂ m₂ r₂) with
      | true => exact Or.inr (Or.inr rfl)
      | false =>
        rw [mkOperation_id_of_undeclared _ _ _ hd₁, mkOperation_id_of_undeclared _ _ _ hd₂] at hid
        have hs : m₁ ++ "_" ++ p₁ = m₂ ++ "_" ++ p₂ := by
          injection hid
        obtain ⟨hm, hp⟩ := synthesized_injective m₁ m₂ p₁ p₂ h₁ h₂ hs
        exact Or.inl ⟨hp, hm⟩
  have hpw : (flattenOperations doc).Pairwise
      (fun a b => a.id = b.id → declaresId a = true ∨ declaresId b = true) := by
    rw [flattenOperations_eq, List.pairwise_flatMap]
    constructor
    · intro pm _
      rw [List.pairwise_map]
      have hnd : (HTTP_METHODS.filter (fun m => (pm.2.get m).truthy)).Nodup :=
        List.Nodup.filter _ (by decide)
      refine List.Pairwise.imp_of_mem ?_ hnd
      intro m₁ m₂ hm₁ hm₂ hne hid
      rcases key pm.1 pm.1 m₁ m₂ _ _ (List.mem_of_mem_filter hm₁)
        (List.mem_of_mem_filter hm₂) hid with h | h
      · exact absurd h.2 hne
      · exact h
    · have hnd := List.pairwise_map.1 hkeys
      refine List.Pairwise.imp ?_ hnd
      intro pm₁ pm₂ hne a ha b hb hid
      obtain ⟨m₁, hm₁, rfl⟩ := List.mem_map.1 ha
      obtain ⟨m₂, hm₂, rfl⟩ := List.mem_map.1 hb
      rcases key pm₁.1 pm₂.1 m₁ m₂ _ _ (List.mem_of_mem_filter hm₁)
        (List.mem_of_mem_filter hm₂) hid with h | h
      · exact absurd h.1 hne
      · exact h
  refine ⟨hpw, ?_⟩
  intro hall
  rw [List.Nodup, List.pairwise_map]
  refine List.Pairwise.imp_of_mem ?_ hpw
  intro a b ha hb h hid
  rcases h hid with h | h
  · rw [hall a ha] at h
    cases h
  · rw [hall b hb] at h
    cases h

/-- Instance of C18 (amended) on `vocabDoc`, whose operations declare no operation id. -/
theorem synthesized_ids_distinct_witness :
    (((vocabDoc.get "paths").entries.map Prod.fst).Nodup) ∧
      ((flattenOperations vocabDoc).map (fun op => op.id)).Nodup :=
  ⟨by decide, (synthesized_ids_distinct vocabDoc (by decide)).2 (by
    intro op hop
    have h : flattenOperations vocabDoc =
        [mkOperation "/api/v1/vocab/upsert" "post" (.obj [("tags", .arr [.str "vocab"])]),
          mkOperation "/api/v1/vocab" "post" (.obj [("tags", .arr [.str "vocab"])])] := rfl
    rw [h] at hop
    simp only [List.mem_cons, List.mem_singleton, List.not_mem_nil, or_false] at hop
    rcases hop with h | h <;> subst h <;> rfl)⟩

/-! ## URLs -/

theorem setParam_fresh (ps : List (String × String)) (key value : String)
    (h : key ∉ ps.map Prod.fst) : setParam ps key value = ps ++ [(key, value)] := by
  induction ps with
  | nil => rfl
  | cons e rest ih =>
    obtain ⟨k, v⟩ := e
    simp only [List.map_cons, List.mem_cons, not_or] at h
    have hk : ¬ k = key := fun hk => h.1 hk.symm
    simp [setParam, hk, ih h.2]

theorem appendParams_fold (ps : List (String × String)) (key : String) (items : List JVal) :
    items.foldl (fun acc item => appendParam acc key item.toStr) ps
      = ps ++ items.map (fun item => (key, item.toStr)) := by
  induction items generalizing ps with
  | nil => simp
  | cons x rest ih =>
    rw [List.foldl_cons, ih]
    simp [appendParam]

theorem addQueryEntry_fresh (ps : List (String × String)) (kv : String × JVal)
    (h : kv.1 ∉ ps.map Prod.fst) :
    addQueryEntry ps kv = ps ++ expectedParams [kv] ∧
      ∀ e ∈ expectedParams [kv], e.1 = kv.1 := by
  obtain ⟨k, v⟩ := kv
  cases v with
  | undefined => simp [addQueryEntry, expectedParams]
  | null => simp [addQueryEntry, expectedParams]
  | bool b => simp [addQueryEntry, expectedParams, setParam_fresh ps k _ h]
  | num n => simp [addQueryEntry, expectedParams, setParam_fresh ps k _ h]
  | str s =>
    by_cases hs : s = ""
    · simp [addQueryEntry, expectedParams, hs]
    · simp [addQueryEntry, expectedParams, hs, setParam_fresh ps k _ h]
  | arr items =>
    simp only [addQueryEntry, expectedParams, appendParams_fold, List.flatMap_cons,
      List.flatMap_nil, List.append_nil, true_and]
    intro e he
    obtain ⟨item, _, rfl⟩ := List.mem_map.1 he
    rfl
  | obj kvs => simp [addQueryEntry, expectedParams, setParam_fresh ps k _ h]

theorem expectedParams_cons (kv : String × JVal) (rest : List (String × JVal)) :
    expectedParams (kv :: rest) = expectedParams [kv] ++ expectedParams rest := by
  simp [expectedParams, List.flatMap_cons]

theorem expectedParams_keys (kvs : List (String × JVal)) :
    ∀ e ∈ expectedParams kvs, ∃ v, (e.1, v) ∈ kvs ∧ e ∈ expectedParams [(e.1, v)] := by
  induction kvs with
  | nil => simp [expectedParams]
  | cons kv rest ih =>
    intro e he
    rw [expectedParams_cons] at he
    rcases List.mem_append.1 he with h | h
    · have hk := (addQueryEntry_fresh [] kv (by simp)).2 e h
      refine ⟨kv.2, ?_, ?_⟩
      · rw [hk]
        exact List.mem_cons_self _ _
      · rw [hk]
        exact h
    · obtain ⟨v, hv, hin⟩ := ih e h
      exact ⟨v, List.mem_cons_of_mem _ hv, hin⟩

theorem addQueryEntries_fold (kvs : List (String × JVal)) :
    ∀ ps : List (String × String), (kvs.map Prod.fst).Nodup →
      (∀ k ∈ kvs.map Prod.fst, k ∉ ps.map Prod.fst) →
      kvs.foldl addQueryEntry ps = ps ++ expectedParams kvs := by
  induction kvs with
  | nil => simp [expectedParams]
  | cons kv rest ih =>
    intro ps hnd hfresh
    simp only [List.map_cons, List.nodup_cons] at hnd
    obtain ⟨h1, h2⟩ := addQueryEntry_fresh ps kv (hfresh kv.1 (by simp))
    rw [List.foldl_cons, h1, expectedParams_cons kv rest, ← List.append_assoc]
    apply ih _ hnd.2
    intro k hk hmem
    simp only [List.map_append, List.mem_append] at hmem
    rcases hmem with hmem | hmem
    · exact hfresh k (by simp [hk]) hmem
    · obtain ⟨e, he, rfl⟩ := List.mem_map.1 hmem
      rw [h2 e he] at hk
      exact hnd.1 hk

/-- C11. For every query object (its keys distinct) and every text that parses
to a URL without query parameters, the query parameters of the URL built by
`buildUrl` are, in key order: nothing for a key whose value is `undefined`,
`null` or the empty string; one entry `(key, String(item))` per element, in
element order, for a sequence value; one entry `(key, String(value))` for any
other value.  A skipped key never appears among the parameters. -/
theorem buildUrl_query_params (newUrl : String → Option Url) (env baseUrl : JVal)
    (path : String) (kvs : List (String × JVal)) (u : Url)
    (hparse : newUrl (urlText env baseUrl path) = some u) (hplain : u.searchParams = [])
    (hkeys : (kvs.map Prod.fst).Nodup) :
    buildUrlObject newUrl env baseUrl path (.obj kvs)
        = some { u with searchParams := expectedParams kvs } ∧
      buildUrl newUrl env baseUrl path (.obj kvs)
        = some (Url.toString { u with searchParams := expectedParams kvs }) ∧
      ∀ k v, (k, v) ∈ kvs → (v = .undefined ∨ v = .null ∨ v = .str "") →
        ∀ s, (k, s) ∉ expectedParams kvs := by
  have hobj : buildUrlObject newUrl env baseUrl path (.obj kvs)
      = some { u with searchParams := expectedParams kvs } := by
    have hfold := addQueryEntries_fold kvs [] hkeys (by simp)
    simp only [List.nil_append] at hfold
    simp [buildUrlObject, hparse, JVal.truthy, isObjectType, JVal.entries, hplain, hfold]
  refine ⟨hobj, by simp [buildUrl, hobj], ?_⟩
  intro k v hkv hv s hs
  obtain ⟨v', hv', hin⟩ := expectedParams_keys kvs (k, s) hs
  have hvv : v' = v := by
    have hinj := List.inj_on_of_nodup_map hkeys hv' hkv rfl
    exact (Prod.mk.inj hinj).2
  subst hvv
  rcases hv with h | h | h <;> subst h <;> simp [expectedParams] at hin

/-- Instance of C11: the scenario query on `/x` gives `?page=1&ids=a&ids=b`. -/
theorem buildUrl_query_params_witness :
    buildUrl plainUrl .undefined (.str "http://h") "/x" (.obj scenarioQuery)
        = some "http://h/x?page=1&ids=a&ids=b" ∧
      buildUrlObject plainUrl .undefined (.str "http://h") "/x" (.obj scenarioQuery)
        = some { location := "http://h/x",
                 searchParams := [("page", "1"), ("ids", "a"), ("ids", "b")], hash := "" } :=
  ⟨by decide, (buildUrl_query_params plainUrl .undefined (.str "http://h") "/x" scenarioQuery
    { location := "http://h/x", searchParams := [], hash := "" } rfl rfl (by decide)).1⟩

theorem dropWhile_append_keep {α : Type} (p : α → Bool) (l : List α) (c : α) (hc : p c = false) :
    (l ++ [c]).dropWhile p = l.dropWhile p ++ [c] := by
  induction l with
  | nil => simp [List.dropWhile, hc]
  | cons a rest ih =>
    cases ha : p a
    · simp [List.dropWhile, ha]
    · simp [List.dropWhile, ha, ih]

theorem trim_append_keep (l : List Char) (c : Char) (hc : isJsWhiteSpace c = false) :
    trim ⟨l ++ [c]⟩ = ⟨l.dropWhile isJsWhiteSpace ++ [c]⟩ := by
  simp [trim, dropWhile_append_keep _ _ _ hc, List.dropWhile, hc]

theorem normalizeBaseUrl_slash (env : JVal) (l : List Char) (c : Char)
    (hws : isJsWhiteSpace c = false) (hslash : c ≠ '/') :
    normalizeBaseUrl env (.str (⟨l ++ [c]⟩ ++ "/")) = ⟨l.dropWhile isJsWhiteSpace ++ [c]⟩ ∧
      normalizeBaseUrl env (.str ⟨l ++ [c]⟩) = ⟨l.dropWhile isJsWhiteSpace ++ [c]⟩ := by
  have hne1 : (⟨l ++ [c]⟩ : String) ≠ "" := by
    intro h
    have := congrArg String.data h
    simp at this
  have hne2 : (⟨l ++ [c]⟩ ++ "/" : String) ≠ "" := by
    intro h
    have := congrArg String.data h
    simp [String.data_append] at this
  have ht2 : trim (⟨l ++ [c]⟩ ++ "/") = ⟨(l.dropWhile isJsWhiteSpace ++ [c]) ++ ['/']⟩ := by
    have h := trim_append_keep (l ++ [c]) '/' (by decide)
    rw [dropWhile_append_keep _ _ _ hws] at h
    exact h
  constructor
  · simp only [normalizeBaseUrl, JVal.orElse, JVal.truthy, bne_iff_ne, ne_eq, hne2,
      not_false_eq_true, decide_True, if_true, JVal.toStr, ht2]
    simp [endsWith, List.isSuffixOf]
  · simp only [normalizeBaseUrl, JVal.orElse, JVal.truthy, bne_iff_ne, ne_eq, hne1,
      not_false_eq_true, decide_True, if_true, JVal.toStr, trim_append_keep l c hws]
    have : endsWith ⟨l.dropWhile isJsWhiteSpace ++ [c]⟩ "/" = false := by
      simp [endsWith, List.isSuffixOf, List.isPrefixOf, hslash, Ne.symm hslash]
    simp [this]

theorem cleanPath_slash (p : String) (hp : startsWith p "/" = false) :
    cleanPath ("/" ++ p) = cleanPath p := by
  have h : startsWith ("/" ++ p) "/" = true := by
    simp [startsWith, String.data_append]
  simp [cleanPath, h, hp]

/-- C12 (as stated, refuted). The empty base URL does not end with a slash, yet
`buildUrl` gives different URLs for (`/`, `x`) and (the empty string, `x`): the
former leaves the empty root, the latter falls back to the default base URL.
Likewise for a base URL ending with a blank: the slash appended after the blank
is trimmed off but the blank stays. -/
theorem buildUrl_slash_not_neutral :
    urlText .undefined (.str ("" ++ "/")) "x" = "/x" ∧
      urlText .undefined (.str "") "x" = "http://localhost:8000/x" ∧
      buildUrl plainUrl .undefined (.str ("" ++ "/")) "x" .undefined
        ≠ buildUrl plainUrl .undefined (.str "") "x" .undefined ∧
      urlText .undefined (.str ("http://h " ++ "/")) "x" = "http://h /x" ∧
      urlText .undefined (.str "http://h ") "x" = "http://h/x" := by
  decide

/-- C12 (amended). For every non-empty base URL `b` whose last character is
neither a slash nor white space, and every path `p` that does not start with a
slash, `buildUrl` is given the same text to parse, hence gives the same URL, for
(`b + "/"`, `p`), (`b`, `p`) and (`b`, `"/" + p`). -/
theorem buildUrl_slash_neutral (newUrl : String → Option Url) (env : JVal) (b p : String)
    (query : JVal) (c : Char) (hlast : b.data.getLast? = some c)
    (hws : isJsWhiteSpace c = false) (hslash : c ≠ '/') (hp : startsWith p "/" = false) :
    urlText env (.str (b ++ "/")) p = urlText env (.str b) p ∧
      urlText env (.str b) ("/" ++ p) = urlText env (.str b) p ∧
      buildUrl newUrl env (.str (b ++ "/")) p query = buildUrl newUrl env (.str b) p query ∧
      buildUrl newUrl env (.str b) ("/" ++ p) query = buildUrl newUrl env (.str b) p query := by
  obtain ⟨l, hl⟩ : ∃ l, b = ⟨l ++ [c]⟩ := by
    obtain ⟨l, hl⟩ := List.getLast?_eq_some_iff.1 hlast
    exact ⟨l, String.ext hl⟩
  subst hl
  obtain ⟨h1, h2⟩ := normalizeBaseUrl_slash env l c hws hslash
  have e1 : urlText env (.str (⟨l ++ [c]⟩ ++ "/")) p = urlText env (.str ⟨l ++ [c]⟩) p := by
    simp only [urlText, h1, h2]
  have e2 : urlText env (.str ⟨l ++ [c]⟩) ("/" ++ p) = urlText env (.str ⟨l ++ [c]⟩) p := by
    simp only [urlText, cleanPath_slash p hp]
  refine ⟨e1, e2, ?_, ?_⟩
  · simp only [buildUrl, buildUrlObject, e1]
  · simp only [buildUrl, buildUrlObject, e2]

/-- Instance of C12 (amended) for the base URL `http://h` and the path `x`. -/
theorem buildUrl_slash_neutral_witness :
    "http://h".data.getLast? = some 'h' ∧
      buildUrl plainUrl .undefined (.str ("http://h" ++ "/")) "x" .undefined
        = buildUrl plainUrl .undefined (.str "http://h") "x" .undefined :=
  ⟨by decide, (buildUrl_slash_neutral plainUrl .undefined "http://h" "x" .undefined 'h'
    (by decide) (by decide) (by decide) (by decide)).2.2.1⟩

/-! ## Request options -/

theorem lookup_setKey (l : List (String × JVal)) (key k : String) (value : JVal) :
    JVal.lookup k (setKey l key value) = if key = k then value else JVal.lookup k l := by
  induction l with
  | nil =>
    by_cases h : key = k <;> simp [setKey, JVal.lookup, h]
  | cons e rest ih =>
    obtain ⟨k', v'⟩ := e
    by_cases h1 : k' = key
    · subst h1
      by_cases h2 : k' = k <;> simp [setKey, JVal.lookup, h2]
    · by_cases h2 : k' = k
      · subst h2
        have h3 : ¬ key = k' := fun h => h1 h.symm
        simp [setKey, JVal.lookup, h1, h3]
      · simp [setKey, JVal.lookup, h1, h2, ih]

theorem keys_setKey (l : List (String × JVal)) (key k : String) (value : JVal) :
    k ∈ (setKey l key value).map Prod.fst ↔ k = key ∨ k ∈ l.map Prod.fst := by
  induction l with
  | nil => simp [setKey]
  | cons e rest ih =>
    obtain ⟨k', v'⟩ := e
    by_cases h1 : k' = key
    · subst h1
      simp [setKey]
    · simp only [setKey, h1, if_false, List.map_cons, List.mem_cons, ih]
      tauto

theorem spread_lookup_other (es base : List (String × JVal)) (k : String)
    (h : k ∉ es.map Prod.fst) :
    JVal.lookup k (es.foldl (fun acc kv => setKey acc kv.1 kv.2) base) = JVal.lookup k base := by
  induction es generalizing base with
  | nil => rfl
  | cons e rest ih =>
    simp only [List.map_cons, List.mem_cons, not_or] at h
    rw [List.foldl_cons, ih _ h.2, lookup_setKey]
    have : ¬ e.1 = k := fun he => h.1 he.symm
    simp [this]

theorem spread_lookup_mem (es base : List (String × JVal)) (k : String) (v : JVal)
    (hnd : (es.map Prod.fst).Nodup) (h : (k, v) ∈ es) :
    JVal.lookup k (es.foldl (fun acc kv => setKey acc kv.1 kv.2) base) = v := by
  induction es generalizing base with
  | nil => cases h
  | cons e rest ih =>
    simp only [List.map_cons, List.nodup_cons] at hnd
    rw [List.foldl_cons]
    rcases List.mem_cons.1 h with he | he
    · subst he
      rw [spread_lookup_other _ _ _ hnd.1, lookup_setKey]
      simp
    · exact ih _ hnd.2 he

theorem spread_keys (es base : List (String × JVal)) (k : String) :
    k ∈ (es.foldl (fun acc kv => setKey acc kv.1 kv.2) base).map Prod.fst
      ↔ k ∈ base.map Prod.fst ∨ k ∈ es.map Prod.fst := by
  induction es generalizing base with
  | nil => simp
  | cons e rest ih =>
    rw [List.foldl_cons, ih, keys_setKey]
    simp only [List.map_cons, List.mem_cons]
    tauto

/-- C13. For every request (the caller's header names distinct), with a body
counted as present when it is not `undefined`: every caller-supplied header has
the caller's value in the headers given to `fetch`, a caller-supplied
`Content-Type` included; unless the caller supplies it, `Content-Type` is
`application/json` when a body is present and absent otherwise; the header names
are the caller's, plus `Content-Type` exactly when a body is present; and the
request body is the JSON text of the body when one is present and absent
otherwise. -/
theorem fetchInit_spec (stringify : JVal → String) (method : String) (headers body : JVal)
    (hkeys : ((headers.orElse (.obj [])).entries.map Prod.fst).Nodup) :
    (∀ k v, (k, v) ∈ (headers.orElse (.obj [])).entries →
      JVal.lookup k (fetchInit stringify method headers body).headers = v) ∧
    ("Content-Type" ∉ (headers.orElse (.obj [])).entries.map Prod.fst →
      JVal.lookup "Content-Type" (fetchInit stringify method headers body).headers
        = if hasBody body then .str "application/json" else .undefined) ∧
    (∀ k, k ∈ (fetchInit stringify method headers body).headers.map Prod.fst ↔
      (hasBody body = true ∧ k = "Content-Type") ∨
        k ∈ (headers.orElse (.obj [])).entries.map Prod.fst) ∧
    (fetchInit stringify method headers body).body
      = (if hasBody body then some (stringify body) else none) := by
  have hbase : objectSpread []
      (if hasBody body then .obj [("Content-Type", .str "application/json")] else .obj [])
      = if hasBody body then [("Content-Type", .str "application/json")] else [] := by
    cases hasBody body <;> rfl
  have hh : (fetchInit stringify method headers body).headers
      = (headers.orElse (.obj [])).entries.foldl (fun acc kv => setKey acc kv.1 kv.2)
          (if hasBody body then [("Content-Type", .str "application/json")] else []) := by
    show objectSpread (objectSpread [] _) _ = _
    rw [hbase]
    rfl
  refine ⟨?_, ?_, ?_, rfl⟩
  · intro k v hkv
    rw [hh]
    exact spread_lookup_mem _ _ k v hkeys hkv
  · intro hct
    rw [hh, spread_lookup_other _ _ _ hct]
    cases hasBody body <;> simp [JVal.lookup]
  · intro k
    rw [hh, spread_keys]
    cases hasBody body <;> simp

/-- Instance of C13: a `null` body is present, and the caller's `Content-Type` wins. -/
theorem fetchInit_spec_witness :
    JVal.lookup "Content-Type"
        (fetchInit (fun _ => "null") "POST" (.obj [("Content-Type", .str "text/plain")])
          .null).headers = .str "text/plain" ∧
      (fetchInit (fun _ => "null") "POST" (.obj [("Content-Type", .str "text/plain")])
        .null).body = some "null" :=
  ⟨(fetchInit_spec (fun _ => "null") "POST" (.obj [("Content-Type", .str "text/plain")]) .null
      (by decide)).1 "Content-Type" (.str "text/plain") (List.mem_cons_self _ _),
    rfl⟩

/-! ## Grouping by tag -/

theorem groupOf_groupPush (m : List (String × List Operation)) (tag t : String)
    (op : Operation) :
    groupOf (groupPush m tag op) t = if tag = t then groupOf m t ++ [op] else groupOf m t := by
  induction m with
  | nil => by_cases h : tag = t <;> simp [groupPush, groupOf, h]
  | cons e rest ih =>
    obtain ⟨k, g⟩ := e
    by_cases h1 : k = tag
    · subst h1
      by_cases h2 : k = t <;> simp [groupPush, groupOf, h2]
    · by_cases h2 : k = t
      · subst h2
        have h3 : ¬ tag = k := fun h => h1 h.symm
        simp [groupPush, groupOf, h1, h3]
      · simp [groupPush, groupOf, h1, h2, ih]

theorem keys_groupPush (m : List (String × List Operation)) (tag k : String) (op : Operation) :
    k ∈ (groupPush m tag op).map Prod.fst ↔ k = tag ∨ k ∈ m.map Prod.fst := by
  induction m with
  | nil => simp [groupPush]
  | cons e rest ih =>
    obtain ⟨k', g⟩ := e
    by_cases h1 : k' = tag
    · subst h1
      simp [groupPush]
    · simp only [groupPush, h1, if_false, List.map_cons, List.mem_cons, ih]
      tauto

theorem nodup_groupPush (m : List (String × List Operation)) (tag : String) (op : Operation)
    (h : (m.map Prod.fst).Nodup) : ((groupPush m tag op).map Prod.fst).Nodup := by
  induction m with
  | nil => simp [groupPush]
  | cons e rest ih =>
    obtain ⟨k', g⟩ := e
    simp only [List.map_cons, List.nodup_cons] at h
    by_cases h1 : k' = tag
    · subst h1
      simpa [groupPush] using h
    · simp only [groupPush, h1, if_false, List.map_cons, List.nodup_cons]
      refine ⟨fun hk => ?_, ih h.2⟩
      rcases (keys_groupPush rest tag k' op).1 hk with hk | hk
      · exact h1 hk
      · exact h.1 hk

theorem events_fold (events : List (String × Operation)) :
    ∀ m : List (String × List Operation), (m.map Prod.fst).Nodup →
      ((events.foldl (fun m e => groupPush m e.1 e.2) m).map Prod.fst).Nodup ∧
      (∀ t, t ∈ (events.foldl (fun m e => groupPush m e.1 e.2) m).map Prod.fst ↔
        t ∈ m.map Prod.fst ∨ t ∈ events.map Prod.fst) ∧
      (∀ t, groupOf (events.foldl (fun m e => groupPush m e.1 e.2) m) t
        = groupOf m t ++ (events.filter (fun e => e.1 == t)).map Prod.snd) := by
  induction events with
  | nil =>
    intro m h
    simp [h]
  | cons e rest ih =>
    intro m h
    obtain ⟨h1, h2, h3⟩ := ih (groupPush m e.1 e.2) (nodup_groupPush m e.1 e.2 h)
    refine ⟨h1, ?_, ?_⟩
    · intro t
      rw [List.foldl_cons, h2, keys_groupPush]
      simp only [List.map_cons, List.mem_cons]
      tauto
    · intro t
      rw [List.foldl_cons, h3, groupOf_groupPush]
      by_cases he : e.1 = t
      · simp [he, List.filter_cons]
      · simp [he, List.filter_cons]

theorem group_loops_eq (ops : List Operation) (m : List (String × List Operation)) :
    ops.foldl (fun map op => op.tags.foldl (fun map tag => groupPush map tag.toStr op) map) m
      = (tagEvents ops).foldl (fun m e => groupPush m e.1 e.2) m := by
  induction ops generalizing m with
  | nil => rfl
  | cons op rest ih =>
    rw [List.foldl_cons, ih]
    simp only [tagEvents, List.flatMap_cons, List.foldl_append, List.foldl_map]

theorem tagEvents_filter (t : String) (ops : List Operation) :
    ((tagEvents ops).filter (fun e => e.1 == t)).map Prod.snd = occurrencesOf t ops := by
  induction ops with
  | nil => rfl
  | cons op rest ih =>
    simp only [tagEvents, occurrencesOf, List.flatMap_cons, List.filter_append,
      List.map_append] at ih ⊢
    rw [ih]
    congr 1
    rw [List.filter_map, List.map_map]
    rfl

theorem carries_iff (t : String) (op : Operation) :
    carries t op = true ↔ ∃ tag ∈ op.tags, tag.toStr = t := by
  simp [carries, List.contains_eq_any_beq, List.any_eq_true, eq_comm]

theorem tagEvents_keys (t : String) (ops : List Operation) :
    t ∈ (tagEvents ops).map Prod.fst ↔ ∃ op ∈ ops, carries t op = true := by
  simp only [carries_iff, tagEvents, List.mem_map, List.mem_flatMap]
  constructor
  · rintro ⟨e, ⟨op, hop, tag, htag, rfl⟩, rfl⟩
    exact ⟨op, hop, tag, htag, rfl⟩
  · rintro ⟨op, hop, tag, htag, rfl⟩
    exact ⟨(tag.toStr, op), ⟨op, hop, tag, htag, rfl⟩, rfl⟩

theorem mem_iff_groupOf (m : List (String × List Operation)) (t : String)
    (g : List Operation) (h : (m.map Prod.fst).Nodup) :
    (t, g) ∈ m ↔ t ∈ m.map Prod.fst ∧ groupOf m t = g := by
  induction m with
  | nil => simp
  | cons e rest ih =>
    obtain ⟨k, g'⟩ := e
    simp only [List.map_cons, List.nodup_cons] at h
    by_cases hk : k = t
    · subst hk
      simp only [List.mem_cons, Prod.mk.injEq, true_and, List.map_cons, true_or, groupOf,
        if_true]
      constructor
      · rintro (hg | hg)
        · exact hg.symm
        · exact absurd (List.mem_map.2 ⟨(k, g), hg, rfl⟩) h.1
      · intro hg
        exact Or.inl hg.symm
    · have hk' : ¬ t = k := fun h' => hk h'.symm
      simp only [List.mem_cons, Prod.mk.injEq, hk', false_and, false_or, List.map_cons,
        groupOf, hk, if_false, ih h.2]

theorem insertSorted_perm (cmp : String → String → Int) (x : Operation) (l : List Operation) :
    (insertSorted cmp x l).Perm (x :: l) := by
  induction l with
  | nil => exact List.Perm.refl _
  | cons y ys ih =>
    unfold insertSorted
    split
    · exact List.Perm.refl _
    · exact (List.Perm.cons y ih).trans (List.Perm.swap x y ys)

theorem sortGroup_perm (cmp : String → String → Int) (g : List Operation) :
    (sortGroup cmp g).Perm g := by
  induction g with
  | nil => exact List.Perm.refl _
  | cons x xs ih =>
    exact (insertSorted_perm cmp x (sortGroup cmp xs)).trans (List.Perm.cons x ih)

theorem insertSorted_sorted (cmp : String → String → Int)
    (htotal : ∀ a b, cmp a b ≤ 0 ∨ cmp b a ≤ 0)
    (htrans : ∀ a b c, cmp a b ≤ 0 → cmp b c ≤ 0 → cmp a c ≤ 0)
    (x : Operation) (l : List Operation)
    (hl : l.Pairwise (fun a b => cmp (sortKey a) (sortKey b) ≤ 0)) :
    (insertSorted cmp x l).Pairwise (fun a b => cmp (sortKey a) (sortKey b) ≤ 0) := by
  induction l with
  | nil => simp [insertSorted]
  | cons y ys ih =>
    rw [List.pairwise_cons] at hl
    unfold insertSorted
    split
    · rename_i hxy
      refine List.pairwise_cons.2 ⟨?_, List.pairwise_cons.2 hl⟩
      intro z hz
      rcases List.mem_cons.1 hz with hz | hz
      · rw [hz]
        exact hxy
      · exact htrans _ _ _ hxy (hl.1 z hz)
    · rename_i hxy
      refine List.pairwise_cons.2 ⟨?_, ih hl.2⟩
      intro z hz
      rcases List.mem_cons.1 ((insertSorted_perm cmp x ys).mem_iff.1 hz) with hz | hz
      · rw [hz]
        exact (htotal (sortKey x) (sortKey y)).resolve_left hxy
      · exact hl.1 z hz

theorem sortGroup_sorted (cmp : String → String → Int)
    (htotal : ∀ a b, cmp a b ≤ 0 ∨ cmp b a ≤ 0)
    (htrans : ∀ a b c, cmp a b ≤ 0 → cmp b c ≤ 0 → cmp a c ≤ 0) (g : List Operation) :
    (sortGroup cmp g).Pairwise (fun a b => cmp (sortKey a) (sortKey b) ≤ 0) := by
  induction g with
  | nil => exact List.Pairwise.nil
  | cons x xs ih => exact insertSorted_sorted cmp htotal htrans x _ ih

theorem occurrences_of_nodup (t : String) (op : Operation) (tags : List JVal)
    (h : (tags.map JVal.toStr).Nodup) :
    (tags.filter (fun tag => tag.toStr == t)).map (fun _ => op)
      = if ∃ tag ∈ tags, tag.toStr = t then [op] else [] := by
  induction tags with
  | nil => simp
  | cons x xs ih =>
    simp only [List.map_cons, List.nodup_cons] at h
    by_cases hx : x.toStr = t
    · have hnot : ¬ ∃ tag ∈ xs, tag.toStr = t := by
        rintro ⟨y, hy, hyt⟩
        exact h.1 (List.mem_map.2 ⟨y, hy, hyt.trans hx.symm⟩)
      have hxs := ih h.2
      rw [if_neg hnot] at hxs
      have hex : ∃ tag ∈ x :: xs, tag.toStr = t := ⟨x, List.mem_cons_self _ _, hx⟩
      rw [if_pos hex]
      simp [List.filter_cons, hx, hxs]
    · have hbeq : (x.toStr == t) = false := by simpa using hx
      have hiff : (∃ tag ∈ x :: xs, tag.toStr = t) ↔ ∃ tag ∈ xs, tag.toStr = t := by
        constructor
        · rintro ⟨y, hy, hyt⟩
          rcases List.mem_cons.1 hy with hy | hy
          · exact absurd (hy ▸ hyt) hx
          · exact ⟨y, hy, hyt⟩
        · rintro ⟨y, hy, hyt⟩
          exact ⟨y, List.mem_cons_of_mem _ hy, hyt⟩
      simp only [List.filter_cons, hbeq, Bool.false_eq_true, if_false]
      rw [ih h.2]
      simp only [hiff]

theorem occurrencesOf_nodup (t : String) (ops : List Operation)
    (h : ∀ op ∈ ops, (op.tags.map JVal.toStr).Nodup) :
    occurrencesOf t ops = ops.filter (carries t) := by
  induction ops with
  | nil => rfl
  | cons op rest ih =>
    have hop := occurrences_of_nodup t op op.tags (h op (List.mem_cons_self _ _))
    have hrest := ih (fun o ho => h o (List.mem_cons_of_mem _ ho))
    simp only [occurrencesOf, List.flatMap_cons] at hrest ⊢
    rw [hop, hrest]
    by_cases hc : ∃ tag ∈ op.tags, tag.toStr = t
    · have hcar : carries t op = true := (carries_iff t op).2 hc
      rw [if_pos hc, List.filter_cons, hcar]
      rfl
    · have hcar : carries t op = false := by
        cases hcv : carries t op with
        | false => rfl
        | true => exact absurd ((carries_iff t op).1 hcv) hc
      rw [if_neg hc, List.filter_cons, hcar]
      rfl

theorem mem_occurrencesOf (t : String) (ops : List Operation) (op : Operation) :
    op ∈ occurrencesOf t ops ↔ op ∈ ops ∧ carries t op = true := by
  simp only [occurrencesOf, List.mem_flatMap, List.mem_map, List.mem_filter, carries_iff]
  constructor
  · rintro ⟨o, ho, tag, ⟨htag, hkey⟩, rfl⟩
    exact ⟨ho, tag, htag, by simpa using hkey⟩
  · rintro ⟨ho, tag, htag, hkey⟩
    exact ⟨op, ho, tag, ⟨htag, by simpa using hkey⟩, rfl⟩

theorem compareChars_total : ∀ a b : List Char, compareChars a b ≤ 0 ∨ compareChars b a ≤ 0
  | [], [] => by simp [compareChars]
  | [], _ :: _ => by simp [compareChars]
  | _ :: _, [] => by simp [compareChars]
  | a :: as, b :: bs => by
    have ih := compareChars_total as bs
    simp only [compareChars]
    split_ifs <;> omega

theorem compareChars_trans : ∀ a b c : List Char,
    compareChars a b ≤ 0 → compareChars b c ≤ 0 → compareChars a c ≤ 0
  | [], [], [], _, _ => by simp [compareChars]
  | [], [], _ :: _, _, _ => by simp [compareChars]
  | [], _ :: _, [], _, _ => by simp [compareChars]
  | [], _ :: _, _ :: _, _, _ => by simp [compareChars]
  | _ :: _, [], _, h, _ => by simp [compareChars] at h
  | _ :: _, _ :: _, [], _, h => by simp [compareChars] at h
  | a :: as, b :: bs, c :: cs, h1, h2 => by
    have ih := compareChars_trans as bs cs
    simp only [compareChars] at h1 h2 ⊢
    split_ifs at h1 h2 ⊢ <;> omega

theorem groups_built (ops : List Operation) :
    (((tagEvents ops).foldl (fun m e => groupPush m e.1 e.2) []).map Prod.fst).Nodup ∧
      (∀ t, t ∈ ((tagEvents ops).foldl (fun m e => groupPush m e.1 e.2) []).map Prod.fst ↔
        ∃ op ∈ ops, carries t op = true) ∧
      (∀ t, groupOf ((tagEvents ops).foldl (fun m e => groupPush m e.1 e.2) []) t
        = occurrencesOf t ops) := by
  obtain ⟨h1, h2, h3⟩ := events_fold (tagEvents ops) [] (by simp)
  refine ⟨h1, ?_, ?_⟩
  · intro t
    rw [h2, ← tagEvents_keys]
    simp
  · intro t
    rw [h3, tagEvents_filter]
    simp [groupOf]

theorem group_mem (cmp : String → String → Int) (ops : List Operation) (t : String)
    (g : List Operation) (h : (t, g) ∈ groupOperationsByTag cmp ops) :
    g = sortGroup cmp (occurrencesOf t ops) := by
  obtain ⟨h1, _, h3⟩ := groups_built ops
  simp only [groupOperationsByTag, group_loops_eq, List.mem_map] at h
  obtain ⟨⟨t', g'⟩, hmem, heq⟩ := h
  simp only [Prod.mk.injEq] at heq
  obtain ⟨rfl, rfl⟩ := heq
  have := ((mem_iff_groupOf _ t' g' h1).1 hmem).2
  rw [h3] at this
  rw [this]

/-- C19 (as stated, refuted). For the single operation whose tag list is
`["a", "a"]`, the group of `a` lists the operation twice, although one operation
carries the tag: the group is not a rearrangement of the operations carrying it. -/
theorem group_repeats_operation :
    groupOperationsByTag compareText [twiceTaggedOp] = [("a", [twiceTaggedOp, twiceTaggedOp])] ∧
      [twiceTaggedOp].filter (carries "a") = [twiceTaggedOp] ∧
      ¬ ([twiceTaggedOp, twiceTaggedOp].Perm ([twiceTaggedOp].filter (carries "a"))) := by
  refine ⟨rfl, rfl, ?_⟩
  intro h
  have := h.length_eq
  simp [show [twiceTaggedOp].filter (carries "a") = [twiceTaggedOp] from rfl] at this

/-- C19 (amended). For every operation list, the keys of the mapping returned by
`groupOperationsByTag` are distinct and are exactly the (string forms of the)
tags carried by some operation; the group of a tag lists every operation once for
each occurrence of the tag among its tags, in some order, so an operation is in
the group exactly when it carries the tag, and the group is a rearrangement of
the operations carrying the tag when no operation repeats a tag; and every group
is ordered non-decreasingly by the string `<METHOD> <path>` under
`localeCompare`, provided that comparison is total and transitive. -/
theorem groupOperationsByTag_spec (localeCompare : String → String → Int)
    (operations : List Operation) :
    ((groupOperationsByTag localeCompare operations).map Prod.fst).Nodup ∧
    (∀ t, t ∈ (groupOperationsByTag localeCompare operations).map Prod.fst ↔
      ∃ op ∈ operations, carries t op = true) ∧
    (∀ t g, (t, g) ∈ groupOperationsByTag localeCompare operations →
      g.Perm (occurrencesOf t operations) ∧
      (∀ op, op ∈ g ↔ op ∈ operations ∧ carries t op = true) ∧
      ((∀ op ∈ operations, (op.tags.map JVal.toStr).Nodup) →
        g.Perm (operations.filter (carries t)))) ∧
    ((∀ a b, localeCompare a b ≤ 0 ∨ localeCompare b a ≤ 0) →
      (∀ a b c, localeCompare a b ≤ 0 → localeCompare b c ≤ 0 → localeCompare a c ≤ 0) →
      ∀ t g, (t, g) ∈ groupOperationsByTag localeCompare operations →
        g.Pairwise (fun a b => localeCompare (sortKey a) (sortKey b) ≤ 0)) := by
  obtain ⟨h1, h2, _⟩ := groups_built operations
  have hkeys : (groupOperationsByTag localeCompare operations).map Prod.fst
      = ((tagEvents operations).foldl (fun m e => groupPush m e.1 e.2) []).map Prod.fst := by
    simp only [groupOperationsByTag, group_loops_eq, List.map_map]
    rfl
  refine ⟨by rw [hkeys]; exact h1, fun t => by rw [hkeys]; exact h2 t, ?_, ?_⟩
  · intro t g hmem
    have hg := group_mem localeCompare operations t g hmem
    have hperm : g.Perm (occurrencesOf t operations) := by
      rw [hg]
      exact sortGroup_perm _ _
    refine ⟨hperm, ?_, ?_⟩
    · intro op
      rw [hperm.mem_iff, mem_occurrencesOf]
    · intro hnd
      rw [← occurrencesOf_nodup t operations hnd]
      exact hperm
  · intro htotal htrans t g hmem
    rw [group_mem localeCompare operations t g hmem]
    exact sortGroup_sorted localeCompare htotal htrans _

/-- Instance of C19 (amended) with the stand-in comparison: three operations
tagged `t`, one of them also tagged `u`. -/
theorem groupOperationsByTag_spec_witness :
    (groupOperationsByTag compareText taggedOps).map (fun e => (e.1, e.2.map sortKey))
        = [("t", ["GET /a", "GET /b", "POST /b"]), ("u", ["GET /a"])] ∧
      ∀ t g, (t, g) ∈ groupOperationsByTag compareText taggedOps →
        g.Pairwise (fun a b => compareText (sortKey a) (sortKey b) ≤ 0) :=
  ⟨by decide, (groupOperationsByTag_spec compareText taggedOps).2.2.2
    (fun a b => compareChars_total a.data b.data)
    (fun a b c => compareChars_trans a.data b.data c.data)⟩

/-! ## Path parameters -/

theorem hexDigit_plain : ∀ n < 16, hexDigit n ≠ Char.ofNat 123 ∧ hexDigit n ≠ Char.ofNat 125 ∧
    hexDigit n ≠ '$' := by
  decide

theorem percentByte_plain (b : UInt8) (c : Char) (h : c ∈ percentByte b) :
    c ≠ Char.ofNat 123 ∧ c ≠ Char.ofNat 125 ∧ c ≠ '$' := by
  have hb : b.toNat < 256 := b.val.isLt
  simp only [percentByte, List.mem_cons, List.mem_singleton, List.not_mem_nil, or_false] at h
  rcases h with h | h | h
  · subst h
    decide
  · subst h
    exact hexDigit_plain _ (by omega)
  · subst h
    exact hexDigit_plain _ (by omega)

theorem encodeURIComponent_plain (s : String) (c : Char)
    (h : c ∈ (encodeURIComponent s).data) :
    c ≠ Char.ofNat 123 ∧ c ≠ Char.ofNat 125 ∧ c ≠ '$' := by
  simp only [encodeURIComponent, List.mem_flatMap] at h
  obtain ⟨x, _, hx⟩ := h
  split at hx
  · rename_i hu
    rw [List.mem_singleton] at hx
    subst hx
    refine ⟨?_, ?_, ?_⟩ <;> intro hc <;> rw [hc] at hu <;> revert hu <;> decide
  · obtain ⟨b, _, hb⟩ := List.mem_flatMap.1 hx
    exact percentByte_plain b c hb

theorem expandReplacement_plain (matched before after : List Char) :
    ∀ rep : List Char, '$' ∉ rep → expandReplacement matched before after rep = rep
  | [], _ => rfl
  | [_], _ => rfl
  | c :: d :: rest, h => by
    have hc : c ≠ '$' := fun hc => h (hc ▸ List.mem_cons_self _ _)
    have ih := expandReplacement_plain matched before after (d :: rest)
      (fun hm => h (List.mem_cons_of_mem _ hm))
    simp only [expandReplacement, hc, if_false, ih]

theorem BraceSafe.append {p q : List Char} (hp : BraceSafe p) (hq : BraceSafe q) :
    BraceSafe (p ++ q) := by
  induction hp with
  | nil => exact hq
  | other c cs hc _ ih => exact BraceSafe.other c _ hc ih
  | pair cs _ ih => exact BraceSafe.pair _ ih

theorem BraceSafe.of_plain : ∀ l : List Char, Char.ofNat 123 ∉ l → BraceSafe l
  | [], _ => BraceSafe.nil
  | c :: cs, h =>
    BraceSafe.other c cs (fun hc => h (hc ▸ List.mem_cons_self _ _))
      (BraceSafe.of_plain cs (fun hm => h (List.mem_cons_of_mem _ hm)))

theorem replaceFirstFrom_match (pat rep before : List Char) (c : Char) (cs : List Char)
    (h : pat.isPrefixOf (c :: cs) = true) :
    replaceFirstFrom pat rep before (c :: cs)
      = expandReplacement pat before.reverse ((c :: cs).drop pat.length) rep
          ++ (c :: cs).drop pat.length := by
  rw [replaceFirstFrom, if_pos h]

theorem replaceFirstFrom_skip (pat rep before : List Char) (c : Char) (cs : List Char)
    (h : pat.isPrefixOf (c :: cs) = false) :
    replaceFirstFrom pat rep before (c :: cs)
      = c :: replaceFirstFrom pat rep (c :: before) cs := by
  rw [replaceFirstFrom, if_neg (by simp [h])]

theorem replaceFirstFrom_safe (x : Char) (t rest rep : List Char)
    (hx : x ≠ Char.ofNat 125) (hrep : '$' ∉ rep) (p : List Char) (hp : BraceSafe p) :
    ∀ before : List Char,
      replaceFirstFrom (Char.ofNat 123 :: x :: t) rep before
          (p ++ (Char.ofNat 123 :: x :: t) ++ rest)
        = p ++ rep ++ rest := by
  induction hp with
  | nil =>
    intro before
    have hpre : (Char.ofNat 123 :: x :: t).isPrefixOf (Char.ofNat 123 :: (x :: t ++ rest))
        = true := by
      rw [List.isPrefixOf_iff_prefix]
      exact ⟨rest, rfl⟩
    show replaceFirstFrom _ rep before (Char.ofNat 123 :: (x :: t ++ rest)) = _
    rw [replaceFirstFrom_match _ _ _ _ _ hpre, expandReplacement_plain _ _ _ _ hrep]
    show rep ++ List.drop (t.length + 1 + 1) (Char.ofNat 123 :: x :: (t ++ rest)) = _
    simp
  | other c cs hc _ ih =>
    intro before
    have hbeq : (Char.ofNat 123 == c) = false := by simpa using Ne.symm hc
    have hpre : (Char.ofNat 123 :: x :: t).isPrefixOf
        (c :: (cs ++ (Char.ofNat 123 :: x :: t) ++ rest)) = false := by
      simp [List.isPrefixOf, hbeq]
    show replaceFirstFrom _ rep before (c :: (cs ++ (Char.ofNat 123 :: x :: t) ++ rest)) = _
    rw [replaceFirstFrom_skip _ _ _ _ _ hpre, ih]
    rfl
  | pair cs _ ih =>
    intro before
    have hbeq : (x == Char.ofNat 125) = false := by simpa using hx
    have hpre1 : (Char.ofNat 123 :: x :: t).isPrefixOf
        (Char.ofNat 123 :: Char.ofNat 125 :: (cs ++ (Char.ofNat 123 :: x :: t) ++ rest))
        = false := by
      simp [List.isPrefixOf, hbeq]
    have hpre2 : (Char.ofNat 123 :: x :: t).isPrefixOf
        (Char.ofNat 125 :: (cs ++ (Char.ofNat 123 :: x :: t) ++ rest)) = false := by
      have : (Char.ofNat 123 == Char.ofNat 125) = false := by decide
      simp [List.isPrefixOf, this]
    show replaceFirstFrom _ rep before
      (Char.ofNat 123 :: Char.ofNat 125 :: (cs ++ (Char.ofNat 123 :: x :: t) ++ rest)) = _
    rw [replaceFirstFrom_skip _ _ _ _ _ hpre1, replaceFirstFrom_skip _ _ _ _ _ hpre2, ih]
    rfl

theorem pattern_data (a : List Char) :
    ("\x7b" ++ (⟨a⟩ : String) ++ "\x7d").data = Char.ofNat 123 :: a ++ [Char.ofNat 125] := by
  simp [String.data_append]

theorem filter_braces_id (a : List Char) (ho : Char.ofNat 123 ∉ a) (hc : Char.ofNat 125 ∉ a) :
    a.filter (fun x => x != Char.ofNat 123 && x != Char.ofNat 125) = a := by
  rw [List.filter_eq_self]
  intro x hx
  have h1 : x ≠ Char.ofNat 123 := fun h => ho (h ▸ hx)
  have h2 : x ≠ Char.ofNat 125 := fun h => hc (h ▸ hx)
  simp [h1, h2]

theorem substitutedValue_plain (pathParams : JVal) (a : List Char) :
    Char.ofNat 123 ∉ substitutedValue pathParams a ∧ '$' ∉ substitutedValue pathParams a :=
  ⟨fun h => (encodeURIComponent_plain _ _ h).1 rfl,
    fun h => (encodeURIComponent_plain _ _ h).2.2 rfl⟩

theorem replace_placeholder (pathParams : JVal) (done a cs : List Char) (hd : BraceSafe done)
    (ha : a ≠ []) (hc : Char.ofNat 125 ∉ a) :
    replaceFirst ⟨done ++ (Char.ofNat 123 :: a) ++ Char.ofNat 125 :: cs⟩
        ("\x7b" ++ (⟨a⟩ : String) ++ "\x7d")
        (encodeURIComponent (paramText (pathParams.get ⟨a⟩)))
      = ⟨done ++ substitutedValue pathParams a ++ cs⟩ := by
  obtain ⟨x, t, rfl⟩ := List.exists_cons_of_ne_nil ha
  have hx : x ≠ Char.ofNat 125 := fun h => hc (h ▸ List.mem_cons_self _ _)
  have h := replaceFirstFrom_safe x (t ++ [Char.ofNat 125]) cs
    (substitutedValue pathParams (x :: t)) hx (substitutedValue_plain pathParams _).2 done hd []
  simp only [replaceFirst, pattern_data]
  congr 1
  have e1 : done ++ (Char.ofNat 123 :: x :: t) ++ Char.ofNat 125 :: cs
      = done ++ (Char.ofNat 123 :: x :: (t ++ [Char.ofNat 125])) ++ cs := by simp
  have e2 : Char.ofNat 123 :: (x :: t) ++ [Char.ofNat 125]
      = Char.ofNat 123 :: x :: (t ++ [Char.ofNat 125]) := by simp
  rw [e1, e2]
  exact h

theorem buildPath_fold (pathParams : JVal) :
    ∀ (cs : List Char) (st : Option (List Char)) (done : List Char),
      BraceSafe done → (∀ a, st = some a → Char.ofNat 125 ∉ a) →
      (∀ a ∈ scanRaw st cs, Char.ofNat 123 ∉ a) →
      (scanParams st cs).foldl
          (fun result param =>
            replaceFirst result ("\x7b" ++ param ++ "\x7d")
              (encodeURIComponent (paramText (pathParams.get param))))
          ⟨done ++ openText st ++ cs⟩
        = ⟨done ++ substituteFrom pathParams st cs⟩ := by
  intro cs
  induction cs with
  | nil =>
    intro st done _ _ _
    cases st <;> simp [scanParams, openText, substituteFrom]
  | cons c cs ih =>
    intro st done hd hinv hwf
    cases st with
    | none =>
      by_cases hc : c = Char.ofNat 123
      · subst hc
        have := ih (some []) done hd (by intro a ha; cases ha; simp)
          (by simpa [scanRaw] using hwf)
        simpa [scanParams, substituteFrom, openText] using this
      · have := ih none (done ++ [c]) (hd.append (BraceSafe.other c [] hc BraceSafe.nil))
          (by intro a ha; cases ha) (by simpa [scanRaw, hc] using hwf)
        simpa [scanParams, substituteFrom, openText, hc] using this
    | some a =>
      have hclose : Char.ofNat 125 ∉ a := hinv a rfl
      by_cases hc : c = Char.ofNat 125
      · subst hc
        by_cases ha : a = []
        · subst ha
          have := ih none (done ++ [Char.ofNat 123, Char.ofNat 125])
            (hd.append (BraceSafe.pair [] BraceSafe.nil)) (by intro a ha; cases ha)
            (by simpa [scanRaw] using hwf)
          simpa [scanParams, substituteFrom, openText] using this
        · have hopen : Char.ofNat 123 ∉ a := hwf a (by simp [scanRaw, ha])
          have hv := substitutedValue_plain pathParams a
          have := ih none (done ++ substitutedValue pathParams a)
            (hd.append (BraceSafe.of_plain _ hv.1)) (by intro a ha; cases ha)
            (by
              intro b hb
              exact hwf b (by simp [scanRaw, ha, hb]))
          simp only [openText, List.append_nil] at this
          simp only [scanParams, if_true, ha, if_false, List.foldl_cons, substituteFrom,
            openText, filter_braces_id a hopen hclose]
          rw [show done ++ Char.ofNat 123 :: a ++ Char.ofNat 125 :: cs
              = done ++ (Char.ofNat 123 :: a) ++ Char.ofNat 125 :: cs by simp,
            replace_placeholder pathParams done a cs hd ha hclose, this]
          simp
      · have := ih (some (a ++ [c])) done hd
          (by
            intro b hb
            cases hb
            intro hm
            rcases List.mem_append.1 hm with h | h
            · exact hclose h
            · exact hc (List.mem_singleton.1 h).symm)
          (by simpa [scanRaw, hc] using hwf)
        simpa [scanParams, substituteFrom, openText, hc] using this

theorem scanParams_safe (p q : List Char) (hp : BraceSafe p) :
    scanParams none (p ++ q) = scanParams none q := by
  induction hp with
  | nil => rfl
  | other c cs hc _ ih => simpa [scanParams, hc] using ih
  | pair cs _ ih => simpa [scanParams] using ih

theorem scanParams_unclosed : ∀ (l a : List Char), Char.ofNat 125 ∉ l →
    scanParams (some a) l = []
  | [], _, _ => rfl
  | c :: cs, a, h => by
    have hc : c ≠ Char.ofNat 125 := fun hc => h (hc ▸ List.mem_cons_self _ _)
    have ih := scanParams_unclosed cs (a ++ [c]) (fun hm => h (List.mem_cons_of_mem _ hm))
    simp [scanParams, hc, ih]

theorem substituted_scan (pathParams : JVal) :
    ∀ (cs : List Char) (st : Option (List Char)) (done : List Char),
      BraceSafe done → (∀ a, st = some a → Char.ofNat 125 ∉ a) →
      scanParams none (done ++ substituteFrom pathParams st cs) = [] := by
  intro cs
  induction cs with
  | nil =>
    intro st done hd hinv
    cases st with
    | none => simpa [substituteFrom, scanParams] using scanParams_safe done [] hd
    | some a =>
      rw [substituteFrom, scanParams_safe done _ hd]
      simpa [scanParams] using scanParams_unclosed a [] (hinv a rfl)
  | cons c cs ih =>
    intro st done hd hinv
    cases st with
    | none =>
      by_cases hc : c = Char.ofNat 123
      · subst hc
        simpa [substituteFrom] using ih (some []) done hd (by intro a ha; cases ha; simp)
      · have := ih none (done ++ [c]) (hd.append (BraceSafe.other c [] hc BraceSafe.nil))
          (by intro a ha; cases ha)
        simpa [substituteFrom, hc] using this
    | some a =>
      have hclose : Char.ofNat 125 ∉ a := hinv a rfl
      by_cases hc : c = Char.ofNat 125
      · subst hc
        by_cases ha : a = []
        · subst ha
          have := ih none (done ++ [Char.ofNat 123, Char.ofNat 125])
            (hd.append (BraceSafe.pair [] BraceSafe.nil)) (by intro a ha; cases ha)
          simpa [substituteFrom] using this
        · have hv := substitutedValue_plain pathParams a
          have := ih none (done ++ substitutedValue pathParams a)
            (hd.append (BraceSafe.of_plain _ hv.1)) (by intro a ha; cases ha)
          simpa [substituteFrom, ha] using this
      · have := ih (some (a ++ [c])) done hd
          (by
            intro b hb
            cases hb
            intro hm
            rcases List.mem_append.1 hm with h | h
            · exact hclose h
            · exact hc (List.mem_singleton.1 h).symm)
        simpa [substituteFrom, hc] using this

/-- C20. For every path template whose placeholders have brace-free names and
every parameter map, `buildPath` returns the template with each placeholder
occurrence replaced by the URL-encoded string of the value of its name, which is
the empty string when the value is missing or `null`; the result contains no
placeholder any more; and a template without placeholders is returned unchanged. -/
theorem buildPath_spec (template : String) (pathParams : JVal)
    (hwf : ∀ a ∈ rawPlaceholders template, Char.ofNat 123 ∉ a) :
    buildPath template pathParams = substitutePlaceholders template pathParams ∧
      getPathParams (buildPath template pathParams) = [] ∧
      (getPathParams template = [] → buildPath template pathParams = template) ∧
      (∀ name, (pathParams.get ⟨name⟩ = .undefined ∨ pathParams.get ⟨name⟩ = .null) →
        substitutedValue pathParams name = []) := by
  have hbuild : buildPath template pathParams = substitutePlaceholders template pathParams := by
    have h := buildPath_fold pathParams template.data none [] BraceSafe.nil
      (by intro a ha; cases ha) hwf
    simpa [buildPath, getPathParams, substitutePlaceholders, openText] using h
  refine ⟨hbuild, ?_, ?_, ?_⟩
  · rw [hbuild]
    have h := substituted_scan pathParams template.data none [] BraceSafe.nil
      (by intro a ha; cases ha)
    simpa [getPathParams, substitutePlaceholders] using h
  · intro hnone
    simp [buildPath, hnone]
  · intro name hname
    rcases hname with h | h <;> rw [substitutedValue, h] <;> rfl

/-- Instance of C20: both occurrences of the placeholder `id` are replaced by the
encoded value. -/
theorem buildPath_spec_witness :
    rawPlaceholders vocabTemplate = ["id".data, "id".data] ∧
      buildPath vocabTemplate (.obj [("id", .str "a b/c")])
        = "/vocab/a%20b%2Fc/history/a%20b%2Fc" ∧
      getPathParams (buildPath vocabTemplate (.obj [("id", .str "a b/c")])) = [] :=
  ⟨by decide, by decide,
    (buildPath_spec vocabTemplate (.obj [("id", .str "a b/c")]) (by decide)).2.1⟩

/-! ## Schema resolution -/

theorem followParts_truthy (parts : List String) :
    ∀ current : JVal, current.truthy = true →
      (followParts current parts).truthy = canFollow current parts ∧
        (canFollow current parts = false → followParts current parts = .null) := by
  induction parts with
  | nil =>
    intro current h
    simp [followParts, canFollow, h]
  | cons part rest ih =>
    intro current h
    cases hm : (current.member part).truthy with
    | false =>
      simp only [followParts, canFollow, hm]
      exact ⟨rfl, fun _ => rfl⟩
    | true => simpa [followParts, canFollow, hm] using ih _ hm

theorem dereference_broken (schema ref : JVal)
    (h : canFollow schema (pointerParts ref) = false) : dereference schema ref = .null := by
  unfold dereference
  cases hs : schema.truthy with
  | false => simp
  | true =>
    cases hr : ref.truthy with
    | false => simp
    | true => simpa using (followParts_truthy _ schema hs).2 h

theorem dereference_truthy (schema ref : JVal) :
    (dereference schema ref).truthy
      = (schema.truthy && ref.truthy && canFollow schema (pointerParts ref)) := by
  unfold dereference
  cases hs : schema.truthy with
  | false => rfl
  | true =>
    cases hr : ref.truthy with
    | false => rfl
    | true => simpa using (followParts_truthy _ schema hs).1

theorem resolve_falsy (fuel : Nat) (schema node : JVal) (h : node.truthy = false) :
    resolveSchema (fuel + 1) schema node = some .null := by
  simp [resolveSchema, h]

theorem resolve_pointer (fuel : Nat) (schema node : JVal) (h : node.truthy = true)
    (href : (node.get "$ref").truthy = true) :
    resolveSchema (fuel + 1) schema node
      = if (dereference schema (node.get "$ref")).truthy then
          resolveSchema fuel schema (dereference schema (node.get "$ref"))
        else some .null := by
  simp [resolveSchema, h, href]

theorem resolve_allOf (fuel : Nat) (schema node : JVal) (h : node.truthy = true)
    (href : (node.get "$ref").truthy = false) (hall : (node.get "allOf").isArray = true) :
    resolveSchema (fuel + 1) schema node
      = (composeParts (resolveSchema fuel schema) { properties := [], required := [] }
          (node.get "allOf").elems).map Composed.toJVal := by
  simp [resolveSchema, h, href, hall]

theorem resolve_plain (fuel : Nat) (schema node : JVal) (h : node.truthy = true)
    (href : (node.get "$ref").truthy = false) (hall : (node.get "allOf").isArray = false) :
    resolveSchema (fuel + 1) schema node = some node := by
  simp [resolveSchema, h, href, hall]

theorem composeParts_mono (f g : JVal → Option JVal) (parts : List JVal)
    (hfg : ∀ p ∈ parts, ∀ r, f p = some r → g p = some r) :
    ∀ (out c : Composed), composeParts f out parts = some c → composeParts g out parts = some c := by
  induction parts with
  | nil => intro out c h; simpa [composeParts] using h
  | cons p rest ih =>
    intro out c h
    cases hp : f p with
    | none => simp [composeParts, hp] at h
    | some rs =>
      have hg := hfg p (List.mem_cons_self _ _) rs hp
      simp only [composeParts, hp] at h
      simp only [composeParts, hg]
      exact ih (fun q hq => hfg q (List.mem_cons_of_mem _ hq)) _ _ h

theorem resolve_succ (schema : JVal) :
    ∀ (fuel : Nat) (node r : JVal), resolveSchema fuel schema node = some r →
      resolveSchema (fuel + 1) schema node = some r := by
  intro fuel
  induction fuel with
  | zero => intro node r h; simp [resolveSchema] at h
  | succ n ih =>
    intro node r h
    cases hn : node.truthy with
    | false =>
      rw [resolve_falsy _ _ _ hn] at h ⊢
      exact h
    | true =>
      cases href : (node.get "$ref").truthy with
      | true =>
        rw [resolve_pointer _ _ _ hn href] at h ⊢
        cases hd : (dereference schema (node.get "$ref")).truthy with
        | false => simpa [hd] using h
        | true =>
          simp only [hd, if_true] at h ⊢
          exact ih _ _ h
      | false =>
        cases hall : (node.get "allOf").isArray with
        | true =>
          rw [resolve_allOf _ _ _ hn href hall] at h ⊢
          cases hc : composeParts (resolveSchema n schema)
              { properties := [], required := [] } (node.get "allOf").elems with
          | none => simp [hc] at h
          | some c =>
            rw [composeParts_mono _ (resolveSchema (n + 1) schema) _
              (fun p _ r hr => ih p r hr) _ c hc]
            simpa [hc] using h
        | false =>
          rw [resolve_plain _ _ _ hn href hall] at h ⊢
          exact h

theorem resolve_mono (schema node r : JVal) (fuel : Nat)
    (h : resolveSchema fuel schema node = some r) :
    ∀ more : Nat, resolveSchema (fuel + more) schema node = some r := by
  intro more
  induction more with
  | zero => exact h
  | succ m ih => exact resolve_succ schema _ _ _ ih

theorem composed_plain (c : Composed) :
    c.toJVal.truthy = true ∧ (c.toJVal.get "$ref").truthy = false ∧
      (c.toJVal.get "allOf").isArray = false := by
  refine ⟨rfl, ?_, ?_⟩ <;>
    simp [Composed.toJVal, JVal.get, JVal.lookup, JVal.truthy, JVal.isArray]

theorem resolve_result_plain (schema : JVal) :
    ∀ (fuel : Nat) (node r : JVal), resolveSchema fuel schema node = some r →
      r = .null ∨ (r.truthy = true ∧ (r.get "$ref").truthy = false ∧
        (r.get "allOf").isArray = false) := by
  intro fuel
  induction fuel with
  | zero => intro node r h; simp [resolveSchema] at h
  | succ n ih =>
    intro node r h
    cases hn : node.truthy with
    | false =>
      rw [resolve_falsy _ _ _ hn] at h
      exact Or.inl (Option.some.inj h).symm
    | true =>
      cases href : (node.get "$ref").truthy with
      | true =>
        rw [resolve_pointer _ _ _ hn href] at h
        cases hd : (dereference schema (node.get "$ref")).truthy with
        | false =>
          simp only [hd] at h
          exact Or.inl (Option.some.inj h).symm
        | true =>
          simp only [hd, if_true] at h
          exact ih _ _ h
      | false =>
        cases hall : (node.get "allOf").isArray with
        | true =>
          rw [resolve_allOf _ _ _ hn href hall] at h
          cases hc : composeParts (resolveSchema n schema)
              { properties := [], required := [] } (node.get "allOf").elems with
          | none => simp [hc] at h
          | some c =>
            simp only [hc, Option.map_some', Option.some.injEq] at h
            subst h
            exact Or.inr (composed_plain c)
        | false =>
          rw [resolve_plain _ _ _ hn href hall] at h
          cases Option.some.inj h
          exact Or.inr ⟨hn, href, hall⟩

namespace JVal

mutual
theorem sameValueZero_iff : ∀ (a b : JVal), sameValueZero a b = true ↔ a = b
  | undefined, b => by cases b <;> simp [sameValueZero]
  | null, b => by cases b <;> simp [sameValueZero]
  | bool a, b => by cases b <;> simp [sameValueZero]
  | num a, b => by cases b <;> simp [sameValueZero]
  | str a, b => by cases b <;> simp [sameValueZero]
  | arr xs, b => by
    cases b <;> simp [sameValueZero]
    exact sameElems_iff xs _
  | obj kvs, b => by
    cases b <;> simp [sameValueZero]
    exact samePairs_iff kvs _
termination_by structural a => a
theorem sameElems_iff : ∀ (xs ys : List JVal), sameElems xs ys = true ↔ xs = ys
  | [], ys => by cases ys <;> simp [sameElems]
  | x :: xs, ys => by
    cases ys with
    | nil => simp [sameElems]
    | cons y ys => simp [sameElems, sameValueZero_iff x y, sameElems_iff xs ys]
termination_by structural xs => xs
theorem samePairs_iff : ∀ (xs ys : List (String × JVal)), samePairs xs ys = true ↔ xs = ys
  | [], ys => by cases ys <;> simp [samePairs]
  | x :: xs, ys => by
    cases ys with
    | nil => simp [samePairs]
    | cons y ys => simp [samePairs, samePair_iff x y, samePairs_iff xs ys]
termination_by structural xs => xs
theorem samePair_iff : ∀ (p q : String × JVal), samePair p q = true ↔ p = q
  | (k, v), (l, w) => by simp [samePair, sameValueZero_iff v w]
termination_by structural p => p
end

end JVal

theorem sameValueZero_comm (x y : JVal) : x.sameValueZero y = y.sameValueZero x := by
  cases h : y.sameValueZero x with
  | true =>
    have := (JVal.sameValueZero_iff y x).1 h
    subst this
    exact h
  | false =>
    cases h2 : x.sameValueZero y with
    | false => rfl
    | true =>
      have := (JVal.sameValueZero_iff x y).1 h2
      subst this
      rw [h2] at h
      cases h

theorem seen_iff (seen : List JVal) (x : JVal) :
    seen.any (fun y => y.sameValueZero x) = true ↔ x ∈ seen := by
  simp only [List.any_eq_true, JVal.sameValueZero_iff]
  constructor
  · rintro ⟨y, hy, rfl⟩
    exact hy
  · intro h
    exact ⟨x, h, rfl⟩

theorem setValues_eq : ∀ (xs seen : List JVal),
    setValues seen xs
      = seen ++ (firstOccurrences xs).filter (fun y => !seen.any (fun z => z.sameValueZero y))
  | [], seen => by simp [setValues, firstOccurrences]
  | x :: xs, seen => by
    by_cases hx : seen.any (fun y => y.sameValueZero x) = true
    · have hmem := (seen_iff seen x).1 hx
      rw [setValues, if_pos hx, setValues_eq xs seen, firstOccurrences, List.filter_cons,
        hx, List.filter_filter]
      simp only [Bool.not_true, Bool.false_eq_true, if_false]
      congr 1
      apply List.filter_congr
      intro y _
      by_cases hy : seen.any (fun z => z.sameValueZero y) = true
      · simp [hy]
      · have hne : y.sameValueZero x = false := by
          cases hs : y.sameValueZero x with
          | false => rfl
          | true =>
            have := (JVal.sameValueZero_iff y x).1 hs
            subst this
            exact absurd hx hy
        simp [hy, hne]
    · have hx' : seen.any (fun y => y.sameValueZero x) = false := by simpa using hx
      rw [setValues, if_neg hx, setValues_eq xs (seen ++ [x]), firstOccurrences, List.filter_cons,
        hx', List.filter_filter]
      simp only [Bool.not_false, if_true, List.append_assoc, List.singleton_append]
      congr 2
      apply List.filter_congr
      intro y _
      simp [Bool.and_comm, sameValueZero_comm x y]

theorem setValues_nil (xs : List JVal) : setValues [] xs = firstOccurrences xs := by
  rw [setValues_eq]
  simp

theorem setValues_append : ∀ (a b seen : List JVal),
    setValues seen (a ++ b) = setValues (setValues seen a) b
  | [], b, seen => rfl
  | x :: a, b, seen => by
    by_cases hx : seen.any (fun y => y.sameValueZero x) = true
    · simp only [List.cons_append, setValues, if_pos hx]
      exact setValues_append a b seen
    · simp only [List.cons_append, setValues, if_neg hx]
      exact setValues_append a b _

theorem mem_firstOccurrences : ∀ (xs : List JVal) (x : JVal),
    x ∈ firstOccurrences xs ↔ x ∈ xs
  | [], x => by simp [firstOccurrences]
  | y :: ys, x => by
    simp only [firstOccurrences, List.mem_cons, List.mem_filter, mem_firstOccurrences ys x]
    constructor
    · rintro (h | ⟨h, _⟩)
      · exact Or.inl h
      · exact Or.inr h
    · intro h
      by_cases hxy : x = y
      · exact Or.inl hxy
      · rcases h with h | h
        · exact absurd h hxy
        · refine Or.inr ⟨h, ?_⟩
          cases hs : x.sameValueZero y with
          | false => rfl
          | true => exact absurd ((JVal.sameValueZero_iff x y).1 hs) hxy

theorem firstOccurrences_nodup : ∀ xs : List JVal, (firstOccurrences xs).Nodup
  | [] => by simp [firstOccurrences]
  | x :: xs => by
    simp only [firstOccurrences, List.nodup_cons, List.mem_filter]
    refine ⟨?_, (firstOccurrences_nodup xs).filter _⟩
    rintro ⟨_, h⟩
    have : x.sameValueZero x = true := (JVal.sameValueZero_iff x x).2 rfl
    simp [this] at h

theorem firstOccurrences_of_nodup : ∀ xs : List JVal, xs.Nodup → firstOccurrences xs = xs
  | [], _ => rfl
  | x :: xs, h => by
    simp only [List.nodup_cons] at h
    rw [firstOccurrences, firstOccurrences_of_nodup xs h.2, List.filter_eq_self.2]
    intro y hy
    cases hs : y.sameValueZero x with
    | false => rfl
    | true =>
      have := (JVal.sameValueZero_iff y x).1 hs
      subst this
      exact absurd hy h.1

theorem setValues_again (a b : List JVal) :
    setValues [] (setValues [] a ++ b) = setValues [] (a ++ b) := by
  rw [setValues_append, setValues_append]
  congr 1
  rw [setValues_nil, setValues_nil, firstOccurrences_of_nodup _ (firstOccurrences_nodup a)]

theorem setKey_fresh (l : List (String × JVal)) (key : String) (value : JVal)
    (h : key ∉ l.map Prod.fst) : setKey l key value = l ++ [(key, value)] := by
  induction l with
  | nil => rfl
  | cons e rest ih =>
    obtain ⟨k, v⟩ := e
    simp only [List.map_cons, List.mem_cons, not_or] at h
    have hk : ¬ k = key := fun hk => h.1 hk.symm
    simp [setKey, hk, ih h.2]

theorem setKey_keys_nodup (l : List (String × JVal)) (key : String) (value : JVal)
    (h : (l.map Prod.fst).Nodup) : ((setKey l key value).map Prod.fst).Nodup := by
  induction l with
  | nil => simp [setKey]
  | cons e rest ih =>
    obtain ⟨k, v⟩ := e
    simp only [List.map_cons, List.nodup_cons] at h
    by_cases hk : k = key
    · simpa [setKey, hk] using h
    · simp only [setKey, hk, if_false, List.map_cons, List.nodup_cons]
      refine ⟨?_, ih h.2⟩
      intro hm
      rcases (keys_setKey rest key k value).1 hm with h1 | h1
      · exact hk h1
      · exact h.1 h1

theorem spread_keys_nodup (es : List (String × JVal)) :
    ∀ base : List (String × JVal), (base.map Prod.fst).Nodup →
      ((es.foldl (fun acc kv => setKey acc kv.1 kv.2) base).map Prod.fst).Nodup := by
  induction es with
  | nil => intro base h; exact h
  | cons e rest ih =>
    intro base h
    exact ih _ (setKey_keys_nodup base e.1 e.2 h)

theorem spread_self (es : List (String × JVal)) :
    ∀ base : List (String × JVal), ((base ++ es).map Prod.fst).Nodup →
      es.foldl (fun acc kv => setKey acc kv.1 kv.2) base = base ++ es := by
  induction es with
  | nil => intro base _; simp
  | cons e rest ih =>
    intro base h
    have hfresh : e.1 ∉ base.map Prod.fst := by
      intro hm
      rw [List.map_append, List.nodup_append] at h
      exact h.2.2 hm (by simp)
    rw [List.foldl_cons, setKey_fresh base e.1 e.2 hfresh, ih _ (by simpa using h)]
    simp

theorem lookup_setKey_opt (l : List (String × JVal)) (key k : String) (value : JVal) :
    List.lookup k (setKey l key value) = if key = k then some value else List.lookup k l := by
  induction l with
  | nil =>
    by_cases h : key = k
    · subst h
      simp [setKey, List.lookup]
    · have h2 : (k == key) = false := by simpa using fun e => h e.symm
      simp [setKey, List.lookup, h, h2]
  | cons e rest ih =>
    obtain ⟨k1, v1⟩ := e
    by_cases h1 : k1 = key
    · subst h1
      by_cases h : k1 = k
      · subst h
        simp [setKey, List.lookup]
      · have h2 : (k == k1) = false := by simpa using fun e => h e.symm
        simp [setKey, List.lookup, h, h2]
    · by_cases h : k = k1
      · subst h
        have h3 : ¬ key = k := fun e => h1 e.symm
        simp [setKey, List.lookup, h1, h3]
      · have h2 : (k == k1) = false := by simpa using h
        simp [setKey, List.lookup, h1, h2, ih]

theorem spread_lookup_last (es : List (String × JVal)) (k : String) :
    ∀ base : List (String × JVal),
      List.lookup k (es.foldl (fun acc kv => setKey acc kv.1 kv.2) base)
        = (List.lookup k es.reverse).orElse (fun _ => List.lookup k base) := by
  induction es using List.reverseRecOn with
  | nil => intro base; simp [List.lookup]
  | append_singleton es e ih =>
    intro base
    rw [List.foldl_append, List.foldl_cons, List.foldl_nil, lookup_setKey_opt, ih,
      List.reverse_append]
    by_cases h : e.1 = k
    · subst h
      simp [List.lookup]
    · have h2 : (k == e.1) = false := by simpa using fun x => h x.symm
      simp [List.lookup, h, h2]

theorem get_of_not_truthy (v : JVal) (k : String) (h : v.truthy = false) :
    v.get k = .undefined := by
  cases v <;> first | rfl | (simp [JVal.truthy] at h)

theorem entries_of_not_truthy (v : JVal) (h : v.truthy = false) : v.entries = [] := by
  cases v with
  | str s =>
    have : s = "" := by simpa [JVal.truthy] using h
    subst this
    rfl
  | arr xs => simp [JVal.truthy] at h
  | obj kvs => simp [JVal.truthy] at h
  | _ => rfl

theorem elems_of_not_array (v : JVal) (h : v.isArray = false) : v.elems = [] := by
  cases v <;> first | rfl | (simp [JVal.isArray] at h)

theorem truthy_of_get (v : JVal) (k : String) (h : (v.get k).truthy = true) :
    v.truthy = true := by
  cases v <;> first | rfl | (simp [JVal.get, JVal.truthy] at h)

theorem truthy_of_get_array (v : JVal) (k : String) (h : (v.get k).isArray = true) :
    v.truthy = true := by
  cases v <;> first | rfl | (simp [JVal.get, JVal.isArray] at h)

/-- The state of the composition loop after the results `done`. -/
structure ComposedInv (out : Composed) (done : List JVal) : Prop where
  properties : out.properties
    = (declaredProperties done).foldl (fun acc kv => setKey acc kv.1 kv.2) []
  required : out.required = setValues [] (declaredRequired done)

theorem composeStep_inv (out : Composed) (done : List JVal) (rs : JVal)
    (inv : ComposedInv out done) : ComposedInv (composeStep out rs) (done ++ [rs]) := by
  have hnd : (out.properties.map Prod.fst).Nodup := by
    rw [inv.properties]
    exact spread_keys_nodup _ [] (by simp)
  have hself : objectSpread [] (.obj out.properties) = out.properties := by
    simpa [objectSpread, JVal.entries] using spread_self out.properties [] (by simpa using hnd)
  have hprops : (if (rs.get "properties").truthy then
        objectSpread (objectSpread [] (.obj out.properties)) (rs.get "properties")
      else out.properties)
      = (declaredProperties (done ++ [rs])).foldl (fun acc kv => setKey acc kv.1 kv.2) [] := by
    simp only [declaredProperties, List.flatMap_append, List.flatMap_cons, List.flatMap_nil,
      List.append_nil, List.foldl_append]
    cases hp : (rs.get "properties").truthy with
    | false =>
      rw [entries_of_not_truthy _ hp]
      simpa [declaredProperties] using inv.properties
    | true =>
      simp only [if_true]
      rw [hself, objectSpread, inv.properties]
      rfl
  have hreq : (if (rs.get "required").isArray then
        setValues [] (out.required ++ (rs.get "required").elems)
      else out.required)
      = setValues [] (declaredRequired (done ++ [rs])) := by
    simp only [declaredRequired, List.flatMap_append, List.flatMap_cons, List.flatMap_nil,
      List.append_nil]
    cases hp : (rs.get "required").isArray with
    | false =>
      rw [elems_of_not_array _ hp]
      simpa [declaredRequired] using inv.required
    | true =>
      simp only [if_true]
      rw [inv.required, setValues_again]
      rfl
  cases hrs : rs.truthy with
  | false =>
    have hg : ∀ k, rs.get k = .undefined := fun k => get_of_not_truthy rs k hrs
    have e1 : JVal.undefined.truthy = false := rfl
    have e2 : JVal.undefined.isArray = false := rfl
    simp only [hg, e1, e2] at hprops hreq
    constructor
    · simpa [composeStep, hrs] using hprops
    · simpa [composeStep, hrs] using hreq
  | true =>
    constructor
    · rw [← hprops]
      simp only [composeStep, hrs]
      cases (rs.get "properties").truthy <;> cases (rs.get "required").isArray <;> rfl
    · rw [← hreq]
      simp only [composeStep, hrs]
      cases (rs.get "properties").truthy <;> cases (rs.get "required").isArray <;> rfl

theorem composeParts_total (f : JVal → Option JVal) (parts : List JVal)
    (hterm : ∀ p ∈ parts, (f p).isSome = true) :
    ∀ out : Composed,
      composeParts f out parts = some ((parts.filterMap f).foldl composeStep out) := by
  induction parts with
  | nil => intro out; rfl
  | cons p rest ih =>
    intro out
    obtain ⟨rs, hrs⟩ := Option.isSome_iff_exists.1 (hterm p (List.mem_cons_self _ _))
    simp only [composeParts, hrs, List.filterMap_cons, List.foldl_cons]
    exact ih (fun q hq => hterm q (List.mem_cons_of_mem _ hq)) _

theorem composeStep_fold_inv (rest : List JVal) :
    ∀ (out : Composed) (done : List JVal), ComposedInv out done →
      ComposedInv (rest.foldl composeStep out) (done ++ rest) := by
  induction rest with
  | nil => intro out done inv; simpa using inv
  | cons rs rest ih =>
    intro out done inv
    have := ih _ _ (composeStep_inv out done rs inv)
    simpa using this

theorem declared_of_truthy (results : List JVal) :
    declaredProperties (results.filter JVal.truthy) = declaredProperties results ∧
      declaredRequired (results.filter JVal.truthy) = declaredRequired results := by
  induction results with
  | nil => exact ⟨rfl, rfl⟩
  | cons rs rest ih =>
    cases hrs : rs.truthy with
    | true =>
      simp only [List.filter_cons, hrs, if_true, declaredProperties, declaredRequired,
        List.flatMap_cons] at ih ⊢
      exact ⟨by rw [ih.1], by rw [ih.2]⟩
    | false =>
      have hg : ∀ k, rs.get k = .undefined := fun k => get_of_not_truthy rs k hrs
      simp only [List.filter_cons, hrs, declaredProperties, declaredRequired,
        List.flatMap_cons, hg] at ih ⊢
      exact ⟨by simpa [JVal.entries] using ih.1, by simpa [JVal.elems] using ih.2⟩

/-- C21. For every document and every pointer node whose reference cannot be
followed (some segment of the pointer path leads to a missing or falsy value),
`dereference` yields `null` and `resolveSchema` returns `null` at once, without
a nested call; none of the reads on the way can throw. -/
theorem unresolvable_pointer_absent (schema node : JVal) (fuel : Nat)
    (href : (node.get "$ref").truthy = true)
    (hbroken : canFollow schema (pointerParts (node.get "$ref")) = false) :
    dereference schema (node.get "$ref") = .null ∧
      resolveSchema (fuel + 1) schema node = some .null := by
  have hd := dereference_broken schema (node.get "$ref") hbroken
  refine ⟨hd, ?_⟩
  rw [resolve_pointer fuel schema node (truthy_of_get node "$ref" href) href, hd]
  rfl

/-- Instance of C21: a pointer to a schema that `chainDoc` does not declare. -/
theorem unresolvable_pointer_absent_witness :
    pointerParts (.str "#/components/schemas/Gone") = ["components", "schemas", "Gone"] ∧
      resolveSchema 1 chainDoc (.obj [("$ref", .str "#/components/schemas/Gone")])
        = some .null :=
  ⟨by decide,
    (unresolvable_pointer_absent chainDoc (.obj [("$ref", .str "#/components/schemas/Gone")]) 0
      (by decide) (by decide)).2⟩

/-- C22 (as stated, refuted). In `loopDoc` the pointer `#/a` leads to a node that
is the same pointer again: no bound on the depth of nested calls is enough for
`resolveSchema` to return. -/
theorem pointer_loop_never_returns :
    (dereference loopDoc (.str "#/a")).get "$ref" = .str "#/a" ∧
      ∀ fuel : Nat, resolveSchema fuel loopDoc (.obj [("$ref", .str "#/a")]) = none := by
  refine ⟨rfl, ?_⟩
  intro fuel
  induction fuel with
  | zero => rfl
  | succ n ih =>
    rw [resolve_pointer n loopDoc (.obj [("$ref", .str "#/a")]) rfl rfl]
    exact ih

/-- C22 (amended). Whenever `resolveSchema` returns, which it does not on a
pointer chain that leads back into itself, the result is not a pointer node, and
it is the result under every larger bound on the depth of nested calls. -/
theorem resolveSchema_result_not_pointer (schema node r : JVal) (fuel : Nat)
    (h : resolveSchema fuel schema node = some r) :
    (r.get "$ref").truthy = false ∧
      ∀ more : Nat, resolveSchema (fuel + more) schema node = some r := by
  refine ⟨?_, resolve_mono schema node r fuel h⟩
  rcases resolve_result_plain schema fuel node r h with hr | hr
  · subst hr
    rfl
  · exact hr.2.1

/-- Instance of C22: the chain of two pointers of `chainDoc` ends in the schema
`Word`. -/
theorem resolveSchema_result_not_pointer_witness :
    resolveSchema 3 chainDoc (.obj [("$ref", .str "#/components/schemas/Alias")])
        = some (dereference chainDoc (.str "#/components/schemas/Word")) ∧
      ((dereference chainDoc (.str "#/components/schemas/Word")).get "$ref").truthy = false :=
  ⟨rfl, (resolveSchema_result_not_pointer chainDoc
    (.obj [("$ref", .str "#/components/schemas/Alias")]) _ 3 rfl).1⟩

/-- C23 (as stated, refuted). A composition whose part is the looping pointer of
`loopDoc` never returns, and a node that holds an `allOf` list next to a pointer
that leads nowhere is resolved as a pointer: the result is `null`. -/
theorem composition_without_result :
    (∀ fuel : Nat, resolveSchema fuel loopDoc loopComposition = none) ∧
      resolveSchema 1 chainDoc pointerWithParts = some .null := by
  refine ⟨?_, rfl⟩
  intro fuel
  cases fuel with
  | zero => rfl
  | succ n =>
    have hpart : resolveSchema n loopDoc (.obj [("$ref", .str "#/a")]) = none := by
      induction n with
      | zero => rfl
      | succ m ih =>
        rw [resolve_pointer m loopDoc (.obj [("$ref", .str "#/a")]) rfl rfl]
        exact ih
    rw [resolve_allOf n loopDoc loopComposition rfl rfl rfl]
    simp [loopComposition, JVal.get, JVal.lookup, JVal.elems, composeParts, hpart]

/-- C23 (amended). For every document and every node with an `allOf` list that
is not a pointer node and whose parts are all resolved within the bound,
`resolveSchema` returns an object of type `"object"`; a name of its `properties`
has the value of the last declaration of that name among the parts that
resolve, in order; its `required` list holds the required names of those parts
in the order of their first occurrence, each once.  A part that resolves to
`null` contributes nothing. -/
theorem composition_spec (schema node : JVal) (fuel : Nat)
    (href : (node.get "$ref").truthy = false) (hall : (node.get "allOf").isArray = true)
    (hterm : ∀ part ∈ (node.get "allOf").elems,
      (resolveSchema fuel schema part).isSome = true) :
    ∃ (properties : List (String × JVal)) (required : List JVal),
      resolveSchema (fuel + 1) schema node
          = some (.obj [("type", .str "object"), ("properties", .obj properties),
              ("required", .arr required)]) ∧
        (∀ k, List.lookup k properties = List.lookup k (declaredProperties
          (resolvedParts (resolveSchema fuel schema) (node.get "allOf").elems)).reverse) ∧
        (properties.map Prod.fst).Nodup ∧
        required = firstOccurrences (declaredRequired
          (resolvedParts (resolveSchema fuel schema) (node.get "allOf").elems)) ∧
        required.Nodup ∧
        (∀ x, x ∈ required ↔ x ∈ declaredRequired
          (resolvedParts (resolveSchema fuel schema) (node.get "allOf").elems)) := by
  have hrun := composeParts_total (resolveSchema fuel schema) (node.get "allOf").elems hterm
    { properties := [], required := [] }
  have inv := composeStep_fold_inv ((node.get "allOf").elems.filterMap
      (resolveSchema fuel schema)) { properties := [], required := [] } []
    ⟨rfl, rfl⟩
  rw [List.nil_append] at inv
  have hd := declared_of_truthy ((node.get "allOf").elems.filterMap
    (resolveSchema fuel schema))
  refine ⟨(((node.get "allOf").elems.filterMap (resolveSchema fuel schema)).foldl
      composeStep { properties := [], required := [] }).properties,
    (((node.get "allOf").elems.filterMap (resolveSchema fuel schema)).foldl
      composeStep { properties := [], required := [] }).required, ?_, ?_, ?_, ?_, ?_, ?_⟩
  · rw [resolve_allOf fuel schema node (truthy_of_get_array node "allOf" hall) href hall, hrun]
    rfl
  · intro k
    rw [inv.properties, spread_lookup_last, resolvedParts, hd.1]
    cases List.lookup k (declaredProperties ((node.get "allOf").elems.filterMap
      (resolveSchema fuel schema))).reverse <;> rfl
  · rw [inv.properties]
    exact spread_keys_nodup _ [] (by simp)
  · rw [inv.required, setValues_nil, resolvedParts, hd.2]
  · rw [inv.required, setValues_nil]
    exact firstOccurrences_nodup _
  · intro x
    rw [inv.required, setValues_nil, mem_firstOccurrences, resolvedParts, hd.2]

/-- Instance of C23 on `wordComposition`: the later declaration of `term`
replaces the one of `Word`, `note` is added, the part that does not resolve is
skipped, and `term` is required once. -/
theorem composition_spec_witness :
    resolveSchema 4 chainDoc wordComposition
        = some (.obj [("type", .str "object"),
            ("properties", .obj [("term", .obj [("type", .str "integer")]),
              ("note", .obj [("type", .str "string")])]),
            ("required", .arr [.str "term", .str "note"])]) ∧
      ∃ (properties : List (String × JVal)) (required : List JVal),
        resolveSchema 4 chainDoc wordComposition
          = some (.obj [("type", .str "object"), ("properties", .obj properties),
              ("required", .arr required)]) ∧
        required.Nodup :=
  ⟨rfl, by
    obtain ⟨p, r, h1, _, _, _, h5, _⟩ :=
      composition_spec chainDoc wordComposition 3 rfl rfl (by
        intro part hpart
        simp only [wordComposition, JVal.get, JVal.lookup, JVal.elems] at hpart
        simp only [List.mem_cons, List.mem_singleton, List.not_mem_nil, or_false,
          beq_self_eq_true, if_true] at hpart
        rcases hpart with h | h | h <;> subst h <;> rfl)
    exact ⟨p, r, h1, h5⟩⟩

/-- C24. Resolving a result of `resolveSchema` again returns it unchanged, at
once; and a node that is neither a pointer nor a composition is returned as it
is. -/
theorem resolveSchema_idempotent (schema node r : JVal) (fuel : Nat)
    (h : resolveSchema fuel schema node = some r) :
    (∀ k : Nat, resolveSchema (k + 1) schema r = some r) ∧
      (∀ (n : JVal) (k : Nat), n.truthy = true → (n.get "$ref").truthy = false →
        (n.get "allOf").isArray = false → resolveSchema (k + 1) schema n = some n) := by
  refine ⟨?_, fun n k h1 h2 h3 => resolve_plain k schema n h1 h2 h3⟩
  intro k
  rcases resolve_result_plain schema fuel node r h with hr | hr
  · subst hr
    exact resolve_falsy k schema .null rfl
  · exact resolve_plain k schema r hr.1 hr.2.1 hr.2.2

/-- Instance of C24: the merged schema of `wordComposition` resolves to itself. -/
theorem resolveSchema_idempotent_witness :
    ∃ r, resolveSchema 4 chainDoc wordComposition = some r ∧
      resolveSchema 1 chainDoc r = some r :=
  ⟨_, rfl, (resolveSchema_idempotent chainDoc wordComposition _ 4 rfl).1 0⟩

/-! ## Example synthesis -/

theorem exampleFold_fst {ν : Type} (f : ν → JVal × List Nat) (es : List (String × ν)) :
    ∀ acc : List (String × JVal) × List Nat,
      (es.foldl (fun acc kv => (setKey acc.1 kv.1 (f kv.2).1, acc.2 ++ (f kv.2).2)) acc).1
        = (es.map (fun kv => (kv.1, (f kv.2).1))).foldl
            (fun acc kv => setKey acc kv.1 kv.2) acc.1 := by
  induction es with
  | nil => intro acc; rfl
  | cons e rest ih =>
    intro acc
    rw [List.foldl_cons, ih]
    rfl

theorem exampleFold_snd {ν : Type} (f : ν → JVal × List Nat) (es : List (String × ν)) :
    ∀ acc : List (String × JVal) × List Nat,
      (es.foldl (fun acc kv => (setKey acc.1 kv.1 (f kv.2).1, acc.2 ++ (f kv.2).2)) acc).2
        = acc.2 ++ es.flatMap (fun kv => (f kv.2).2) := by
  induction es with
  | nil => intro acc; simp
  | cons e rest ih =>
    intro acc
    rw [List.foldl_cons, ih]
    simp

theorem exampleCalls_bounds {ν : Type} (R : SchemaReader ν) :
    ∀ (left depth : Nat) (schema : ν), ∀ c ∈ (buildExampleCalls R left depth schema).2,
      depth ≤ c ∧ c < depth + left := by
  intro left
  induction left with
  | zero => intro depth schema c hc; simp [buildExampleCalls] at hc
  | succ n ih =>
    intro depth schema c hc
    have hself : ∀ x ∈ [depth], depth ≤ x ∧ x < depth + (n + 1) := by
      intro x hx
      have := List.mem_singleton.1 hx
      omega
    have hchild : ∀ (child : ν), ∀ x ∈ (buildExampleCalls R n (depth + 1) child).2,
        depth ≤ x ∧ x < depth + (n + 1) := by
      intro child x hx
      have := ih (depth + 1) child x hx
      omega
    rw [buildExampleCalls] at hc
    split at hc
    · simp at hc
    split at hc
    · exact hself c hc
    split at hc
    · exact hself c hc
    split at hc
    · simp only [exampleFold_snd, List.mem_append, List.mem_flatMap] at hc
      rcases hc with h | ⟨kv, _, h⟩
      · exact hself c h
      · exact hchild kv.2 c h
    split at hc
    · rcases List.mem_cons.1 hc with h | h
      · exact hself c (by simp [h])
      · exact hchild _ c h
    split at hc
    · exact hself c hc
    split at hc
    · exact hself c hc
    · exact hself c hc

theorem orElse_entries (v : JVal) : (v.orElse (.obj [])).entries = v.entries := by
  cases h : v.truthy with
  | true => simp [JVal.orElse, h]
  | false =>
    rw [entries_of_not_truthy v h]
    simp [JVal.orElse, h, JVal.entries]

theorem buildExampleCalls_value {ν : Type} (R : SchemaReader ν) (left depth : Nat)
    (schema : ν) :
    (buildExampleCalls R (left + 1) depth schema).1 =
      if !R.truthy schema then .null
      else if !(R.exampleOf schema).isUndefined then R.exampleOf schema
      else
        match (R.enumOf schema).elems with
        | first :: _ => first
        | [] =>
          if (R.typeOf schema).isText "object" || R.hasProperties schema then
            .obj (((R.propertyEntries schema).map
              (fun kv => (kv.1, (buildExampleCalls R left (depth + 1) kv.2).1))).foldl
                (fun acc kv => setKey acc kv.1 kv.2) [])
          else if (R.typeOf schema).isText "array" then
            .arr [(buildExampleCalls R left (depth + 1) (R.items schema)).1]
          else if (R.typeOf schema).isText "integer" || (R.typeOf schema).isText "number" then
            .num 0
          else if (R.typeOf schema).isText "boolean" then .bool false
          else .str "" := by
  rw [buildExampleCalls]
  by_cases h1 : (!R.truthy schema) = true
  · rw [if_pos h1, if_pos h1]
  rw [if_neg h1, if_neg h1]
  by_cases h2 : (!(R.exampleOf schema).isUndefined) = true
  · rw [if_pos h2, if_pos h2]
  rw [if_neg h2, if_neg h2]
  have hplain : (if ((R.typeOf schema).isText "object" || R.hasProperties schema) = true then
        (JVal.obj ((R.propertyEntries schema).foldl
            (fun acc kv =>
              (setKey acc.1 kv.1 (buildExampleCalls R left (depth + 1) kv.2).1,
                acc.2 ++ (buildExampleCalls R left (depth + 1) kv.2).2))
            (([] : List (String × JVal)), [depth])).1,
          ((R.propertyEntries schema).foldl
            (fun acc kv =>
              (setKey acc.1 kv.1 (buildExampleCalls R left (depth + 1) kv.2).1,
                acc.2 ++ (buildExampleCalls R left (depth + 1) kv.2).2))
            (([] : List (String × JVal)), [depth])).2)
      else if (R.typeOf schema).isText "array" = true then
        (JVal.arr [(buildExampleCalls R left (depth + 1) (R.items schema)).1],
          depth :: (buildExampleCalls R left (depth + 1) (R.items schema)).2)
      else if ((R.typeOf schema).isText "integer" || (R.typeOf schema).isText "number") = true then
        (JVal.num 0, [depth])
      else if (R.typeOf schema).isText "boolean" = true then (JVal.bool false, [depth])
      else (JVal.str "", [depth])).1
      = if ((R.typeOf schema).isText "object" || R.hasProperties schema) = true then
          JVal.obj (((R.propertyEntries schema).map
            (fun kv => (kv.1, (buildExampleCalls R left (depth + 1) kv.2).1))).foldl
              (fun acc kv => setKey acc kv.1 kv.2) [])
        else if (R.typeOf schema).isText "array" = true then
          JVal.arr [(buildExampleCalls R left (depth + 1) (R.items schema)).1]
        else if ((R.typeOf schema).isText "integer" || (R.typeOf schema).isText "number") = true
          then JVal.num 0
        else if (R.typeOf schema).isText "boolean" = true then JVal.bool false
        else JVal.str "" := by
    split
    · rw [exampleFold_fst]
    · split
      · rfl
      · split
        · rfl
        · split <;> rfl
  cases he : R.enumOf schema with
  | arr xs =>
    cases xs with
    | cons first rest => rfl
    | nil => exact hplain
  | undefined | null | bool b | num n | str t | obj kvs => exact hplain

/-- C25. For every schema `s` of a document (a truthy value whose declared
property names are distinct) and every depth `d ≤ 6`, `buildExampleFromSchema(s, d)`
is `s.example` when one is given; else the first literal of a non-empty `enum`;
else, when the type is `"object"` or properties are declared, the object that
maps each declared property name to the synthesis of its schema at depth `d + 1`;
else, for type `"array"`, the one-element array of the synthesis of the item
schema at depth `d + 1`; else `0` for `"integer"` and `"number"`, `false` for
`"boolean"`, and the empty string otherwise. -/
theorem buildExample_spec (s : JVal) (d : Nat) (hd : d ≤ 6) (hs : s.truthy = true)
    (hkeys : ((s.get "properties").entries.map Prod.fst).Nodup) :
    buildExampleFromSchema s d = exampleAsStated s d := by
  obtain ⟨l, hl, hl2⟩ : ∃ l, 7 - d = l + 1 ∧ 7 - (d + 1) = l := ⟨6 - d, by omega, by omega⟩
  have hobj : ∀ (g : JVal → JVal),
      ((s.get "properties").entries.map (fun kv => (kv.1, g kv.2))).foldl
          (fun acc kv => setKey acc kv.1 kv.2) []
        = (s.get "properties").entries.map (fun kv => (kv.1, g kv.2)) := by
    intro g
    simpa using spread_self ((s.get "properties").entries.map (fun kv => (kv.1, g kv.2))) []
      (by simpa [List.map_map, Function.comp_def] using hkeys)
  have hstep := buildExampleCalls_value jsonReader l d s
  simp only [buildExampleFromSchema, buildExampleOver, exampleAsStated, hl, hl2]
  rw [hstep]
  have htruthy : jsonReader.truthy s = true := hs
  rw [htruthy]
  show (if (!true) = true then JVal.null
      else if (!(s.get "example").isUndefined) = true then s.get "example"
      else
        match (s.get "enum").elems with
        | first :: _ => first
        | [] =>
          if ((s.get "type").isText "object" || (s.get "properties").truthy) = true then
            JVal.obj ((((s.get "properties").orElse (.obj [])).entries.map
              (fun kv => (kv.1, (buildExampleCalls jsonReader l (d + 1) kv.2).1))).foldl
                (fun acc kv => setKey acc kv.1 kv.2) [])
          else if (s.get "type").isText "array" = true then
            JVal.arr [(buildExampleCalls jsonReader l (d + 1)
              ((s.get "items").orElse (.obj []))).1]
          else if ((s.get "type").isText "integer" || (s.get "type").isText "number") = true
            then JVal.num 0
          else if (s.get "type").isText "boolean" = true then JVal.bool false
          else JVal.str "") = _
  rw [orElse_entries, hobj (fun v => (buildExampleCalls jsonReader l (d + 1) v).1)]
  rfl

/-- Instance of C25: the example of `wordSchema` built at depth 0. -/
theorem buildExample_spec_witness :
    buildExampleFromSchema wordSchema 0
        = .obj [("term", .str "xin"), ("level", .num 0), ("kind", .str "noun"),
            ("tags", .arr [.str ""]), ("known", .bool false)] ∧
      buildExampleFromSchema wordSchema 0 = exampleAsStated wordSchema 0 :=
  ⟨rfl, buildExample_spec wordSchema 0 (by decide) rfl (by decide)⟩

/-- C26. For every schema, read through any reader and so also when it refers
to itself, `buildExampleFromSchema` is a total function: a call at a depth
greater than 6 returns `null` without a nested call, and every call that goes
past the guard of the first line runs at a depth between the depth of the first
call and 6.  On the schema that is its own property the calls past the guard run
at the depths 0 to 6, once each, and the call at depth 6 maps the property to
`null`. -/
theorem buildExample_depth_cap {ν : Type} (R : SchemaReader ν) (schema : ν) (depth : Nat) :
    (6 < depth → buildExampleCalls R (7 - depth) depth schema = (.null, [])) ∧
      (6 < depth → buildExampleOver R schema depth = .null) ∧
      (∀ c ∈ (buildExampleCalls R (7 - depth) depth schema).2, depth ≤ c ∧ c ≤ 6) ∧
      (buildExampleCalls selfReader 7 0 ()).2 = [0, 1, 2, 3, 4, 5, 6] ∧
      buildExampleOver selfReader () 6 = .obj [("self", .null)] := by
  have hzero : 6 < depth → 7 - depth = 0 := fun h => by omega
  refine ⟨?_, ?_, ?_, rfl, rfl⟩
  · intro h
    rw [hzero h]
    rfl
  · intro h
    rw [buildExampleOver, hzero h]
    rfl
  · intro c hc
    have := exampleCalls_bounds R (7 - depth) depth schema c hc
    omega

/-! ## The vocabulary capabilities -/

/-- C28 (as stated, refuted). In `untaggedListDoc` the catalog holds `GET /vocab`,
yet `listVocab` resolves to `GET /vocab/recent`: the bonus for the exact path
belongs to the rule that also asks for the tag `vocab`.  In `upperListDoc` both
operations earn the bonus and the first one, `GET /Vocab`, is kept. -/
theorem listVocab_not_exact :
    (flattenOperations untaggedListDoc).map sortKey = ["GET /vocab", "GET /vocab/recent"] ∧
      ((discoverCoreOperations untaggedListDoc).coreGet "listVocab").map Operation.path
        = some "/vocab/recent" ∧
      (flattenOperations upperListDoc).map sortKey = ["GET /Vocab", "GET /vocab"] ∧
      ((discoverCoreOperations upperListDoc).coreGet "listVocab").map Operation.path
        = some "/Vocab" := by
  refine ⟨by decide, by decide, by decide, by decide⟩

theorem findBest_some_first (ops : List Operation) (rules : List Rule) (op : Operation)
    (h : findBest ops rules = some op) :
    ∃ pre post r, ops = pre ++ op :: post ∧ r ∈ rules ∧ 0 ≤ scoreOperation op r ∧
      (∀ o ∈ ops, ∀ r' ∈ rules, scoreOperation o r' ≤ scoreOperation op r) ∧
      (∀ o ∈ pre, ∀ r' ∈ rules, scoreOperation o r' < scoreOperation op r) := by
  have inv := findBestLoop_inv rules ops
  obtain ⟨pre, post, e, ⟨r, hr, hs⟩, h0, hpre⟩ := inv.some_first op h
  refine ⟨pre, post, r, e, hr, by omega, ?_, ?_⟩
  · intro o ho r' hr'
    have := inv.upper o ho r' hr'
    omega
  · intro o ho r' hr'
    have := hpre o ho r' hr'
    omega

theorem listTagRule_score (o : Operation) :
    scoreOperation o listTagRule ≤ 19 ∧
      (scoreOperation o listTagRule = 19 ↔ isTaggedVocabList o = true) := by
  have e1 : toLowerCase "/vocab" = "/vocab" := by decide
  have e2 : toLowerCase "GET" = "get" := by decide
  have hweight : ruleWeight o listTagRule = 19 ∨ ruleWeight o listTagRule = 11 := by
    by_cases he : toLowerCase o.path = "/vocab"
    · left
      simp +decide [ruleWeight, ind, strSet, listTagRule, he, e1]
    · right
      simp +decide [ruleWeight, ind, strSet, listTagRule, he, e1]
  have hle := score_le_weight o listTagRule
  refine ⟨by omega, ?_, ?_⟩
  · intro hs
    have hnv := not_violated_of_score o listTagRule (by omega)
    have hw : scoreOperation o listTagRule = ruleWeight o listTagRule := by
      rw [scoreOperation_eq, hnv]
      rfl
    have hexact : toLowerCase o.path = "/vocab" := by
      by_cases he : toLowerCase o.path = "/vocab"
      · exact he
      · have : ruleWeight o listTagRule = 11 := by
          simp +decide [ruleWeight, ind, strSet, listTagRule, he, e1]
        omega
    have hmeth : toLowerCase o.method = "get" := by
      by_cases he : toLowerCase o.method = "get"
      · exact he
      · have : ruleViolated o listTagRule = true := by
          simp +decide [ruleViolated, strSet, listTagRule, he, e2]
        rw [this] at hnv
        cases hnv
    have htags : occursLower (JVal.join " " o.tags) ["vocab"] = true := by
      cases ht : occursLower (JVal.join " " o.tags) ["vocab"] with
      | true => rfl
      | false =>
        have : ruleViolated o listTagRule = true := by
          simp +decide [ruleViolated, strSet, listTagRule, ht]
        rw [this] at hnv
        cases hnv
    simp [isTaggedVocabList, hexact, hmeth, htags]
  · intro hq
    simp only [isTaggedVocabList, Bool.and_eq_true, beq_iff_eq] at hq
    obtain ⟨⟨hmeth, hpath⟩, htags⟩ := hq
    have hin : occursLower o.path ["/vocab"] = true := by
      unfold occursLower
      rw [hpath]
      decide
    have hex : occursLower o.path ["\x7b"] = false := by
      unfold occursLower
      rw [hpath]
      decide
    rw [scoreOperation_eq]
    simp +decide [ruleViolated, ruleWeight, ind, strSet, listTagRule, hmeth, hpath, hin, hex,
      htags, e1, e2]

theorem listPlainRule_score (o : Operation) : scoreOperation o listPlainRule ≤ 8 := by
  have := score_le_weight o listPlainRule
  have hw : ruleWeight o listPlainRule = 8 := by
    simp +decide [ruleWeight, ind, strSet, listPlainRule]
  omega

/-- C28 (amended). For every description document whose catalog contains a GET
operation with path exactly `/vocab` whose tags, joined by blanks, contain
`vocab` in any letter case, `listVocab` resolves to the first operation of the
catalog that is a GET operation whose path is `/vocab` up to letter case and
whose joined tags contain `vocab` in any letter case; every operation of the
catalog that is not of this kind scores less than the winner on each rule of
`listVocab`. -/
theorem listVocab_exact_tagged (doc : JVal) (op : Operation)
    (hop : op ∈ flattenOperations doc) (hm : op.method = "GET") (hp : op.path = "/vocab")
    (htag : occursLower (JVal.join " " op.tags) ["vocab"] = true) :
    ∃ pre w post, flattenOperations doc = pre ++ w :: post ∧
      (discoverCoreOperations doc).coreGet "listVocab" = some w ∧
      toLowerCase w.path = "/vocab" ∧ toLowerCase w.method = "get" ∧
      occursLower (JVal.join " " w.tags) ["vocab"] = true ∧
      (∀ o ∈ pre, isTaggedVocabList o = false) ∧
      (∀ o ∈ flattenOperations doc, isTaggedVocabList o = false →
        ∀ r ∈ rulesOf "listVocab", scoreOperation o r < scoreOperation w listTagRule) := by
  have hget : (discoverCoreOperations doc).coreGet "listVocab"
      = findBest (flattenOperations doc) [listTagRule, listPlainRule] := rfl
  have hrules : rulesOf "listVocab" = [listTagRule, listPlainRule] := rfl
  have hqop : isTaggedVocabList op = true := by
    simp +decide [isTaggedVocabList, hm, hp, htag]
  have hs : scoreOperation op listTagRule = 19 := (listTagRule_score op).2.2 hqop
  have hbelow : ∀ o, isTaggedVocabList o = false →
      ∀ r ∈ [listTagRule, listPlainRule], scoreOperation o r < 19 := by
    intro o hq r hr
    simp only [List.mem_cons, List.mem_singleton, List.not_mem_nil, or_false] at hr
    rcases hr with h | h <;> subst h
    · have h1 := (listTagRule_score o).1
      have h2 : scoreOperation o listTagRule ≠ 19 := by
        intro h19
        rw [(listTagRule_score o).2.1 h19] at hq
        cases hq
      omega
    · have := listPlainRule_score o
      omega
  cases hb : findBest (flattenOperations doc) [listTagRule, listPlainRule] with
  | none =>
    have := (findBest_none_iff _ _).1 hb op hop listTagRule (List.mem_cons_self _ _)
    omega
  | some w =>
    obtain ⟨pre, post, r, hcat, hr, _, hmax, hpre⟩ := findBest_some_first _ _ w hb
    have hge := hmax op hop listTagRule (List.mem_cons_self _ _)
    rw [hs] at hge
    have hw19 : scoreOperation w listTagRule = 19 := by
      simp only [List.mem_cons, List.mem_singleton, List.not_mem_nil, or_false] at hr
      rcases hr with h | h <;> subst h
      · have := (listTagRule_score w).1
        omega
      · have := listPlainRule_score w
        omega
    have hr19 : scoreOperation w r = 19 := by
      simp only [List.mem_cons, List.mem_singleton, List.not_mem_nil, or_false] at hr
      rcases hr with h | h <;> subst h
      · exact hw19
      · have := listPlainRule_score w
        omega
    have hqw := (listTagRule_score w).2.1 hw19
    have hparts := hqw
    simp only [isTaggedVocabList, Bool.and_eq_true, beq_iff_eq] at hparts
    obtain ⟨⟨hmeth, hpath⟩, htags⟩ := hparts
    refine ⟨pre, w, post, hcat, by rw [hget, hb], hpath, hmeth, htags, ?_, ?_⟩
    · intro o ho
      cases hq : isTaggedVocabList o with
      | false => rfl
      | true =>
        have h19 := (listTagRule_score o).2.2 hq
        have := hpre o ho listTagRule (List.mem_cons_self _ _)
        omega
    · intro o _ hq r' hr'
      rw [hrules] at hr'
      rw [hw19]
      exact hbelow o hq r' hr'

/-- Instance of C28 on `mixedCaseListDoc`: `GET /Vocab`, tagged `Vocabulary` and
declared first, is the winner. -/
theorem listVocab_exact_tagged_witness :
    ((discoverCoreOperations mixedCaseListDoc).coreGet "listVocab").map Operation.path
        = some "/Vocab" ∧
      ∃ pre w post, flattenOperations mixedCaseListDoc = pre ++ w :: post ∧
        (discoverCoreOperations mixedCaseListDoc).coreGet "listVocab" = some w ∧
        toLowerCase w.path = "/vocab" ∧ (∀ o ∈ pre, isTaggedVocabList o = false) :=
  ⟨by decide, by
    obtain ⟨pre, w, post, h1, h2, h3, _, _, h6, _⟩ := listVocab_exact_tagged mixedCaseListDoc
      (mkOperation "/vocab" "get" (.obj [("tags", .arr [.str "vocab"])]))
      (List.get?_mem (show (flattenOperations mixedCaseListDoc).get? 1 = _ from rfl))
      rfl rfl (by decide)
    exact ⟨pre, w, post, h1, h2, h3, h6⟩⟩

theorem scanParams_eq_raw : ∀ (cs : List Char) (st : Option (List Char)),
    scanParams st cs = (scanRaw st cs).map
      (fun a => ⟨a.filter (fun x => x != Char.ofNat 123 && x != Char.ofNat 125)⟩)
  | [], st => by cases st <;> rfl
  | c :: cs, none => by
    by_cases hc : c = Char.ofNat 123
    · simp only [scanParams, scanRaw, hc, if_true]
      exact scanParams_eq_raw cs _
    · simp only [scanParams, scanRaw, hc, if_false]
      exact scanParams_eq_raw cs _
  | c :: cs, some a => by
    by_cases hc : c = Char.ofNat 125
    · by_cases ha : a = []
      · simp only [scanParams, scanRaw, hc, ha, if_true]
        exact scanParams_eq_raw cs _
      · simp only [scanParams, scanRaw, hc, ha, if_true, if_false, List.map_cons]
        rw [scanParams_eq_raw cs none]
    · simp only [scanParams, scanRaw, hc, if_false]
      exact scanParams_eq_raw cs _

theorem scanRaw_no_close : ∀ (cs : List Char) (st : Option (List Char)),
    (∀ a, st = some a → Char.ofNat 125 ∉ a) → ∀ b ∈ scanRaw st cs, Char.ofNat 125 ∉ b
  | [], st, _, b, hb => by cases st <;> simp [scanRaw] at hb
  | c :: cs, none, _, b, hb => by
    by_cases hc : c = Char.ofNat 123
    · simp only [scanRaw, hc, if_true] at hb
      exact scanRaw_no_close cs (some []) (by intro a ha; cases ha; simp) b hb
    · simp only [scanRaw, hc, if_false] at hb
      exact scanRaw_no_close cs none (by intro a ha; cases ha) b hb
  | c :: cs, some a, hinv, b, hb => by
    have hclose : Char.ofNat 125 ∉ a := hinv a rfl
    by_cases hc : c = Char.ofNat 125
    · by_cases ha : a = []
      · simp only [scanRaw, hc, ha, if_true] at hb
        exact scanRaw_no_close cs none (by intro a ha; cases ha) b hb
      · simp only [scanRaw, hc, ha, if_true, if_false, List.mem_cons] at hb
        rcases hb with h | h
        · rw [h]
          exact hclose
        · exact scanRaw_no_close cs none (by intro a ha; cases ha) b h
    · simp only [scanRaw, hc, if_false] at hb
      refine scanRaw_no_close cs (some (a ++ [c])) ?_ b hb
      intro x hx
      cases hx
      intro hm
      rcases List.mem_append.1 hm with h | h
      · exact hclose h
      · exact hc (List.mem_singleton.1 h).symm

theorem substituteFrom_first (pathParams : JVal) (a : List Char) (rest : List (List Char)) :
    ∀ (cs : List Char) (st : Option (List Char)), scanRaw st cs = a :: rest →
      ∃ pre post, substituteFrom pathParams st cs = pre ++ substitutedValue pathParams a ++ post
  | [], st, h => by cases st <;> simp [scanRaw] at h
  | c :: cs, none, h => by
    by_cases hc : c = Char.ofNat 123
    · simp only [scanRaw, hc, if_true] at h
      obtain ⟨pre, post, e⟩ := substituteFrom_first pathParams a rest cs _ h
      exact ⟨pre, post, by simp only [substituteFrom, hc, if_true, e]⟩
    · simp only [scanRaw, hc, if_false] at h
      obtain ⟨pre, post, e⟩ := substituteFrom_first pathParams a rest cs _ h
      exact ⟨c :: pre, post, by simp only [substituteFrom, hc, if_false, e, List.cons_append]⟩
  | c :: cs, some b, h => by
    by_cases hc : c = Char.ofNat 125
    · by_cases hb : b = []
      · simp only [scanRaw, hc, hb, if_true] at h
        obtain ⟨pre, post, e⟩ := substituteFrom_first pathParams a rest cs _ h
        exact ⟨Char.ofNat 123 :: Char.ofNat 125 :: pre, post,
          by simp only [substituteFrom, hc, hb, if_true, e, List.cons_append]⟩
      · simp only [scanRaw, hc, hb, if_true, if_false, List.cons.injEq] at h
        obtain ⟨hba, _⟩ := h
        subst hba
        exact ⟨[], substituteFrom pathParams none cs,
          by simp only [substituteFrom, hc, hb, if_true, if_false, List.nil_append]⟩
    · simp only [scanRaw, hc, if_false] at h
      obtain ⟨pre, post, e⟩ := substituteFrom_first pathParams a rest cs _ h
      exact ⟨pre, post, by simp only [substituteFrom, hc, if_false, e]⟩

theorem first_placeholder_bound (path : String) (vocabId : JVal) (a : List Char)
    (rest : List (List Char)) (hfirst : rawPlaceholders path = a :: rest)
    (hwf : ∀ b ∈ rawPlaceholders path, Char.ofNat 123 ∉ b) :
    firstParamKey path = ⟨a⟩ ∧
      includes (buildPath path (.obj [(firstParamKey path, vocabId)]))
        (encodeURIComponent (paramText vocabId)) = true := by
  have hopen : Char.ofNat 123 ∉ a := hwf a (by rw [hfirst]; exact List.mem_cons_self _ _)
  have hclose : Char.ofNat 125 ∉ a :=
    scanRaw_no_close path.data none (by intro x hx; cases hx) a
      (by
        have := hfirst
        unfold rawPlaceholders at this
        rw [this]
        exact List.mem_cons_self _ _)
  have hkey : firstParamKey path = ⟨a⟩ := by
    unfold firstParamKey getPathParams
    rw [scanParams_eq_raw]
    unfold rawPlaceholders at hfirst
    rw [hfirst]
    simp only [List.map_cons]
    rw [filter_braces_id a hopen hclose]
  refine ⟨hkey, ?_⟩
  rw [hkey]
  have hbuild : buildPath path (.obj [(⟨a⟩, vocabId)])
      = ⟨substituteFrom (.obj [(⟨a⟩, vocabId)]) none path.data⟩ := by
    have h := buildPath_fold (.obj [(⟨a⟩, vocabId)]) path.data none [] BraceSafe.nil
      (by intro x hx; cases hx) hwf
    simpa [buildPath, getPathParams, openText] using h
  obtain ⟨pre, post, e⟩ := substituteFrom_first (.obj [(⟨a⟩, vocabId)]) a rest path.data none hfirst
  have hval : substitutedValue (.obj [(⟨a⟩, vocabId)]) a
      = (encodeURIComponent (paramText vocabId)).data := by
    simp [substitutedValue, JVal.get, JVal.lookup]
  rw [hbuild, includes_iff_part, e, hval]
  exact ⟨pre, post, rfl⟩

/-- C29 (defect of the code). The rules of `getVocab`, `updateVocab` and
`deleteVocab` list the opening brace among their `pathIncludes` keywords and the
facade binds the id to the first placeholder of the winner, but `includesAny`
is satisfied by the keyword `/vocab` alone.  In `restDoc` the operations
`GET /vocab` and `GET /vocab/{id}` both score 11 on the rule of `getVocab` and
the first declared wins: the path of the winner has no placeholder and
`getVocab("42")` requests `/vocab`, in which the id does not occur.  In
`clearFirstDoc` the call `deleteVocab("42")` requests `DELETE /vocab`. -/
theorem getVocab_without_placeholder :
    (flattenOperations restDoc).map sortKey
        = ["GET /vocab", "POST /vocab", "GET /vocab/\x7bid\x7d", "PUT /vocab/\x7bid\x7d",
            "DELETE /vocab/\x7bid\x7d"] ∧
      rulesOf "getVocab" = [getVocabRule] ∧
      (flattenOperations restDoc).map (fun o => scoreOperation o getVocabRule)
        = [11, -1, 11, -1, -1] ∧
      ((createApiClient restDoc "http://host").coreGet "getVocab").map Operation.path
        = some "/vocab" ∧
      getPathParams "/vocab" = [] ∧
      (((createApiClient restDoc "http://host").invoke (.getVocab (.str "42"))).toOption.map
        TransportCall.path) = some "/vocab" ∧
      includes "/vocab" (encodeURIComponent (paramText (.str "42"))) = false ∧
      rulesOf "deleteVocab" = [deleteVocabRule] ∧
      (((createApiClient clearFirstDoc "http://host").invoke
          (.deleteVocab (.str "42"))).toOption.map
        (fun t => (t.method, t.path))) = some ("DELETE", "/vocab") := by
  refine ⟨by decide, rfl, by decide, by decide, by decide, by decide, by decide, rfl, by decide⟩

/-- The facade methods `getVocab`, `updateVocab` and `deleteVocab` on a winner
whose path template has a placeholder (none with an opening brace in its name):
the id is bound to the first declared placeholder and its URL-encoded text
occurs in the requested path. -/
theorem vocab_id_in_path (c : ApiClient) (call : FacadeCall) (vocabId payload : JVal)
    (op : Operation) (a : List Char) (rest : List (List Char))
    (hcall : call = .getVocab vocabId ∨ call = .updateVocab vocabId payload ∨
      call = .deleteVocab vocabId)
    (hop : c.coreGet call.name = some op)
    (hfirst : rawPlaceholders op.path = a :: rest)
    (hwf : ∀ b ∈ rawPlaceholders op.path, Char.ofNat 123 ∉ b) :
    firstParamKey op.path = ⟨a⟩ ∧
      ∃ t, c.invoke call = .ok t ∧ t.path = buildPath op.path (.obj [(⟨a⟩, vocabId)]) ∧
        includes t.path (encodeURIComponent (paramText vocabId)) = true := by
  obtain ⟨hkey, hin⟩ := first_placeholder_bound op.path vocabId a rest hfirst hwf
  refine ⟨hkey, ?_⟩
  rw [hkey] at hin
  rcases hcall with h | h | h <;> subst h <;> simp only [FacadeCall.name] at hop
  · exact ⟨_, by simp [ApiClient.invoke, ApiClient.requireOp, hop, bind, Except.bind,
      callOperation, hkey]; rfl, rfl, hin⟩
  · exact ⟨_, by simp [ApiClient.invoke, ApiClient.requireOp, hop, bind, Except.bind,
      callOperation, hkey]; rfl, rfl, hin⟩
  · exact ⟨_, by simp [ApiClient.invoke, ApiClient.requireOp, hop, bind, Except.bind,
      callOperation, hkey]; rfl, rfl, hin⟩

/-- On `restDoc`, where `DELETE` is declared for `/vocab/{id}` only,
`deleteVocab("a b")` requests `/vocab/a%20b`. -/
theorem vocab_id_in_path_witness :
    (((createApiClient restDoc "http://host").invoke (.deleteVocab (.str "a b"))).toOption.map
        TransportCall.path) = some "/vocab/a%20b" ∧
      ∃ t, (createApiClient restDoc "http://host").invoke (.deleteVocab (.str "a b")) = .ok t ∧
        includes t.path (encodeURIComponent (paramText (.str "a b"))) = true :=
  ⟨by decide, by
    obtain ⟨_, t, h1, _, h3⟩ := vocab_id_in_path (createApiClient restDoc "http://host")
      (.deleteVocab (.str "a b")) (.str "a b") .undefined
      (mkOperation "/vocab/\x7bid\x7d" "delete" (.obj [("tags", .arr [.str "vocab"])]))
      "id".data [] (Or.inr (Or.inr rfl)) rfl (by decide) (by decide)
    exact ⟨t, h1, h3⟩⟩

/-! ## The cache of the description document -/

theorem fetchOpenApi_hit (parseNumber : String → Option Int) (cached : JVal) (now : Int)
    (force : Bool) :
    cacheHit parseNumber cached now force = true ↔ cacheIsFresh parseNumber cached now force := by
  unfold cacheHit
  unfold cacheIsFresh
  have httl : CACHE_TTL_MS = 300000 := by decide
  constructor
  · intro h
    simp only [Bool.and_eq_true, Bool.not_eq_true'] at h
    obtain ⟨⟨⟨hf, _⟩, hs⟩, ha⟩ := h
    refine ⟨hf, hs, ?_⟩
    cases hn : toNumber parseNumber (cached.get "savedAt") with
    | none => simp [hn] at ha
    | some t =>
      rw [hn] at ha
      exact ⟨t, rfl, by simpa [httl] using ha⟩
  · rintro ⟨hf, hs, t, ht, hlt⟩
    have hc := truthy_of_get cached "schema" hs
    simp [hf, hc, hs, ht, httl, hlt]

/-- C27. The function `fetchOpenApi` returns the cached document without any
network attempt exactly when force is off and the cache entry holds a document
whose age (`now` minus its save time) is below five minutes, and then stores
nothing.  Otherwise it makes one or two attempts; when they fail it throws what
`requestJson` throws and stores nothing; when the fetched body is not an object
with a paths section it throws and stores nothing; else it stores the body with
`now` as save time under the key of the base URL and returns the body. -/
theorem fetchOpenApi_spec (parseNumber : String → Option Int)
    (attemptAt : Nat → Except Failure Success) (cached : JVal) (now : Int) (baseUrl : String)
    (force : Bool) :
    ((fetchOpenApi parseNumber attemptAt cached now baseUrl force).attempts = 0
        ↔ cacheIsFresh parseNumber cached now force) ∧
      (cacheIsFresh parseNumber cached now force →
        fetchOpenApi parseNumber attemptAt cached now baseUrl force
          = { result := .ok (cached.get "schema"), attempts := 0, stored := none }) ∧
      (¬ cacheIsFresh parseNumber cached now force →
        1 ≤ (fetchOpenApi parseNumber attemptAt cached now baseUrl force).attempts ∧
        (fetchOpenApi parseNumber attemptAt cached now baseUrl force).attempts ≤ 2 ∧
        (fetchOpenApi parseNumber attemptAt cached now baseUrl force).attempts
          = (requestJsonWith attemptAt 1 300).attempts ∧
        (∀ e, (requestJsonWith attemptAt 1 300).result = .error e →
          (fetchOpenApi parseNumber attemptAt cached now baseUrl force).result
              = .error (.transport e) ∧
            (fetchOpenApi parseNumber attemptAt cached now baseUrl force).stored = none) ∧
        (∀ res, (requestJsonWith attemptAt 1 300).result = .ok res →
          (hasPathsSection res.data = false →
            (∃ message, (fetchOpenApi parseNumber attemptAt cached now baseUrl force).result
                = .error (.shape message)) ∧
              (fetchOpenApi parseNumber attemptAt cached now baseUrl force).stored = none) ∧
          (hasPathsSection res.data = true →
            (fetchOpenApi parseNumber attemptAt cached now baseUrl force).result = .ok res.data ∧
              (fetchOpenApi parseNumber attemptAt cached now baseUrl force).stored
                = some ("openapi:" ++ baseUrl,
                    .obj [("schema", res.data), ("savedAt", .num now)])))) := by
  have hhit := fetchOpenApi_hit parseNumber cached now force
  have hbound : 1 ≤ (requestJsonWith attemptAt 1 300).attempts ∧
      (requestJsonWith attemptAt 1 300).attempts ≤ 2 := by
    obtain ⟨k, h1, h2, _⟩ := requestJsonWith_spec attemptAt 1 300
    rw [h1]
    constructor
    · omega
    · have : (k : Int) ≤ 1 := by simpa using h2
      omega
  have hmiss : ¬ cacheIsFresh parseNumber cached now force →
      fetchOpenApi parseNumber attemptAt cached now baseUrl force
        = storeFetched (requestJsonWith attemptAt 1 300) now baseUrl := by
    intro hfresh
    unfold fetchOpenApi
    rw [if_neg (fun h => hfresh (hhit.1 h))]
  have hattempts : ¬ cacheIsFresh parseNumber cached now force →
      (fetchOpenApi parseNumber attemptAt cached now baseUrl force).attempts
        = (requestJsonWith attemptAt 1 300).attempts := by
    intro hfresh
    rw [hmiss hfresh]
    unfold storeFetched
    cases (requestJsonWith attemptAt 1 300).result with
    | error e => rfl
    | ok res =>
      simp only
      split <;> rfl
  have hfreshRun : cacheIsFresh parseNumber cached now force →
      fetchOpenApi parseNumber attemptAt cached now baseUrl force
        = { result := .ok (cached.get "schema"), attempts := 0, stored := none } := by
    intro hfresh
    unfold fetchOpenApi
    rw [if_pos (hhit.2 hfresh)]
  refine ⟨?_, hfreshRun, ?_⟩
  · constructor
    · intro h0
      by_contra hfresh
      rw [hattempts hfresh] at h0
      omega
    · intro hfresh
      rw [hfreshRun hfresh]
  · intro hfresh
    refine ⟨by rw [hattempts hfresh]; exact hbound.1, by rw [hattempts hfresh]; exact hbound.2,
      hattempts hfresh, ?_, ?_⟩
    · intro e he
      rw [hmiss hfresh]
      unfold storeFetched
      rw [he]
      exact ⟨rfl, rfl⟩
    · intro res hres
      rw [hmiss hfresh]
      unfold storeFetched
      rw [hres]
      constructor
      · intro hbad
        have hcond : (!res.data.truthy || !isObjectType res.data
            || !(res.data.get "paths").truthy) = true := by
          unfold hasPathsSection at hbad
          cases h1 : res.data.truthy <;> cases h2 : isObjectType res.data <;>
            cases h3 : (res.data.get "paths").truthy <;> simp_all
        refine ⟨⟨"OpenAPI t峄?backend kh么ng h峄 l峄?", ?_⟩, ?_⟩
        · show (if _ then _ else _ : OpenApiRun).result = _
          rw [if_pos hcond]
        · show (if _ then _ else _ : OpenApiRun).stored = _
          rw [if_pos hcond]
      · intro hgood
        have hcond : ¬ (!res.data.truthy || !isObjectType res.data
            || !(res.data.get "paths").truthy) = true := by
          unfold hasPathsSection at hgood
          cases h1 : res.data.truthy <;> cases h2 : isObjectType res.data <;>
            cases h3 : (res.data.get "paths").truthy <;> simp_all
        constructor
        · show (if _ then _ else _ : OpenApiRun).result = _
          rw [if_neg hcond]
        · show (if _ then _ else _ : OpenApiRun).stored = _
          rw [if_neg hcond]
          rfl

/-- Runs of `fetchOpenApi` on a cache entry saved at time 1000: read within five
minutes, read at five minutes, read with force, and a fetched body without
paths. -/
theorem fetchOpenApi_runs :
    (fetchOpenApi (fun _ => none) (answered (.obj []))
        (.obj [("schema", emptyPathsDoc), ("savedAt", .num 1000)]) 300999 "h" false).attempts = 0 ∧
      (fetchOpenApi (fun _ => none) (answered emptyPathsDoc)
        (.obj [("schema", emptyPathsDoc), ("savedAt", .num 1000)]) 301000 "h" false).attempts = 1 ∧
      (fetchOpenApi (fun _ => none) (answered emptyPathsDoc)
        (.obj [("schema", emptyPathsDoc), ("savedAt", .num 1000)]) 2000 "h" true).stored.map Prod.fst
          = some "openapi:h" ∧
      (fetchOpenApi (fun _ => none) (answered (.obj []))
        (.obj [("schema", emptyPathsDoc), ("savedAt", .num 1000)]) 2000 "h" true).stored.map Prod.fst
          = none := by
  refine ⟨by decide, by decide, by decide, by decide⟩

/-! ## Edit distance -/

theorem EditScript.length_bound {s t : List Char} {n : Nat} (h : EditScript s t n) :
    s.length ≤ t.length + n ∧ t.length ≤ s.length + n := by
  induction h with
  | done => simp
  | keep c _ ih => simp only [List.length_cons]; omega
  | substitute c d _ ih => simp only [List.length_cons]; omega
  | delete c _ ih => simp only [List.length_cons]; omega
  | insert d _ ih => simp only [List.length_cons]; omega

theorem EditScript.deleteAll : ∀ s : List Char, EditScript s [] s.length
  | [] => EditScript.done
  | c :: s => EditScript.delete c (EditScript.deleteAll s)

theorem EditScript.insertAll : ∀ t : List Char, EditScript [] t t.length
  | [] => EditScript.done
  | d :: t => EditScript.insert d (EditScript.insertAll t)

theorem EditScript.refl : ∀ s : List Char, EditScript s s 0
  | [] => EditScript.done
  | c :: s => EditScript.keep c (EditScript.refl s)

theorem EditScript.swap {s t : List Char} {n : Nat} (h : EditScript s t n) :
    EditScript t s n := by
  induction h with
  | done => exact EditScript.done
  | keep c _ ih => exact EditScript.keep c ih
  | substitute c d _ ih => exact EditScript.substitute d c ih
  | delete c _ ih => exact EditScript.insert c ih
  | insert d _ ih => exact EditScript.delete d ih

theorem EditScript.eq_of_zero {s t : List Char} {n : Nat} (h : EditScript s t n) :
    n = 0 → s = t := by
  induction h with
  | done => intro _; rfl
  | keep c _ ih => intro h0; rw [ih h0]
  | substitute c d _ _ => intro h0; omega
  | delete c _ _ => intro h0; omega
  | insert d _ _ => intro h0; omega

theorem EditScript.within_longer : ∀ s t : List Char, ∃ n, n ≤ max s.length t.length ∧
    EditScript s t n
  | [], t => ⟨t.length, by simp, EditScript.insertAll t⟩
  | c :: s, [] => ⟨(c :: s).length, by simp, EditScript.deleteAll (c :: s)⟩
  | c :: s, d :: t => by
    obtain ⟨n, hn, h⟩ := EditScript.within_longer s t
    refine ⟨n + 1, ?_, EditScript.substitute c d h⟩
    simp only [List.length_cons]
    omega

theorem EditScript.snoc_keep (c : Char) {s t : List Char} {n : Nat} (h : EditScript s t n) :
    EditScript (s ++ [c]) (t ++ [c]) n := by
  induction h with
  | done => exact EditScript.keep c EditScript.done
  | keep a _ ih => exact EditScript.keep a ih
  | substitute a b _ ih => exact EditScript.substitute a b ih
  | delete a _ ih => exact EditScript.delete a ih
  | insert b _ ih => exact EditScript.insert b ih

theorem EditScript.snoc_substitute (c d : Char) {s t : List Char} {n : Nat}
    (h : EditScript s t n) : EditScript (s ++ [c]) (t ++ [d]) (n + 1) := by
  induction h with
  | done => exact EditScript.substitute c d EditScript.done
  | keep a _ ih => exact EditScript.keep a ih
  | substitute a b _ ih => exact EditScript.substitute a b ih
  | delete a _ ih => exact EditScript.delete a ih
  | insert b _ ih => exact EditScript.insert b ih

theorem EditScript.snoc_delete (c : Char) {s t : List Char} {n : Nat}
    (h : EditScript s t n) : EditScript (s ++ [c]) t (n + 1) := by
  induction h with
  | done => exact EditScript.delete c EditScript.done
  | keep a _ ih => exact EditScript.keep a ih
  | substitute a b _ ih => exact EditScript.substitute a b ih
  | delete a _ ih => exact EditScript.delete a ih
  | insert b _ ih => exact EditScript.insert b ih

theorem EditScript.snoc_insert (d : Char) {s t : List Char} {n : Nat}
    (h : EditScript s t n) : EditScript s (t ++ [d]) (n + 1) := by
  induction h with
  | done => exact EditScript.insert d EditScript.done
  | keep a _ ih => exact EditScript.keep a ih
  | substitute a b _ ih => exact EditScript.substitute a b ih
  | delete a _ ih => exact EditScript.delete a ih
  | insert b _ ih => exact EditScript.insert b ih

theorem EditScript.reverse {s t : List Char} {n : Nat} (h : EditScript s t n) :
    EditScript s.reverse t.reverse n := by
  induction h with
  | done => exact EditScript.done
  | keep c _ ih => simpa using EditScript.snoc_keep c ih
  | substitute c d _ ih => simpa using EditScript.snoc_substitute c d ih
  | delete c _ ih => simpa using EditScript.snoc_delete c ih
  | insert d _ ih => simpa using EditScript.snoc_insert d ih

theorem IsEditDistance.unique {s t : List Char} {d e : Nat} (h : IsEditDistance s t d)
    (k : IsEditDistance s t e) : d = e :=
  Nat.le_antisymm (h.2 e k.1) (k.2 d h.1)

theorem IsEditDistance.swapped {s t : List Char} {d : Nat} (h : IsEditDistance s t d) :
    IsEditDistance t s d :=
  ⟨h.1.swap, fun n hn => h.2 n hn.swap⟩

theorem IsEditDistance.of_reverse {s t : List Char} {d : Nat}
    (h : IsEditDistance s.reverse t.reverse d) : IsEditDistance s t d :=
  ⟨by simpa using h.1.reverse, fun n hn => h.2 n hn.reverse⟩

theorem IsEditDistance.nil_left (t : List Char) : IsEditDistance [] t t.length :=
  ⟨EditScript.insertAll t, fun n hn => by simpa using hn.length_bound.2⟩

theorem IsEditDistance.nil_right (s : List Char) : IsEditDistance s [] s.length :=
  ⟨EditScript.deleteAll s, fun n hn => by simpa using hn.length_bound.1⟩

theorem IsEditDistance.step (x y : Char) {s t : List Char} {up cur diag : Nat}
    (hup : IsEditDistance s (y :: t) up) (hcur : IsEditDistance (x :: s) t cur)
    (hdiag : IsEditDistance s t diag) :
    IsEditDistance (x :: s) (y :: t)
      (min (min (up + 1) (cur + 1)) (diag + (if x = y then 0 else 1))) := by
  constructor
  · by_cases hxy : x = y
    · subst hxy
      have h1 : EditScript (x :: s) (x :: t) (up + 1) := EditScript.delete x hup.1
      have h2 : EditScript (x :: s) (x :: t) (cur + 1) := EditScript.insert x hcur.1
      have h3 : EditScript (x :: s) (x :: t) (diag + 0) := EditScript.keep x hdiag.1
      simp only [if_true]
      rcases Nat.le_total (min (up + 1) (cur + 1)) (diag + 0) with hle | hle
      · rw [Nat.min_eq_left hle]
        rcases Nat.le_total (up + 1) (cur + 1) with hle2 | hle2
        · rw [Nat.min_eq_left hle2]; exact h1
        · rw [Nat.min_eq_right hle2]; exact h2
      · rw [Nat.min_eq_right hle]; exact h3
    · have h1 : EditScript (x :: s) (y :: t) (up + 1) := EditScript.delete x hup.1
      have h2 : EditScript (x :: s) (y :: t) (cur + 1) := EditScript.insert y hcur.1
      have h3 : EditScript (x :: s) (y :: t) (diag + 1) := EditScript.substitute x y hdiag.1
      simp only [hxy, if_false]
      rcases Nat.le_total (min (up + 1) (cur + 1)) (diag + 1) with hle | hle
      · rw [Nat.min_eq_left hle]
        rcases Nat.le_total (up + 1) (cur + 1) with hle2 | hle2
        · rw [Nat.min_eq_left hle2]; exact h1
        · rw [Nat.min_eq_right hle2]; exact h2
      · rw [Nat.min_eq_right hle]; exact h3
  · intro n hn
    cases hn with
    | keep c h =>
      have := hdiag.2 _ h
      simp only [if_true]
      omega
    | substitute c d h =>
      have := hdiag.2 _ h
      split <;> omega
    | delete c h =>
      have := hup.2 _ h
      omega
    | insert d h =>
      have := hcur.2 _ h
      omega

theorem fillRow_spec (x : Char) (s : List Char) :
    ∀ (ys p : List Char) (diag cur : Nat) (above : List Nat),
      IsEditDistance s p diag → IsEditDistance (x :: s) p cur →
      List.Forall₂ (fun q v => IsEditDistance s q v) (laterPrefixes p ys) above →
      List.Forall₂ (fun q v => IsEditDistance (x :: s) q v) (laterPrefixes p ys)
        (fillRow x ys (diag :: above) cur) := by
  intro ys
  induction ys with
  | nil =>
    intro p diag cur above _ _ h
    cases h
    exact List.Forall₂.nil
  | cons y ys ih =>
    intro p diag cur above hdiag hcur h
    cases h with
    | cons hup hrest =>
      rename_i up above2
      have hv := IsEditDistance.step x y hup hcur hdiag
      simp only [laterPrefixes, fillRow]
      exact List.Forall₂.cons hv (ih (y :: p) up _ above2 hup hv hrest)

theorem firstRow_spec : ∀ (ys p : List Char),
    List.Forall₂ (fun q v => IsEditDistance [] q v) (p :: laterPrefixes p ys)
      (List.range' p.length (ys.length + 1))
  | [], p => by
    simp only [laterPrefixes, List.length_nil, Nat.zero_add, List.range'_one]
    exact List.Forall₂.cons (IsEditDistance.nil_left p) List.Forall₂.nil
  | y :: ys, p => by
    have ih := firstRow_spec ys (y :: p)
    simp only [laterPrefixes, List.length_cons, List.range'_succ] at ih ⊢
    exact List.Forall₂.cons (IsEditDistance.nil_left p) ih

theorem lastCell_spec (R : List Char → Nat → Prop) : ∀ (ys p : List Char) (row : List Nat),
    List.Forall₂ R (p :: laterPrefixes p ys) row → R (ys.reverse ++ p) (row.getD ys.length 0)
  | [], p, row, h => by
    cases h with
    | cons hv _ => simpa using hv
  | y :: ys, p, row, h => by
    cases h with
    | cons hv hrest =>
      have := lastCell_spec R ys (y :: p) _ hrest
      simpa [laterPrefixes] using this

theorem levenshteinRows_spec (right : List Char) :
    ∀ (left s : List Char) (st : List Nat × Nat),
      List.Forall₂ (fun q v => IsEditDistance s q v) ([] :: laterPrefixes [] right) st.1 →
      st.2 = s.length →
      List.Forall₂ (fun q v => IsEditDistance (left.reverse ++ s) q v)
        ([] :: laterPrefixes [] right)
        (left.foldl (fun st x => ((st.2 + 1) :: fillRow x right st.1 (st.2 + 1), st.2 + 1)) st).1 := by
  intro left
  induction left with
  | nil => intro s st h _; simpa using h
  | cons x left ih =>
    intro s st h hlen
    obtain ⟨row, i⟩ := st
    simp only at h hlen
    subst hlen
    cases h with
    | cons hzero hrest =>
      rename_i d0 above
      have hfirst : IsEditDistance (x :: s) [] (s.length + 1) := IsEditDistance.nil_right (x :: s)
      have hrow := fillRow_spec x s right [] d0 (s.length + 1) above hzero hfirst hrest
      have := ih (x :: s) ((s.length + 1) :: fillRow x right (d0 :: above) (s.length + 1),
        s.length + 1) (List.Forall₂.cons hfirst hrow) rfl
      simpa using this

theorem levenshtein_table (left right : List Char) :
    IsEditDistance left right ((levenshteinRows left right).1.getD right.length 0) := by
  have hinit : List.Forall₂ (fun q v => IsEditDistance [] q v) ([] :: laterPrefixes [] right)
      (List.range (right.length + 1)) := by
    rw [List.range_eq_range']
    exact firstRow_spec right []
  have hrows := levenshteinRows_spec right left [] (List.range (right.length + 1), 0) hinit rfl
  have hlast := lastCell_spec (fun q v => IsEditDistance (left.reverse ++ []) q v) right []
    _ hrows
  apply IsEditDistance.of_reverse
  simpa [levenshteinRows] using hlast

theorem levenshtein_distance (a b : JVal) :
    IsEditDistance (normalize a).data (normalize b).data (levenshtein a b) := by
  unfold levenshtein
  by_cases ha : (normalize a).length = 0
  · rw [if_pos ha]
    have : (normalize a).data = [] := List.length_eq_zero.1 ha
    rw [this]
    exact IsEditDistance.nil_left _
  · rw [if_neg ha]
    by_cases hb : (normalize b).length = 0
    · rw [if_pos hb]
      have : (normalize b).data = [] := List.length_eq_zero.1 hb
      rw [this]
      exact IsEditDistance.nil_right _
    · rw [if_neg hb]
      exact levenshtein_table _ _

/-- C30. For every pair of values `a` and `b`, `levenshtein(a, b)` is the edit
distance of their normalized forms: some script of that many single-character
insertions, deletions and substitutions turns the one into the other, and no
script has fewer.  It is symmetric, it is 0 exactly when the normalized forms
are equal, and it never exceeds the longer normalized length. -/
theorem levenshtein_spec (a b : JVal) :
    EditScript (normalize a).data (normalize b).data (levenshtein a b) ∧
      (∀ n, EditScript (normalize a).data (normalize b).data n → levenshtein a b ≤ n) ∧
      levenshtein a b = levenshtein b a ∧
      (levenshtein a b = 0 ↔ normalize a = normalize b) ∧
      levenshtein a b ≤ max (normalize a).length (normalize b).length := by
  have hab := levenshtein_distance a b
  have hba := levenshtein_distance b a
  refine ⟨hab.1, hab.2, hab.unique hba.swapped, ?_, ?_⟩
  · constructor
    · intro h0
      have := hab.1.eq_of_zero h0
      exact String.ext this
    · intro heq
      have h := hab.2 0 (by rw [heq]; exact EditScript.refl _)
      omega
  · obtain ⟨n, hn, hs⟩ := EditScript.within_longer (normalize a).data (normalize b).data
    exact Nat.le_trans (hab.2 n hs) hn

/-- Values of `normalize` and `levenshtein`, and the last row of the table for
`ab` and `abc`. -/
theorem levenshtein_runs :
    normalize (.str "  Xin   CHAO \n ban ") = "xin chao ban" ∧
      levenshtein (.str "kitten") (.str "Sitting ") = 3 ∧
      levenshtein (.str "") (.str "abc") = 3 ∧
      levenshtein (.str "flaw") (.str "lawn") = 2 ∧
      (levenshteinRows "ab".data "abc".data).1 = [2, 1, 0, 1] := by
  refine ⟨by decide, by decide, by decide, by decide, by decide⟩

end VocabClient
